import Mathlib

/-!
# BMP grayscale / box-blur program: shallow embedding and verified properties

The program under study (`code.c`) loads a 24-bit BMP file, applies a grayscale
or a box-blur transform to the pixel buffer and writes the result back.

Modelling conventions used throughout:

* a byte (`unsigned char`) is a `Fin 256`; a file and a pixel buffer are lists of bytes;
* `unsigned int` / `uint32_t` values are naturals, reduced `% 2 ^ 32` wherever the C
  arithmetic can wrap; `uint16_t` header fields are naturals below `2 ^ 16`;
* a function that may touch memory outside a buffer returns `Option`: `none` stands for
  undefined behaviour in C (an out-of-bounds access, or the overflow of an `int` loop
  counter), `some` for a completed run;
* `malloc` is assumed to succeed, and the memory it returns is indeterminate until it is
  assigned: testing and freeing a pointer field that was never assigned is undefined
  behaviour (`OpenResult.invalidFree`);
* `fopen`/`fwrite` failures are not modelled except for a missing input file (`none`
  passed to `BMP_open`);
* the OpenMP loops are modelled by their sequential program order;
* `double` and `float` arithmetic is modelled exactly (round-to-nearest-even on the
  53-bit resp. 24-bit significand) on non-negative values in the normal range, which is
  where every value computed by this program lies.
-/

namespace Bmp

/-! ## Bytes and little-endian fields -/

/-- An `unsigned char`. -/
abbrev Byte := Fin 256

/-- Conversion of an integer value to `unsigned char` (reduction modulo 256). -/
def toByte (n : Nat) : Byte := ⟨n % 256, Nat.mod_lt n (by decide)⟩

/-- Value of a little-endian byte string (x86 memory layout of an integer field). -/
def leDecode : List Byte → Nat
  | [] => 0
  | b :: bs => b.val + 256 * leDecode bs

/-- The `k` little-endian bytes of `n`. -/
def leEncode : Nat → Nat → List Byte
  | 0, _ => []
  | k + 1, n => toByte n :: leEncode k (n / 256)

/-! ## Header and image records (lines 19-47) -/

/-- The packed header record `BMP_Header` (`#pragma pack(1)`), field by field. -/
structure BMP_Header where
  type : Nat
  size : Nat
  reserved1 : Nat
  reserved2 : Nat
  offset : Nat
  header_size : Nat
  width : Nat
  height : Nat
  planes : Nat
  bits : Nat
  compression : Nat
  imagesize : Nat
  xresolution : Nat
  yresolution : Nat
  importantcolours : Nat
deriving DecidableEq, Repr

/-- Value of `sizeof(BMP_Header)`: the packed sizes of the fifteen declared fields
(five `uint16_t` and ten `uint32_t`). -/
def sizeofHeader : Nat := 2 + 4 + 2 + 2 + 4 + 4 + 4 + 4 + 2 + 2 + 4 + 4 + 4 + 4 + 4

/-- The record `BMP_Image`. -/
structure BMP_Image where
  header : BMP_Header
  pixel_size : Nat
  width : Nat
  height : Nat
  bytes_per_pixel : Nat
  pixel : List Byte
deriving DecidableEq, Repr

def MAGIC_VALUE : Nat := 0x4D42
def BITS_PER_PIXEL : Nat := 24
def NUM_PLANE : Nat := 1
def COMPRESSION : Nat := 0
def BITS_PER_BYTE : Nat := 8

/-- The bytes `[off, off + len)` of a byte string, read as a little-endian field. -/
def field (bs : List Byte) (off len : Nat) : Nat := leDecode ((bs.drop off).take len)

/-- The header record that `fread(&img->header, sizeof(BMP_Header), 1, fptr)` leaves in
memory when the stream starts with the bytes `bs` (packed layout, little endian). -/
def decodeHeader (bs : List Byte) : BMP_Header where
  type := field bs 0 2
  size := field bs 2 4
  reserved1 := field bs 6 2
  reserved2 := field bs 8 2
  offset := field bs 10 4
  header_size := field bs 14 4
  width := field bs 18 4
  height := field bs 22 4
  planes := field bs 26 2
  bits := field bs 28 2
  compression := field bs 30 4
  imagesize := field bs 34 4
  xresolution := field bs 38 4
  yresolution := field bs 42 4
  importantcolours := field bs 46 4

/-- The bytes that `fwrite(&img->header, sizeof(BMP_Header), 1, fptr)` emits. -/
def encodeHeader (h : BMP_Header) : List Byte :=
  leEncode 2 h.type ++ (leEncode 4 h.size ++ (leEncode 2 h.reserved1 ++
  (leEncode 2 h.reserved2 ++ (leEncode 4 h.offset ++ (leEncode 4 h.header_size ++
  (leEncode 4 h.width ++ (leEncode 4 h.height ++ (leEncode 2 h.planes ++
  (leEncode 2 h.bits ++ (leEncode 4 h.compression ++ (leEncode 4 h.imagesize ++
  (leEncode 4 h.xresolution ++ (leEncode 4 h.yresolution ++
  leEncode 4 h.importantcolours)))))))))))))

/-! ## Codec (lines 60-171) -/

/-- Function `checkHeader` (lines 60-78): four successive tests, `0` on the first failure. -/
def checkHeader (hdr : BMP_Header) : Nat :=
  if hdr.type ≠ MAGIC_VALUE then 0
  else if hdr.bits ≠ BITS_PER_PIXEL then 0
  else if hdr.planes ≠ NUM_PLANE then 0
  else if hdr.compression ≠ COMPRESSION then 0
  else 1

/-- Value of `img->pixel_size` as assigned on line 124: an `unsigned int` subtraction. -/
def pixelSizeOf (hdr : BMP_Header) : Nat := (hdr.size + 2 ^ 32 - sizeofHeader) % 2 ^ 32

/-- How a call of `BMP_open` ends: with a pointer to a completely initialised image, with
`NULL`, or inside `cleanUp` by testing and freeing the pointer `img->pixel` that was never
assigned (undefined behaviour). -/
inductive OpenResult where
  | image (img : BMP_Image) : OpenResult
  | null : OpenResult
  | invalidFree : OpenResult
deriving DecidableEq, Repr

/-- Function `cleanUp` (lines 80-91) as called from `BMP_open`.  The argument describes
`img`: `none` is the `NULL` pointer, `some none` a record fresh from `malloc` whose field
`pixel` has not been assigned, `some (some px)` a record whose field `pixel` points to the
allocated buffer `px`.  Lines 85-86 test `img->pixel` and pass it to `free`; for the
unassigned field this is a read of an indeterminate pointer. -/
def cleanUp (img : Option (Option (List Byte))) : OpenResult :=
  match img with
  | none => OpenResult.null
  | some none => OpenResult.invalidFree
  | some (some _) => OpenResult.null

/-- Function `BMP_open` (lines 94-152).  The argument is the content of the named file,
`none` when `fopen` fails.  `img->pixel` is first assigned on line 130, so the two header
failures (lines 114 and 120) reach `cleanUp` with the field unassigned. -/
def BMP_open (fptr : Option (List Byte)) : OpenResult :=
  match fptr with
  | none => cleanUp none
  | some file =>
    -- fread of one header record
    if file.length < sizeofHeader then cleanUp (some none)
    else
      let hdr := decodeHeader (file.take sizeofHeader)
      let rest := file.drop sizeofHeader
      if checkHeader hdr = 0 then cleanUp (some none)
      else
        let pixel_size := pixelSizeOf hdr
        -- fread of pixel_size bytes
        if rest.length < pixel_size then cleanUp (some (some (rest.take pixel_size)))
        -- fread of one more byte must return 0
        else if (rest.drop pixel_size).length ≠ 0 then
          cleanUp (some (some (rest.take pixel_size)))
        else OpenResult.image
          { header := hdr
            pixel_size := pixel_size
            width := hdr.width
            height := hdr.height
            bytes_per_pixel := hdr.bits / BITS_PER_BYTE
            pixel := rest.take pixel_size }

/-- Function `BMP_save` (lines 155-171): the bytes written to the output file on the
path that returns `1`; `none` if the pixel buffer is shorter than `pixel_size`. -/
def BMP_save (img : BMP_Image) : Option (List Byte) :=
  if img.pixel.length < img.pixel_size then none
  else some (encodeHeader img.header ++ img.pixel.take img.pixel_size)


/-! ## Floating-point arithmetic

IEEE 754 binary arithmetic with round-to-nearest-even, every operation rounded to the
format of its operands (no extended intermediate precision, no fused multiply-add), as
on x86-64 with SSE.  Only non-negative finite values occur in this program and all of them
lie in the normal range of the format, so signs, subnormals, infinities and NaN are left
out of the model.
-/

/-- A finite non-negative binary floating-point value `m * 2 ^ e`. -/
structure FP where
  m : Nat
  e : Int
deriving DecidableEq, Repr

/-- Number of binary digits of `m` (with `fuel ≥ m` steps available). -/
def bitLength : Nat → Nat → Nat
  | 0, _ => 0
  | fuel + 1, m => if m = 0 then 0 else bitLength fuel (m / 2) + 1

/-- Rounding to a `p`-bit significand, to nearest, ties to even: the `s` excess low bits
of the significand are dropped and the kept part is incremented when the dropped part
exceeds half a unit, or equals it and the kept part is odd. -/
def FP.round (p : Nat) (x : FP) : FP :=
  let s := bitLength x.m x.m - p
  let q := x.m / 2 ^ s
  let r := x.m % 2 ^ s
  if 2 ^ s < 2 * r ∨ (2 * r = 2 ^ s ∧ q % 2 = 1) then ⟨q + 1, x.e + s⟩ else ⟨q, x.e + s⟩

/-- Exact conversion of a small non-negative integer (here always a byte). -/
def FP.ofNat (n : Nat) : FP := ⟨n, 0⟩

/-- Correctly rounded quotient `a / b` of two positive integers with a `p`-bit
significand: the quotient is computed with more than `p + 2` bits and a sticky bit. -/
def FP.div (p : Nat) (a b : Nat) : FP :=
  let k := bitLength b b + p + 2
  let q := (a * 2 ^ k) / b
  let r := (a * 2 ^ k) % b
  FP.round p ⟨2 * q + (if r = 0 then 0 else 1), -((k : Int) + 1)⟩

/-- Correctly rounded product. -/
def FP.mul (p : Nat) (x y : FP) : FP := FP.round p ⟨x.m * y.m, x.e + y.e⟩

/-- Correctly rounded sum. -/
def FP.add (p : Nat) (x y : FP) : FP :=
  let e := min x.e y.e
  FP.round p ⟨x.m * 2 ^ (x.e - e).toNat + y.m * 2 ^ (y.e - e).toNat, e⟩

/-- Conversion to an integer type: the fractional part is discarded. -/
def FP.trunc (x : FP) : Nat :=
  if 0 ≤ x.e then x.m * 2 ^ x.e.toNat else x.m / 2 ^ (-x.e).toNat

/-- The rational value of a floating-point datum. -/
def FP.toRat (x : FP) : ℚ := (x.m : ℚ) * (2 : ℚ) ^ x.e

/-- Significand width of `double`. -/
def binary64 : Nat := 53

/-- Significand width of `float`. -/
def binary32 : Nat := 24

/-! ## Grayscale (lines 179-210) -/

/-- Function `RGB2Gray` (lines 179-182): the `double` value of
`0.2989*red + 0.5870*green + 0.1140*blue`, each decimal literal being the nearest
`double`, converted to `int` by the cast (the value is never negative). -/
def RGB2Gray (red green blue : Byte) : Nat :=
  FP.trunc
    (FP.add binary64
      (FP.add binary64
        (FP.mul binary64 (FP.div binary64 2989 10000) (FP.ofNat red.val))
        (FP.mul binary64 (FP.div binary64 5870 10000) (FP.ofNat green.val)))
      (FP.mul binary64 (FP.div binary64 1140 10000) (FP.ofNat blue.val)))

/-- Sequential execution of `n` iterations of a counted loop whose counter starts at `i`
and advances by `step`; an iteration that fails makes the loop fail. -/
def forCount {σ : Type} (step : Nat) (body : Nat → σ → Option σ) : Nat → Nat → σ → Option σ
  | 0, _, s => some s
  | n + 1, i, s =>
    match body i s with
    | none => none
    | some t => forCount step body n (i + step) t

/-- The loop `for (i = lo; i < hi; i += step) body` (`step > 0`) with a counter that does
not overflow: it runs `⌈(hi - lo) / step⌉` iterations. -/
def forLoop {σ : Type} (lo hi step : Nat) (body : Nat → σ → Option σ) (s : σ) : Option σ :=
  forCount step body ((hi - lo + (step - 1)) / step) lo s

/-- The counter of `for (int i = lo; i < hi; i += step)` stays representable.  The counter
is an `int` compared with an `unsigned int` bound; it is never negative, so the comparison
is exact, and after the last iteration it is incremented to `lo + n * step`, `n` being the
number of iterations.  That value, the largest the counter takes, has to be below `2 ^ 31`:
otherwise the increment overflows, which is undefined behaviour. -/
def intCounter (lo hi step : Nat) : Prop :=
  lo + ((hi - lo + (step - 1)) / step) * step < 2 ^ 31

instance (lo hi step : Nat) : Decidable (intCounter lo hi step) := by
  unfold intCounter
  infer_instance

/-- One iteration of the grayscale loop (lines 193-196) at counter value `pxl`: reads the
three bytes `pxl + 2`, `pxl + 1`, `pxl` and overwrites them with the gray byte. -/
def grayIteration (pixel : List Byte) (pxl : Nat) : Option (List Byte) :=
  match pixel[pxl + 2]?, pixel[pxl + 1]?, pixel[pxl]? with
  | some r, some g, some b =>
    let gray := toByte (RGB2Gray r g b)
    some (((pixel.set (pxl + 2) gray).set (pxl + 1) gray).set pxl gray)
  | _, _, _ => none

/-- The loop of `BMP_gray` (lines 191-197), the `int` counter `pxl` running from 0 in
steps of 3 while `pxl < img->pixel_size`. -/
def BMP_gray_loop (img : BMP_Image) : Option BMP_Image :=
  if intCounter 0 img.pixel_size 3 then
    match forLoop 0 img.pixel_size 3 (fun pxl px => grayIteration px pxl) img.pixel with
    | none => none
    | some px => some { img with pixel := px }
  else none

/-- Function `BMP_gray` (lines 184-210): the loop followed by `BMP_save`; the result is
the name and the content of the file written. -/
def BMP_gray (img : BMP_Image) : Option (String × List Byte) :=
  match BMP_gray_loop img with
  | none => none
  | some out =>
    match BMP_save out with
    | none => none
    | some bytes => some ("GrayScale.bmp", bytes)

/-- The grayscale transform written as a function on a buffer of whole pixels
(B, G, R): every pixel is replaced by three copies of its gray byte. -/
def grayPixels : List Byte → List Byte
  | b :: g :: r :: rest =>
    toByte (RGB2Gray r g b) :: toByte (RGB2Gray r g b) :: toByte (RGB2Gray r g b) ::
      grayPixels rest
  | rest => rest

/-- The luminance of the specification: `round(0.1140·B + 0.5870·G + 0.2989·R)`, rounded
to the nearest integer. -/
def specLuminance (B G R : Byte) : Nat :=
  (1140 * B.val + 5870 * G.val + 2989 * R.val + 5000) / 10000

/-- An image record around a given pixel buffer (header of a 24-bit bitmap). -/
def imageOf (width height : Nat) (pixel : List Byte) : BMP_Image where
  header :=
    { type := 0x4D42, size := pixel.length + sizeofHeader, reserved1 := 0, reserved2 := 0,
      offset := 54, header_size := 40, width := width, height := height, planes := 1,
      bits := 24, compression := 0, imagesize := 0, xresolution := 2835,
      yresolution := 2835, importantcolours := 0 }
  pixel_size := pixel.length
  width := width
  height := height
  bytes_per_pixel := 3
  pixel := pixel

/-! ## Box blur (lines 213-320) -/

/-- Bounds-checked store `buf[idx] = v`. -/
def store (buf : List Byte) (idx : Nat) (v : Byte) : Option (List Byte) :=
  if idx < buf.length then some (buf.set idx v) else none

/-- Bounds-checked `memcpy(&dst[d], &src[s], n)`. -/
def memcpy (dst : List Byte) (d : Nat) (src : List Byte) (s n : Nat) : Option (List Byte) :=
  if s + n ≤ src.length ∧ d + n ≤ dst.length then
    some (dst.take d ++ ((src.drop s).take n ++ dst.drop (d + n)))
  else none

/-- The value stored in every cell by `kernel` (line 234): `1.0 / (size * size)` with the
product taken in `unsigned int`, the quotient in `double`, converted to `float`. -/
def kernelValue (size : Nat) : FP :=
  FP.round binary32 (FP.div binary64 1 ((size * size) % 2 ^ 32))

/-- Function `kernel` (lines 213-242): `size` rows of `size * 3` equal cells. -/
def kernel (size : Nat) : List (List FP) :=
  List.replicate size (List.replicate ((size * 3) % 2 ^ 32) (kernelValue size))

/-- Function `pixelMat` (lines 244-267).  The result is the contiguous block `matData`
of `height * width` bytes; row pointer `mat[i]` is offset `i * width` into it.  Row `i`
is copied from `&img->pixel[i * img->width * 3]`.  The fresh block starts as zeros; the
loop overwrites each of its bytes before any of them is read. -/
def pixelMat (img : BMP_Image) : Option (List Byte) :=
  let height := img.height
  let width := (img.width * 3) % 2 ^ 32
  forLoop 0 height 1
    (fun i mat => memcpy mat ((i * width) % 2 ^ 32) img.pixel ((i * img.width * 3) % 2 ^ 32) width)
    (List.replicate (height * width) 0)

/-- Offset into `matData` of the cell `out_buffer[i][j]`: row pointer `mat[i]` exists
only for `i < height`. -/
def outIndex (height width i j : Nat) : Option Nat :=
  if i < height then some ((i * width) % 2 ^ 32 + j) else none

/-- The two innermost loops of `BMP_blur` (lines 283-288) for the cell `(i, j)`: the
counters `kk` and `ll` stand for `k + M` and `l + M`, so that row `i + k` is `i + kk - M`
and byte column `j + l` is `j + ll - M`; the index is reduced as `unsigned int`. -/
def blurSum (pixel : List Byte) (Createkernel : List (List FP)) (width M i j : Nat) :
    Option FP :=
  forLoop 0 (2 * M + 1) 1
    (fun kk sum =>
      forLoop 0 (2 * M + 1) 1
        (fun ll sum =>
          match (Createkernel[kk]?).bind (fun row => row[ll]?),
              pixel[((i + kk - M) * width + (j + ll - M)) % 2 ^ 32]? with
          | some c, some v => some (FP.add binary32 sum (FP.mul binary32 c (FP.ofNat v.val)))
          | _, _ => none)
        sum)
    ⟨0, 0⟩

/-- First loop nest of `BMP_blur` (lines 281-291): every cell `(i, j)` of the interior
receives `(char)sum`.  The conversion goes through a 32-bit integer of which the low byte
is kept (x86-64), and the byte is read back as `unsigned char` by the copy-back loop, so
the cell holds the truncated sum modulo 256.  The bounds `height - M` and `width - M` are
`unsigned int` differences. -/
def blurFill (pixel : List Byte) (Createkernel : List (List FP)) (height width M : Nat)
    (out_buffer : List Byte) : Option (List Byte) :=
  forLoop M ((height + 2 ^ 32 - M) % 2 ^ 32) 1
    (fun i out =>
      forLoop M ((width + 2 ^ 32 - M) % 2 ^ 32) 1
        (fun j out =>
          match blurSum pixel Createkernel width M i j, outIndex height width i j with
          | some sum, some idx => store out idx (toByte sum.trunc)
          | _, _ => none)
        out)
    out_buffer

/-- Second loop nest of `BMP_blur` (lines 294-298): copy back rows `1 .. height - 2`,
byte columns `1 .. width - 2`. -/
def blurCopyBack (out_buffer : List Byte) (height width : Nat) (pixel : List Byte) :
    Option (List Byte) :=
  forLoop 1 ((height + 2 ^ 32 - 1) % 2 ^ 32) 1
    (fun i px =>
      forLoop 1 ((width + 2 ^ 32 - 1) % 2 ^ 32) 1
        (fun j px =>
          match (outIndex height width i j).bind (fun idx => out_buffer[idx]?) with
          | some v => store px ((i * width + j) % 2 ^ 32) v
          | none => none)
        px)
    pixel

/-- Value of `M` (line 276): `(size - 1) / 2` in `unsigned int`. -/
def halfWidth (size : Nat) : Nat := ((size + 2 ^ 32 - 1) % 2 ^ 32) / 2

/-- The `int` loop counters of `kernel` and `BMP_blur` stay representable, loop by loop:
`i` and `j` of `kernel` (lines 222, 235, 236; the `j` loop runs only if there is a row),
`i` of the first nest (line 281), `j` of the first nest if that nest has a row (line 282),
`k` and `l`, which end at `M + 1`, if there is a cell (lines 284, 285), `i` of the
copy-back (line 294) and `j` of the copy-back if it has a row (line 295). -/
def blurCounters (height width size : Nat) : Prop :=
  intCounter 0 size 1 ∧
  (0 < size → intCounter 0 ((size * 3) % 2 ^ 32) 1) ∧
  intCounter (halfWidth size) ((height + 2 ^ 32 - halfWidth size) % 2 ^ 32) 1 ∧
  (halfWidth size < (height + 2 ^ 32 - halfWidth size) % 2 ^ 32 →
    intCounter (halfWidth size) ((width + 2 ^ 32 - halfWidth size) % 2 ^ 32) 1 ∧
    (halfWidth size < (width + 2 ^ 32 - halfWidth size) % 2 ^ 32 →
      halfWidth size + 1 < 2 ^ 31)) ∧
  intCounter 1 ((height + 2 ^ 32 - 1) % 2 ^ 32) 1 ∧
  (1 < (height + 2 ^ 32 - 1) % 2 ^ 32 → intCounter 1 ((width + 2 ^ 32 - 1) % 2 ^ 32) 1)

instance (height width size : Nat) : Decidable (blurCounters height width size) := by
  unfold blurCounters
  infer_instance

/-- The transform part of `BMP_blur` (lines 271-298) on a loaded image: `pixelMat`, the
first loop nest into `out_buffer`, the copy back into `img->pixel`; `height` is
`img->height` and `width` is `img->width * 3` in `unsigned int`.  The loops are written
with natural counters; the run is undefined when an `int` counter of the source would
overflow (`blurCounters`). -/
def BMP_blur_loops (img : BMP_Image) (size : Nat) : Option BMP_Image :=
  if blurCounters img.height ((img.width * 3) % 2 ^ 32) size then
    (pixelMat img).bind (fun out_buffer =>
      (blurFill img.pixel (kernel size) img.height ((img.width * 3) % 2 ^ 32) (halfWidth size)
        out_buffer).bind (fun filled =>
          (blurCopyBack filled img.height ((img.width * 3) % 2 ^ 32) img.pixel).map
            (fun px => { img with pixel := px })))
  else none

/-- Rendering of `size` by the conversion `%02d`: decimal, padded with a leading zero to
at least two characters (`size` is below `2 ^ 31`, so `%d` prints it unchanged). -/
def twoDigits (n : Nat) : String :=
  if n < 10 then "0" ++ toString n else toString n

/-- The name built in `name[20]` (lines 300-305). -/
def blurName (filename : String) (size : Nat) : String :=
  if filename = "HorizontalRot.bmp" then "Rblur" ++ twoDigits size ++ "X.bmp"
  else "Blur" ++ twoDigits size ++ ".bmp"

/-- How a run of `BMP_blur` ends: inside `BMP_open` by the free of the unassigned
`img->pixel`, by reading a field through a `NULL` image pointer, by an access outside a
buffer or the overflow of a loop counter, or with an output file written. -/
inductive Outcome where
  | invalidFree : Outcome
  | nullDereference : Outcome
  | outOfBounds : Outcome
  | written (name : String) (bytes : List Byte) : Outcome
deriving DecidableEq, Repr

/-- Lines 307-314: `BMP_save` of the blurred image under the given name. -/
def saveOutcome (name : String) (out : BMP_Image) : Outcome :=
  match BMP_save out with
  | none => Outcome.outOfBounds
  | some bytes => Outcome.written name bytes

/-- Lines 271-314 for a non-`NULL` image. -/
def blurOutcome (img : BMP_Image) (filename : String) (size : Nat) : Outcome :=
  match BMP_blur_loops img size with
  | none => Outcome.outOfBounds
  | some out => saveOutcome (blurName filename size) out

/-- Function `BMP_blur` (lines 269-320).  The arguments are the content of the input file
(`none` if it cannot be opened), its name and the kernel size.  The pointer returned by
`BMP_open` is passed to `pixelMat` unchecked; when it is `NULL`, the first statement of
`pixelMat` (line 245) reads `img->height` through it. -/
def BMP_blur (fptr : Option (List Byte)) (filename : String) (size : Nat) : Outcome :=
  match BMP_open fptr with
  | OpenResult.invalidFree => Outcome.invalidFree
  | OpenResult.null => Outcome.nullDereference
  | OpenResult.image img => blurOutcome img filename size

/-- The single-precision accumulation performed for the cell at byte row `i` and byte
column `j`: the products of the kernel value with the `(2M+1) × (2M+1)` bytes centred
there, rows `width` bytes apart and neighbours one byte apart, added up row by row. -/
def windowSum (pixel : List Byte) (size width M i j : Nat) : FP :=
  (List.range (2 * M + 1)).foldl
    (fun sum kk =>
      (List.range (2 * M + 1)).foldl
        (fun sum ll =>
          FP.add binary32 sum
            (FP.mul binary32 (kernelValue size)
              (FP.ofNat (pixel.getD ((i + kk - M) * width + (j + ll - M)) 0).val)))
        sum)
    ⟨0, 0⟩

/-- The mean of the specification: the truncated unweighted mean of channel `c` over the
`N × N` pixels centred at pixel `(x, y)`, samples of one channel being 3 bytes apart. -/
def specChannelMean (pixel : List Byte) (width N x y c : Nat) : Nat :=
  ((List.range N).foldl
    (fun acc dy =>
      (List.range N).foldl
        (fun acc dx =>
          acc + (pixel.getD ((y + dy - (N - 1) / 2) * (3 * width) +
            3 * (x + dx - (N - 1) / 2) + c) 0).val)
        acc)
    0) / (N * N)

/-- Preconditions under which the loops of `BMP_blur` stay inside their buffers: an odd
kernel size `N ≥ 3` whose half width fits the image, and a pixel buffer (of `unsigned int`
size) that holds `height` rows of `3 * width` bytes. -/
def BlurPre (img : BMP_Image) (N : Nat) : Prop :=
  N % 2 = 1 ∧ 3 ≤ N ∧ (N - 1) / 2 ≤ img.height ∧ (N - 1) / 2 ≤ 3 * img.width ∧
    img.height * (3 * img.width) ≤ img.pixel.length ∧ img.pixel.length < 2 ^ 32

instance (img : BMP_Image) (N : Nat) : Decidable (BlurPre img N) := by
  unfold BlurPre
  infer_instance

/-- A 4x3 image all of whose pixels are (B=0, G=240, R=240); rows are 12 bytes long. -/
def yellowImage : BMP_Image :=
  imageOf 4 3 ((List.replicate 12 [0, 240, 240]).flatten)

/-! ## Concrete files used as test inputs -/

/-- A standard 1x1 24-bit BMP file: the 14-byte file header, the 40-byte info header and
one padded row holding the pixel (B=10, G=20, R=200); 58 bytes, data offset 54. -/
def bmp1x1 : List Byte :=
  [0x42, 0x4D, 58, 0, 0, 0, 0, 0, 0, 0, 54, 0, 0, 0,
   40, 0, 0, 0, 1, 0, 0, 0, 1, 0, 0, 0, 1, 0, 24, 0, 0, 0, 0, 0, 4, 0, 0, 0,
   0x13, 0x0B, 0, 0, 0x13, 0x0B, 0, 0, 0, 0, 0, 0, 0, 0, 0, 0,
   10, 20, 200, 0]

/-- The file `bmp1x1` with the bit depth field changed to 32. -/
def bmp32bit : List Byte := (bmp1x1.take 28 ++ [32, 0]) ++ bmp1x1.drop 30

/-- The file `bmp1x1` without its last byte. -/
def bmpTruncated : List Byte := bmp1x1.take 57

/-- The file `bmp1x1` followed by one more byte. -/
def bmpTrailing : List Byte := bmp1x1 ++ [7]

/-- The first 49 bytes of `bmp1x1`: one byte short of a header record. -/
def bmpShort : List Byte := bmp1x1.take 49

/-- The image that `BMP_open` builds from `bmp1x1`: a 50-byte header record and the
remaining 8 bytes as pixel buffer. -/
def bmp1x1Image : BMP_Image where
  header :=
    { type := 0x4D42, size := 58, reserved1 := 0, reserved2 := 0, offset := 54,
      header_size := 40, width := 1, height := 1, planes := 1, bits := 24,
      compression := 0, imagesize := 4, xresolution := 2835, yresolution := 2835,
      importantcolours := 0 }
  pixel_size := 8
  width := 1
  height := 1
  bytes_per_pixel := 3
  pixel := [0, 0, 0, 0, 10, 20, 200, 0]


/-- The row stride of the specification: rows padded to a multiple of 4 bytes. -/
def rowStride (width : Nat) : Nat := ((width * 3 + 3) / 4) * 4

/-- The byte indices that the loop of `BMP_gray` reads and writes, in program order:
iteration `pxl = 3 * k` touches `pxl + 2`, `pxl + 1` and `pxl`. -/
def grayLoopIndices (pixel_size : Nat) : List Nat :=
  (List.range ((pixel_size - 0 + (3 - 1)) / 3)).flatMap (fun k => [3 * k + 2, 3 * k + 1, 3 * k])

/-- A buffer of 2147483649 bytes (715827883 whole pixels), byte `k` holding `k mod 256`:
the size is the first multiple of 3 above `INT_MAX = 2147483647`. -/
def hugeBuffer : List Byte := (List.range 2147483649).map toByte

/-- An image record around `hugeBuffer`: one row of 715827883 pixels. -/
def hugeImage : BMP_Image := imageOf 715827883 1 hugeBuffer

/-- The file `bmp1x1` with the width field changed to 100. -/
def bmpWide : List Byte := (bmp1x1.take 18 ++ [100]) ++ bmp1x1.drop 19

/-- A well-formed 17x50 24-bit BMP file, all black: 54 header bytes and 50 rows of
51 pixel bytes padded to 52. -/
def tallFile : List Byte :=
  [0x42, 0x4D, 0x5E, 0x0A, 0, 0, 0, 0, 0, 0, 54, 0, 0, 0,
   40, 0, 0, 0, 17, 0, 0, 0, 50, 0, 0, 0, 1, 0, 24, 0, 0, 0, 0, 0, 0x28, 0x0A, 0, 0,
   0x13, 0x0B, 0, 0, 0x13, 0x0B, 0, 0, 0, 0, 0, 0, 0, 0, 0, 0] ++ List.replicate 2600 0

/-- The image that `BMP_open` builds from `tallFile`. -/
def tallImage : BMP_Image where
  header :=
    { type := 0x4D42, size := 2654, reserved1 := 0, reserved2 := 0, offset := 54,
      header_size := 40, width := 17, height := 50, planes := 1, bits := 24,
      compression := 0, imagesize := 2600, xresolution := 2835, yresolution := 2835,
      importantcolours := 0 }
  pixel_size := 2604
  width := 17
  height := 50
  bytes_per_pixel := 3
  pixel := List.replicate 2604 0


/-- The copy-back loop nest restricted to the rows `M .. height - M - 1` and the byte
columns `M .. width - M - 1` that the first loop nest fills (the bounds the
specification adopts), with the body of lines 294-298. -/
def blurCopyBackInterior (out_buffer : List Byte) (height width M : Nat) (pixel : List Byte) :
    Option (List Byte) :=
  forLoop M ((height + 2 ^ 32 - M) % 2 ^ 32) 1
    (fun i px =>
      forLoop M ((width + 2 ^ 32 - M) % 2 ^ 32) 1
        (fun j px =>
          match (outIndex height width i j).bind (fun idx => out_buffer[idx]?) with
          | some v => store px ((i * width + j) % 2 ^ 32) v
          | none => none)
        px)
    pixel

/-- The loops of `BMP_blur` with the copy-back restricted to the filled cells. -/
def BMP_blur_loops_interior (img : BMP_Image) (size : Nat) : Option BMP_Image :=
  if blurCounters img.height ((img.width * 3) % 2 ^ 32) size then
    (pixelMat img).bind (fun out_buffer =>
      (blurFill img.pixel (kernel size) img.height ((img.width * 3) % 2 ^ 32) (halfWidth size)
        out_buffer).bind (fun filled =>
          (blurCopyBackInterior filled img.height ((img.width * 3) % 2 ^ 32) (halfWidth size)
            img.pixel).map (fun px => { img with pixel := px })))
  else none

/-- A 3x3 image of pixels (90, 90, 90) stored with the row padding of the BMP format:
three rows of 9 pixel bytes followed by 3 padding bytes 0. -/
def paddedImage : BMP_Image :=
  imageOf 3 3 ((List.replicate 3 (List.replicate 9 90 ++ [0, 0, 0])).flatten)

/-! ## Execution of the loop iterations in an arbitrary order -/

/-- Sequential execution of the iterations named in `order`, one after the other. -/
def runIterations {ι σ : Type} (body : ι → σ → Option σ) (order : List ι) (s : σ) : Option σ :=
  order.foldl (fun acc a => acc.bind (body a)) (some s)

/-- The counter values of `for (i = lo; i < hi; i += step)` in program order. -/
def iterationSpace (lo hi step : Nat) : List Nat :=
  (List.range ((hi - lo + (step - 1)) / step)).map (fun k => lo + step * k)

/-- The pairs of counter values of two nested unit-step loops (`collapse(2)`) in program
order. -/
def iterationSpace2 (ilo ihi jlo jhi : Nat) : List (Nat × Nat) :=
  (iterationSpace ilo ihi 1).flatMap (fun i => (iterationSpace jlo jhi 1).map (fun j => (i, j)))

/-- The value of `gray` computed by the iteration `pxl` of the grayscale loop (line 193). -/
def grayByte (pixel : List Byte) (pxl : Nat) : Byte :=
  toByte (RGB2Gray (pixel.getD (pxl + 2) 0) (pixel.getD (pxl + 1) 0) (pixel.getD pxl 0))

/-- The grayscale loop with its iterations executed in the given order. -/
def BMP_gray_loop_in (order : List Nat) (img : BMP_Image) : Option BMP_Image :=
  (runIterations (fun pxl px => grayIteration px pxl) order img.pixel).map
    (fun px => { img with pixel := px })

/-- Body of the first loop nest of `BMP_blur` for the iteration `(i, j)`. -/
def blurFillCell (pixel : List Byte) (Createkernel : List (List FP)) (height width M : Nat)
    (a : Nat × Nat) (out : List Byte) : Option (List Byte) :=
  match blurSum pixel Createkernel width M a.1 a.2, outIndex height width a.1 a.2 with
  | some sum, some idx => store out idx (toByte sum.trunc)
  | _, _ => none

/-- Body of the copy-back loop nest of `BMP_blur` for the iteration `(i, j)`. -/
def blurCopyBackCell (out_buffer : List Byte) (height width : Nat) (a : Nat × Nat)
    (px : List Byte) : Option (List Byte) :=
  match (outIndex height width a.1 a.2).bind (fun idx => out_buffer[idx]?) with
  | some v => store px ((a.1 * width + a.2) % 2 ^ 32) v
  | none => none

/-- Iteration space of the first loop nest of `BMP_blur` (lines 281-282). -/
def blurFillSpace (height width M : Nat) : List (Nat × Nat) :=
  iterationSpace2 M ((height + 2 ^ 32 - M) % 2 ^ 32) M ((width + 2 ^ 32 - M) % 2 ^ 32)

/-- Iteration space of the copy-back loop nest of `BMP_blur` (lines 294-295). -/
def blurCopyBackSpace (height width : Nat) : List (Nat × Nat) :=
  iterationSpace2 1 ((height + 2 ^ 32 - 1) % 2 ^ 32) 1 ((width + 2 ^ 32 - 1) % 2 ^ 32)

/-- The loops of `BMP_blur` with the iterations of the first nest executed in the order
`order1` and those of the copy-back nest in the order `order2`. -/
def BMP_blur_loops_in (order1 order2 : List (Nat × Nat)) (img : BMP_Image) (size : Nat) :
    Option BMP_Image :=
  (pixelMat img).bind (fun out_buffer =>
    (runIterations (blurFillCell img.pixel (kernel size) img.height ((img.width * 3) % 2 ^ 32)
      (halfWidth size)) order1 out_buffer).bind (fun filled =>
        (runIterations (blurCopyBackCell filled img.height ((img.width * 3) % 2 ^ 32)) order2
          img.pixel).map (fun px => { img with pixel := px })))

/-! ## Blur of a constant image -/

/-- An image of `width × height` pixels whose `3 * width * height` bytes all equal `v`
(rows of `3 * width` bytes, no padding). -/
def constantImage (width height : Nat) (v : Byte) : BMP_Image :=
  imageOf width height (List.replicate (height * (3 * width)) v)

/-- The running `float` sum after `n` further executions of `sum += c` (line 286) with one
and the same product `c`. -/
def addRepeat (c : FP) : Nat → FP → FP
  | 0, s => s
  | n + 1, s => addRepeat c n (FP.add binary32 s c)

/-! ## Blur of a constant image: evaluation of the accumulation

The window sum of a constant image is the `N²`-fold accumulation of one product `c`.  The
definitions below evaluate that accumulation on the significands alone, a whole binade at a
time; they are written with the primitive operations of `Nat` and `Bool`. -/

/-- The quotient `x / 2^t` rounded to nearest, ties to even: the significand kept by
`FP.round` when it drops the `t` low bits of `x`. -/
def roundAt (x t : Nat) : Nat :=
  cond (Nat.blt (Nat.pow 2 t) (Nat.mul 2 (Nat.mod x (Nat.pow 2 t))) ||
      (Nat.beq (Nat.mul 2 (Nat.mod x (Nat.pow 2 t))) (Nat.pow 2 t) &&
        Nat.beq (Nat.mod (Nat.div x (Nat.pow 2 t)) 2) 1))
    (Nat.succ (Nat.div x (Nat.pow 2 t))) (Nat.div x (Nat.pow 2 t))

/-- Number of bits by which `x < 2^32` exceeds a 24-bit significand. -/
def excessBits (x : Nat) : Nat :=
  cond (Nat.blt x 16777216) 0 (cond (Nat.blt x 33554432) 1 (cond (Nat.blt x 67108864) 2
    (cond (Nat.blt x 134217728) 3 (cond (Nat.blt x 268435456) 4 (cond (Nat.blt x 536870912) 5
      (cond (Nat.blt x 1073741824) 6 (cond (Nat.blt x 2147483648) 7 8)))))))

/-- Growth of the significand `m` of the running sum under one `sum += c` that stays in the
binade of the sum, where `c` has significand `mc` and an exponent smaller by `sh`: `mc`
shifted by `sh` bits and rounded to nearest, a tie going to the even neighbour of an even
`m`.  The value is 0 in the one case that is not uniform, a tie at an odd `m`. -/
def jumpIncrement (mc m sh : Nat) : Nat :=
  cond (Nat.blt (Nat.pow 2 sh) (Nat.mul 2 (Nat.mod mc (Nat.pow 2 sh))))
    (Nat.succ (Nat.div mc (Nat.pow 2 sh)))
    (cond (Nat.beq (Nat.mul 2 (Nat.mod mc (Nat.pow 2 sh))) (Nat.pow 2 sh))
      (cond (Nat.beq (Nat.mod m 2) 0)
        (Nat.add (Nat.div mc (Nat.pow 2 sh)) (Nat.mod (Nat.div mc (Nat.pow 2 sh)) 2)) 0)
      (Nat.div mc (Nat.pow 2 sh)))

/-- Number of the next `n` additions that keep the significand below `2^24`, hence the sum
in its binade. -/
def jumpCount (mc m sh n : Nat) : Nat :=
  cond (Nat.ble n (Nat.div (Nat.sub 16777215 m) (jumpIncrement mc m sh))) n
    (Nat.div (Nat.sub 16777215 m) (jumpIncrement mc m sh))

/-- The exact sum, in units of the last place of `c`, of the addition that follows the
`jumpCount` additions inside the binade. -/
def jumpEnd (mc m sh n : Nat) : Nat :=
  Nat.add (Nat.mul (Nat.add m (Nat.mul (jumpCount mc m sh n) (jumpIncrement mc m sh)))
    (Nat.pow 2 sh)) mc

/-- The running sum after `n` further executions of `sum += c`: the significand and the
exponent offset `(m, sh)` of the sum are advanced by `jumpCount` additions at once and then
by one addition that is rounded on its own.  `fuel` bounds the number of such rounds. -/
def accumulate (mc : Nat) : Nat → Nat → Nat → Nat → Option (Nat × Nat)
  | 0, _, _, _ => none
  | fuel + 1, m, sh, n =>
    cond (Nat.beq (jumpCount mc m sh n) n)
      (some (Nat.add m (Nat.mul n (jumpIncrement mc m sh)), sh))
      (cond (Nat.blt (jumpEnd mc m sh n) (Nat.pow 2 (Nat.add 24 sh)))
        (accumulate mc fuel (roundAt (jumpEnd mc m sh n) sh) sh
          (Nat.pred (Nat.sub n (jumpCount mc m sh n))))
        (accumulate mc fuel (roundAt (jumpEnd mc m sh n) (Nat.succ sh)) (Nat.succ sh)
          (Nat.pred (Nat.sub n (jumpCount mc m sh n)))))

/-- Whether the `N²`-fold accumulation of `(K · 2^-E) · v` truncates to `v` or to `v - 1`,
for a kernel value of significand `K` and exponent `-E` and a byte `v ≥ 1`. -/
def constantBlurCheck (K E N v : Nat) : Bool :=
  Nat.ble 1 v &&
  Nat.blt (roundAt (Nat.mul K v) (excessBits (Nat.mul K v))) 16777216 &&
  match accumulate (roundAt (Nat.mul K v) (excessBits (Nat.mul K v))) 40
      (roundAt (Nat.mul K v) (excessBits (Nat.mul K v))) 0 (Nat.pred (Nat.mul N N)) with
  | some (m, sh) =>
    Nat.ble (Nat.add (excessBits (Nat.mul K v)) sh) E &&
      (Nat.beq (Nat.div m (Nat.pow 2 (Nat.sub E (Nat.add (excessBits (Nat.mul K v)) sh)))) v ||
        Nat.beq (Nat.succ
          (Nat.div m (Nat.pow 2 (Nat.sub E (Nat.add (excessBits (Nat.mul K v)) sh))))) v)
  | none => false

/-- The check for all bytes `v < V` with `v · (N² + 1) > 32500000`; the others are covered
by the bound on the accumulated rounding error. -/
def constantBlurRow (K E N : Nat) : Nat → Bool
  | 0 => true
  | v + 1 =>
    (Nat.ble (Nat.mul v (Nat.succ (Nat.mul N N))) 32500000 || constantBlurCheck K E N v) &&
      constantBlurRow K E N v

/-- The check of one kernel size `N`, with the kernel value of the program. -/
def constantBlurRowOK (N : Nat) : Bool :=
  decide ((kernelValue N).e ≤ 0) && Nat.ble 8388608 (kernelValue N).m &&
    Nat.blt (kernelValue N).m 16777216 &&
    constantBlurRow (kernelValue N).m (-(kernelValue N).e).toNat N 256

/-- The check of the `k` kernel sizes `lo, lo + 2, …, lo + 2 (k - 1)`. -/
def constantBlurRows (lo : Nat) : Nat → Bool
  | 0 => true
  | k + 1 => constantBlurRowOK (lo + 2 * k) && constantBlurRows lo k

/-! # Theorems -/

/-! ## Little-endian fields and the header bytes -/

theorem toByte_val (b : Byte) (d : Nat) : toByte (b.val + 256 * d) = b := by
  apply Fin.ext
  simp only [toByte]
  have := b.isLt
  omega

theorem leEncode_leDecode (l : List Byte) : leEncode l.length (leDecode l) = l := by
  induction l with
  | nil => rfl
  | cons b bs ih =>
    simp only [List.length_cons, leDecode, leEncode, toByte_val]
    have h : (b.val + 256 * leDecode bs) / 256 = leDecode bs := by
      have := b.isLt
      omega
    rw [h, ih]

theorem leEncode_field (bs : List Byte) (off len : Nat) (h : off + len ≤ bs.length) :
    leEncode len (field bs off len) = (bs.drop off).take len := by
  have hl : ((bs.drop off).take len).length = len := by
    simp only [List.length_take, List.length_drop]
    omega
  have := leEncode_leDecode ((bs.drop off).take len)
  rw [hl] at this
  exact this

theorem slice_append (bs : List Byte) (a b k m : Nat) (h : b = a + k) :
    (bs.drop a).take k ++ (bs.drop b).take m = (bs.drop a).take (k + m) := by
  subst h
  rw [List.take_add, List.drop_drop]

theorem encodeHeader_decodeHeader (bs : List Byte) (h : bs.length = sizeofHeader) :
    encodeHeader (decodeHeader bs) = bs := by
  have h50 : bs.length = 50 := h
  simp only [encodeHeader, decodeHeader]
  rw [leEncode_field bs 0 2 (by omega), leEncode_field bs 2 4 (by omega),
    leEncode_field bs 6 2 (by omega), leEncode_field bs 8 2 (by omega),
    leEncode_field bs 10 4 (by omega), leEncode_field bs 14 4 (by omega),
    leEncode_field bs 18 4 (by omega), leEncode_field bs 22 4 (by omega),
    leEncode_field bs 26 2 (by omega), leEncode_field bs 28 2 (by omega),
    leEncode_field bs 30 4 (by omega), leEncode_field bs 34 4 (by omega),
    leEncode_field bs 38 4 (by omega), leEncode_field bs 42 4 (by omega),
    leEncode_field bs 46 4 (by omega)]
  rw [slice_append bs 42 46 4 4 rfl, slice_append bs 38 42 4 _ rfl,
    slice_append bs 34 38 4 _ rfl, slice_append bs 30 34 4 _ rfl,
    slice_append bs 28 30 2 _ rfl, slice_append bs 26 28 2 _ rfl,
    slice_append bs 22 26 4 _ rfl, slice_append bs 18 22 4 _ rfl,
    slice_append bs 14 18 4 _ rfl, slice_append bs 10 14 4 _ rfl,
    slice_append bs 8 10 2 _ rfl, slice_append bs 6 8 2 _ rfl,
    slice_append bs 2 6 4 _ rfl, slice_append bs 0 2 2 _ rfl]
  simp only [List.drop_zero]
  exact List.take_of_length_le (by omega)

/-! ## The codec -/

theorem checkHeader_eq_one_iff (hdr : BMP_Header) :
    checkHeader hdr = 1 ↔
      hdr.type = 0x4D42 ∧ hdr.bits = 24 ∧ hdr.planes = 1 ∧ hdr.compression = 0 := by
  unfold checkHeader MAGIC_VALUE BITS_PER_PIXEL NUM_PLANE COMPRESSION
  by_cases h1 : hdr.type = 0x4D42 <;> by_cases h2 : hdr.bits = 24 <;>
    by_cases h3 : hdr.planes = 1 <;> by_cases h4 : hdr.compression = 0 <;> simp [h1, h2, h3, h4]

theorem checkHeader_zero_or_one (hdr : BMP_Header) : checkHeader hdr = 0 ∨ checkHeader hdr = 1 := by
  unfold checkHeader
  split_ifs <;> simp

/-- Characterisation of the accepting path of `BMP_open`. -/
theorem BMP_open_eq_image_iff (file : List Byte) (img : BMP_Image) :
    BMP_open (some file) = OpenResult.image img ↔
      sizeofHeader ≤ file.length ∧
      checkHeader (decodeHeader (file.take sizeofHeader)) = 1 ∧
      file.length - sizeofHeader = pixelSizeOf (decodeHeader (file.take sizeofHeader)) ∧
      img = { header := decodeHeader (file.take sizeofHeader)
              pixel_size := pixelSizeOf (decodeHeader (file.take sizeofHeader))
              width := (decodeHeader (file.take sizeofHeader)).width
              height := (decodeHeader (file.take sizeofHeader)).height
              bytes_per_pixel := (decodeHeader (file.take sizeofHeader)).bits / BITS_PER_BYTE
              pixel := file.drop sizeofHeader } := by
  simp only [BMP_open, cleanUp, List.length_drop]
  generalize decodeHeader (file.take sizeofHeader) = hdr
  have hc := checkHeader_zero_or_one hdr
  split_ifs with h1 h2 h3 h4
  · constructor
    · intro h; cases h
    · rintro ⟨h, -⟩; omega
  · constructor
    · intro h; cases h
    · rintro ⟨-, h, -⟩; omega
  · constructor
    · intro h; cases h
    · rintro ⟨-, -, h, -⟩; omega
  · constructor
    · intro h; cases h
    · rintro ⟨-, -, h, -⟩
      simp only [List.length_drop] at h4
      omega
  · simp only [List.length_drop, ne_eq, not_not] at h4
    have htake : (file.drop sizeofHeader).take (pixelSizeOf hdr) = file.drop sizeofHeader := by
      apply List.take_of_length_le
      simp only [List.length_drop]
      omega
    rw [htake]
    constructor
    · intro h
      refine ⟨by omega, by omega, by omega, ?_⟩
      exact (OpenResult.image.inj h).symm
    · rintro ⟨-, -, -, h⟩
      rw [h]

/-- The undefined path of `BMP_open`: exactly the files without a complete header record
and the files whose header record fails `checkHeader` reach `cleanUp` before `img->pixel`
is assigned. -/
theorem BMP_open_eq_invalidFree_iff (file : List Byte) :
    BMP_open (some file) = OpenResult.invalidFree ↔
      file.length < sizeofHeader ∨
      checkHeader (decodeHeader (file.take sizeofHeader)) = 0 := by
  simp only [BMP_open, cleanUp, List.length_drop]
  generalize decodeHeader (file.take sizeofHeader) = hdr
  split_ifs with h1 h2 h3 h4
  · exact ⟨fun _ => Or.inl h1, fun _ => rfl⟩
  · exact ⟨fun _ => Or.inr h2, fun _ => rfl⟩
  · constructor
    · intro h; cases h
    · rintro (h | h)
      · omega
      · exact absurd h h2
  · constructor
    · intro h; cases h
    · rintro (h | h)
      · omega
      · exact absurd h h2
  · constructor
    · intro h; cases h
    · rintro (h | h)
      · omega
      · exact absurd h h2

/-- The path of `BMP_open` that returns `NULL` for an existing file: a complete header
record that passes `checkHeader`, followed by fewer or by more than `pixel_size` bytes. -/
theorem BMP_open_eq_null_iff (file : List Byte) :
    BMP_open (some file) = OpenResult.null ↔
      sizeofHeader ≤ file.length ∧
      checkHeader (decodeHeader (file.take sizeofHeader)) = 1 ∧
      file.length - sizeofHeader ≠ pixelSizeOf (decodeHeader (file.take sizeofHeader)) := by
  simp only [BMP_open, cleanUp, List.length_drop]
  generalize decodeHeader (file.take sizeofHeader) = hdr
  have hc := checkHeader_zero_or_one hdr
  split_ifs with h1 h2 h3 h4
  · constructor
    · intro h; cases h
    · rintro ⟨h, -⟩; omega
  · constructor
    · intro h; cases h
    · rintro ⟨-, h, -⟩; omega
  · exact ⟨fun _ => ⟨by omega, by omega, by omega⟩, fun _ => rfl⟩
  · simp only [List.length_drop] at h4
    exact ⟨fun _ => ⟨by omega, by omega, by omega⟩, fun _ => rfl⟩
  · simp only [List.length_drop, ne_eq, not_not] at h4
    constructor
    · intro h; cases h
    · rintro ⟨-, -, h⟩
      omega

/-- C1 (evaluation at the failing input): the header record of the file `bmp32bit`
declares 32 bits per pixel, so `checkHeader` returns 0 (as it does for every record that
fails one of the four tests, `checkHeader_eq_one_iff`); `BMP_open` then does not return
`NULL`: it calls `cleanUp` (line 120) while `img->pixel` is still unassigned, and `cleanUp`
tests and frees that indeterminate pointer. -/
theorem BMP_open_bad_header_invalid_free :
    (decodeHeader (bmp32bit.take sizeofHeader)).type = 0x4D42 ∧
    (decodeHeader (bmp32bit.take sizeofHeader)).bits = 32 ∧
    checkHeader (decodeHeader (bmp32bit.take sizeofHeader)) = 0 ∧
    BMP_open (some bmp32bit) = OpenResult.invalidFree ∧
    BMP_open (some bmp32bit) ≠ OpenResult.null := by
  decide

/-- C2: round trip.  For every file that `BMP_open` accepts, the bytes that `BMP_save`
writes for the loaded, unmodified image are exactly the bytes of the file. -/
theorem BMP_save_open_roundtrip (file : List Byte) (img : BMP_Image)
    (h : BMP_open (some file) = OpenResult.image img) : BMP_save img = some file := by
  obtain ⟨hlen, -, hps, himg⟩ := (BMP_open_eq_image_iff file img).mp h
  have hhdr : encodeHeader (decodeHeader (file.take sizeofHeader)) = file.take sizeofHeader := by
    apply encodeHeader_decodeHeader
    simp only [List.length_take]
    omega
  subst himg
  simp only [BMP_save, List.length_drop, hhdr]
  rw [if_neg (by omega)]
  have htake : (file.drop sizeofHeader).take
      (pixelSizeOf (decodeHeader (file.take sizeofHeader))) = file.drop sizeofHeader := by
    apply List.take_of_length_le
    simp only [List.length_drop]
    omega
  rw [htake, List.take_append_drop]

/-- Witness for C2: the 1x1 bitmap file is accepted and saved back unchanged. -/
theorem BMP_save_open_roundtrip_witness : BMP_save bmp1x1Image = some bmp1x1 :=
  BMP_save_open_roundtrip bmp1x1 bmp1x1Image (by decide)

/-- C3 (evaluation at the failing input): the file `bmpShort` holds 49 bytes, one short of
a header record; `BMP_open` does not return `NULL` for it: the failed `fread` leads to
`cleanUp` (line 114) while `img->pixel` is still unassigned, and `cleanUp` tests and frees
that indeterminate pointer.  The paths behind a valid header record behave as claimed:
the complete file is accepted, the file cut short by one byte and the file with one extra
byte give `NULL`. -/
theorem BMP_open_short_file_invalid_free :
    bmpShort.length = 49 ∧ sizeofHeader = 50 ∧
    BMP_open (some bmpShort) = OpenResult.invalidFree ∧
    BMP_open (some bmpShort) ≠ OpenResult.null ∧
    BMP_open (some bmp1x1) = OpenResult.image bmp1x1Image ∧
    BMP_open (some bmpTruncated) = OpenResult.null ∧
    BMP_open (some bmpTrailing) = OpenResult.null := by
  decide

/-- C4 (evaluation at the failing input): for the standard 58-byte 1x1 bitmap, whose
pixel data start at offset 54, `BMP_open` takes only the first 50 bytes as header record,
sets `pixel_size` to 8 instead of `58 - 54 = 4`, and the pixel buffer is the file content
from offset 50 on, so it begins with the last four header bytes. -/
theorem BMP_open_header_is_50_bytes :
    sizeofHeader = 50 ∧
    BMP_open (some bmp1x1) = OpenResult.image bmp1x1Image ∧
    bmp1x1Image.header = decodeHeader (bmp1x1.take 50) ∧
    bmp1x1Image.header.offset = 54 ∧
    bmp1x1Image.pixel_size = 8 ∧
    bmp1x1Image.header.size - 54 = 4 ∧
    bmp1x1Image.pixel = bmp1x1.drop 50 ∧
    bmp1x1Image.pixel ≠ bmp1x1.drop 54 := by
  decide

/-! ## Floating-point model: value semantics and error bounds -/

theorem bitLength_zero (fuel : Nat) : bitLength fuel 0 = 0 := by
  cases fuel <;> simp [bitLength]

theorem two_pow_bitLength_le (fuel m : Nat) (hm : m ≠ 0) : 2 ^ (bitLength fuel m - 1) ≤ m := by
  induction fuel generalizing m with
  | zero => simp [bitLength]; omega
  | succ f ih =>
    simp only [bitLength, if_neg hm, Nat.add_sub_cancel]
    by_cases h2 : m / 2 = 0
    · rw [h2, bitLength_zero]
      simp
      omega
    · have := ih (m / 2) h2
      by_cases hb : bitLength f (m / 2) = 0
      · rw [hb]; simp; omega
      · have hpow : 2 ^ bitLength f (m / 2) = 2 * 2 ^ (bitLength f (m / 2) - 1) := by
          rw [← pow_succ']
          congr 1
          omega
        rw [hpow]
        omega

/-- Integer form of the half-unit error bound of `FP.round`: the rounded significand,
scaled back, differs from the original by at most `m / 2 ^ p`. -/
theorem round_significand_err (p m : Nat) :
    let s := bitLength m m - p
    let q := m / 2 ^ s
    let r := m % 2 ^ s
    let q' := if 2 ^ s < 2 * r ∨ (2 * r = 2 ^ s ∧ q % 2 = 1) then q + 1 else q
    2 ^ p * (q' * 2 ^ s) ≤ 2 ^ p * m + m ∧ 2 ^ p * m ≤ 2 ^ p * (q' * 2 ^ s) + m := by
  intro s q r q'
  have hdm : 2 ^ s * q + r = m := Nat.div_add_mod m (2 ^ s)
  have hr : r < 2 ^ s := Nat.mod_lt _ (by positivity)
  by_cases hs : s = 0
  · have hr0 : r = 0 := by
      have : r < 2 ^ 0 := by rw [hs] at hr; exact hr
      simpa using this
    have hq : q' = q := by
      simp only [q', hr0, hs]
      simp
    rw [hq]
    have : q * 2 ^ s = m := by rw [← hdm, hr0]; ring
    rw [this]
    omega
  · have hm : m ≠ 0 := by
      intro h0
      apply hs
      simp only [s, h0, bitLength_zero]
      simp
    have hbl := two_pow_bitLength_le m m hm
    have hsp : 2 ^ s * 2 ^ p ≤ 2 * m := by
      have h1 : s + p = bitLength m m := by omega
      have h2 : 2 ^ s * 2 ^ p = 2 * 2 ^ (bitLength m m - 1) := by
        rw [← pow_add, ← pow_succ', h1]
        congr 1
        omega
      rw [h2]
      omega
    by_cases hup : 2 ^ s < 2 * r ∨ (2 * r = 2 ^ s ∧ q % 2 = 1)
    · have hq : q' = q + 1 := by simp only [q', if_pos hup]
      have hle : 2 ^ s ≤ 2 * r := by
        rcases hup with h | h
        · omega
        · omega
      rw [hq]
      constructor
      · nlinarith [Nat.mul_le_mul_left (2 ^ p) hle, Nat.mul_le_mul_left (2 ^ p) hr.le]
      · nlinarith [Nat.mul_le_mul_left (2 ^ p) hle, Nat.mul_le_mul_left (2 ^ p) hr.le]
    · have hq : q' = q := by simp only [q', if_neg hup]
      have hle : 2 * r ≤ 2 ^ s := by
        by_contra hlt
        exact hup (Or.inl (by omega))
      rw [hq]
      have hqs : q * 2 ^ s ≤ m := by rw [← hdm, Nat.mul_comm]; omega
      have hqs2 : q * 2 ^ s + r = m := by rw [← hdm, Nat.mul_comm]
      constructor
      · have := Nat.mul_le_mul_left (2 ^ p) hqs
        omega
      · have h1 := Nat.mul_le_mul_left (2 ^ p) hle
        have h2 : 2 ^ p * m = 2 ^ p * (q * 2 ^ s) + 2 ^ p * r := by
          rw [← hqs2, Nat.mul_add]
        have h3 : 2 ^ p * (2 * r) = 2 * (2 ^ p * r) := by ring
        have h4 : 2 ^ p * 2 ^ s = 2 ^ s * 2 ^ p := Nat.mul_comm _ _
        omega

theorem round_exists_shift (p : Nat) (x : FP) :
    ∃ s : Nat, (FP.round p x).e = x.e + s ∧
      2 ^ p * ((FP.round p x).m * 2 ^ s) ≤ 2 ^ p * x.m + x.m ∧
      2 ^ p * x.m ≤ 2 ^ p * ((FP.round p x).m * 2 ^ s) + x.m := by
  have key := round_significand_err p x.m
  simp only at key
  refine ⟨bitLength x.m x.m - p, ?_, ?_⟩
  · simp only [FP.round]
    split_ifs <;> rfl
  · simp only [FP.round]
    split_ifs with h
    · simpa only [if_pos h] using key
    · simpa only [if_neg h] using key

theorem toRat_nonneg (x : FP) : 0 ≤ x.toRat := by
  unfold FP.toRat
  positivity

/-- Relative error of rounding: at most `2 ^ (-p)` times the exact value. -/
theorem toRat_round (p : Nat) (x : FP) :
    (FP.round p x).toRat * 2 ^ p ≤ x.toRat * 2 ^ p + x.toRat ∧
      x.toRat * 2 ^ p ≤ (FP.round p x).toRat * 2 ^ p + x.toRat := by
  obtain ⟨s, he, h1, h2⟩ := round_exists_shift p x
  have hpos : (0 : ℚ) < 2 ^ x.e := by positivity
  have hval : (FP.round p x).toRat = (((FP.round p x).m * 2 ^ s : Nat) : ℚ) * 2 ^ x.e := by
    simp only [FP.toRat, he]
    rw [zpow_add₀ (by norm_num : (2 : ℚ) ≠ 0), zpow_natCast]
    push_cast
    ring
  have h1q : ((2 ^ p * ((FP.round p x).m * 2 ^ s) : Nat) : ℚ) ≤ ((2 ^ p * x.m + x.m : Nat) : ℚ) :=
    Nat.cast_le.mpr h1
  have h2q : ((2 ^ p * x.m : Nat) : ℚ) ≤ ((2 ^ p * ((FP.round p x).m * 2 ^ s) + x.m : Nat) : ℚ) :=
    Nat.cast_le.mpr h2
  rw [hval]
  simp only [FP.toRat]
  push_cast at h1q h2q ⊢
  constructor
  · nlinarith [mul_le_mul_of_nonneg_right h1q hpos.le]
  · nlinarith [mul_le_mul_of_nonneg_right h2q hpos.le]

theorem toRat_ofNat (n : Nat) : (FP.ofNat n).toRat = n := by
  simp [FP.toRat, FP.ofNat]

theorem toRat_mul_exact (x y : FP) :
    (⟨x.m * y.m, x.e + y.e⟩ : FP).toRat = x.toRat * y.toRat := by
  simp only [FP.toRat]
  rw [zpow_add₀ (by norm_num : (2 : ℚ) ≠ 0)]
  push_cast
  ring

theorem toRat_add_exact (x y : FP) :
    (⟨x.m * 2 ^ (x.e - min x.e y.e).toNat + y.m * 2 ^ (y.e - min x.e y.e).toNat,
        min x.e y.e⟩ : FP).toRat = x.toRat + y.toRat := by
  simp only [FP.toRat]
  have hx : ((x.e - min x.e y.e).toNat : Int) = x.e - min x.e y.e :=
    Int.toNat_of_nonneg (by have := min_le_left x.e y.e; omega)
  have hy : ((y.e - min x.e y.e).toNat : Int) = y.e - min x.e y.e :=
    Int.toNat_of_nonneg (by have := min_le_right x.e y.e; omega)
  have ex : (2 : ℚ) ^ x.e = 2 ^ (x.e - min x.e y.e).toNat * 2 ^ min x.e y.e := by
    rw [← zpow_natCast, ← zpow_add₀ (by norm_num : (2 : ℚ) ≠ 0), hx]
    congr 1
    omega
  have ey : (2 : ℚ) ^ y.e = 2 ^ (y.e - min x.e y.e).toNat * 2 ^ min x.e y.e := by
    rw [← zpow_natCast, ← zpow_add₀ (by norm_num : (2 : ℚ) ≠ 0), hy]
    congr 1
    omega
  rw [ex, ey]
  push_cast
  ring

/-- The integer conversion is the floor of the value. -/
theorem toRat_trunc (x : FP) : (x.trunc : ℚ) ≤ x.toRat ∧ x.toRat < x.trunc + 1 := by
  unfold FP.trunc FP.toRat
  split_ifs with h
  · have he : (2 : ℚ) ^ x.e = 2 ^ x.e.toNat := by
      rw [← zpow_natCast, Int.toNat_of_nonneg h]
    rw [he]
    push_cast
    constructor
    · exact le_refl _
    · linarith
  · have hk : ((-x.e).toNat : Int) = -x.e := Int.toNat_of_nonneg (by omega)
    generalize (-x.e).toNat = K at hk ⊢
    have he : (2 : ℚ) ^ x.e = ((2 : ℚ) ^ K)⁻¹ := by
      have hxe : x.e = -(K : Int) := by omega
      rw [hxe, zpow_neg, zpow_natCast]
    rw [he]
    have hKpos : (0 : ℚ) < 2 ^ K := by positivity
    have hdm := Nat.div_add_mod x.m (2 ^ K)
    have hr : x.m % 2 ^ K < 2 ^ K := Nat.mod_lt _ (by positivity)
    have hdmq : ((2 ^ K * (x.m / 2 ^ K) + x.m % 2 ^ K : Nat) : ℚ) = (x.m : ℚ) := by
      rw [hdm]
    have hrq : ((x.m % 2 ^ K : Nat) : ℚ) < ((2 ^ K : Nat) : ℚ) := Nat.cast_lt.mpr hr
    push_cast at hdmq hrq
    have hr0 : (0 : ℚ) ≤ ((x.m % 2 ^ K : Nat) : ℚ) := Nat.cast_nonneg _
    constructor
    · rw [le_mul_inv_iff₀ hKpos]
      nlinarith
    · rw [mul_inv_lt_iff₀ hKpos]
      nlinarith

theorem toRat_mul (p : Nat) (x y : FP) :
    (FP.mul p x y).toRat * 2 ^ p ≤ x.toRat * y.toRat * 2 ^ p + x.toRat * y.toRat ∧
      x.toRat * y.toRat * 2 ^ p ≤ (FP.mul p x y).toRat * 2 ^ p + x.toRat * y.toRat := by
  have h := toRat_round p ⟨x.m * y.m, x.e + y.e⟩
  rw [toRat_mul_exact] at h
  exact h

theorem toRat_add (p : Nat) (x y : FP) :
    (FP.add p x y).toRat * 2 ^ p ≤ (x.toRat + y.toRat) * 2 ^ p + (x.toRat + y.toRat) ∧
      (x.toRat + y.toRat) * 2 ^ p ≤ (FP.add p x y).toRat * 2 ^ p + (x.toRat + y.toRat) := by
  have h := toRat_round p
    ⟨x.m * 2 ^ (x.e - min x.e y.e).toNat + y.m * 2 ^ (y.e - min x.e y.e).toNat, min x.e y.e⟩
  rw [toRat_add_exact] at h
  exact h

theorem weight_red : FP.div binary64 2989 10000 = ⟨5384503714484165, -54⟩ := by decide
theorem weight_green : FP.div binary64 5870 10000 = ⟨5287225962532962, -53⟩ := by decide
theorem weight_blue : FP.div binary64 1140 10000 = ⟨8214565720323785, -56⟩ := by decide

/-- The gray value is the floor of the exact weighted sum `T / 10000`, except that it may
be one less when the exact sum is an integer. -/
theorem RGB2Gray_floor (r g b : Byte) :
    RGB2Gray r g b ≤ (2989 * r.val + 5870 * g.val + 1140 * b.val) / 10000 ∧
    (2989 * r.val + 5870 * g.val + 1140 * b.val) / 10000 ≤ RGB2Gray r g b + 1 ∧
    ((2989 * r.val + 5870 * g.val + 1140 * b.val) % 10000 ≠ 0 →
      RGB2Gray r g b = (2989 * r.val + 5870 * g.val + 1140 * b.val) / 10000) := by
  unfold RGB2Gray
  rw [weight_red, weight_green, weight_blue]
  have eA := toRat_mul binary64 ⟨5384503714484165, -54⟩ (FP.ofNat r.val)
  have eB := toRat_mul binary64 ⟨5287225962532962, -53⟩ (FP.ofNat g.val)
  have eC := toRat_mul binary64 ⟨8214565720323785, -56⟩ (FP.ofNat b.val)
  rw [toRat_ofNat] at eA eB eC
  generalize FP.mul binary64 ⟨5384503714484165, -54⟩ (FP.ofNat r.val) = A at *
  generalize FP.mul binary64 ⟨5287225962532962, -53⟩ (FP.ofNat g.val) = B at *
  generalize FP.mul binary64 ⟨8214565720323785, -56⟩ (FP.ofNat b.val) = C at *
  have eU := toRat_add binary64 A B
  generalize FP.add binary64 A B = U at *
  have eS := toRat_add binary64 U C
  generalize FP.add binary64 U C = S at *
  have eY := toRat_trunc S
  generalize A.toRat = a at *
  generalize B.toRat = bb at *
  generalize C.toRat = c at *
  generalize U.toRat = u at *
  generalize S.toRat = s at *
  generalize S.trunc = Y at *
  have hcR : (⟨5384503714484165, -54⟩ : FP).toRat = 5384503714484165 / 18014398509481984 := by
    simp only [FP.toRat]
    norm_num
  have hcG : (⟨5287225962532962, -53⟩ : FP).toRat = 5287225962532962 / 9007199254740992 := by
    simp only [FP.toRat]
    norm_num
  have hcB : (⟨8214565720323785, -56⟩ : FP).toRat = 8214565720323785 / 72057594037927936 := by
    simp only [FP.toRat]
    norm_num
  rw [hcR] at eA
  rw [hcG] at eB
  rw [hcB] at eC
  simp only [binary64] at eA eB eC eU eS
  obtain ⟨eA1, eA2⟩ := eA
  obtain ⟨eB1, eB2⟩ := eB
  obtain ⟨eC1, eC2⟩ := eC
  obtain ⟨eU1, eU2⟩ := eU
  obtain ⟨eS1, eS2⟩ := eS
  obtain ⟨eY1, eY2⟩ := eY
  generalize hT : 2989 * r.val + 5870 * g.val + 1140 * b.val = T
  have hdm := Nat.div_add_mod T 10000
  have hrem : T % 10000 < 10000 := Nat.mod_lt _ (by norm_num)
  generalize T / 10000 = q at *
  generalize T % 10000 = ρ at *
  have hr : r.val ≤ 255 := by have := r.isLt; omega
  have hg : g.val ≤ 255 := by have := g.isLt; omega
  have hb : b.val ≤ 255 := by have := b.isLt; omega
  have hrq : ((r.val : Nat) : ℚ) ≤ 255 := by exact_mod_cast hr
  have hgq : ((g.val : Nat) : ℚ) ≤ 255 := by exact_mod_cast hg
  have hbq : ((b.val : Nat) : ℚ) ≤ 255 := by exact_mod_cast hb
  have hr0 : (0 : ℚ) ≤ ((r.val : Nat) : ℚ) := Nat.cast_nonneg _
  have hg0 : (0 : ℚ) ≤ ((g.val : Nat) : ℚ) := Nat.cast_nonneg _
  have hb0 : (0 : ℚ) ≤ ((b.val : Nat) : ℚ) := Nat.cast_nonneg _
  have hTq : (2989 : ℚ) * r.val + 5870 * g.val + 1140 * b.val = 10000 * q + ρ := by
    have : 2989 * r.val + 5870 * g.val + 1140 * b.val = 10000 * q + ρ := by omega
    exact_mod_cast this
  have hρq : ((ρ : Nat) : ℚ) ≤ 9999 := by
    have : ρ ≤ 9999 := by omega
    exact_mod_cast this
  have hρ0 : (0 : ℚ) ≤ ((ρ : Nat) : ℚ) := Nat.cast_nonneg _
  norm_num at eA1 eA2 eB1 eB2 eC1 eC2 eU1 eU2 eS1 eS2
  have hup : s < q + 1 := by linarith
  have hlo : (q : ℚ) - 1 < s := by linarith
  have h1 : Y ≤ q := by
    have : (Y : ℚ) < q + 1 := by linarith
    have : Y < q + 1 := by exact_mod_cast this
    omega
  have h2 : q ≤ Y + 1 := by
    have : (q : ℚ) < Y + 1 + 1 := by linarith
    have : q < Y + 1 + 1 := by exact_mod_cast this
    omega
  refine ⟨h1, h2, ?_⟩
  intro hne
  have hρ1 : (1 : ℚ) ≤ ((ρ : Nat) : ℚ) := by
    have : 1 ≤ ρ := by omega
    exact_mod_cast this
  have : (q : ℚ) < Y + 1 := by linarith
  have : q < Y + 1 := by exact_mod_cast this
  omega


/-! ## The grayscale loop -/

theorem grayIteration_append (front rest : List Byte) (b g r : Byte) :
    grayIteration (front ++ b :: g :: r :: rest) front.length =
      some (front ++ toByte (RGB2Gray r g b) :: toByte (RGB2Gray r g b) ::
        toByte (RGB2Gray r g b) :: rest) := by
  have h2 : (front ++ b :: g :: r :: rest)[front.length + 2]? = some r := by
    rw [List.getElem?_append_right (by omega), Nat.add_sub_cancel_left]
    simp only [List.getElem?_cons_succ, List.getElem?_cons_zero]
  have h1 : (front ++ b :: g :: r :: rest)[front.length + 1]? = some g := by
    rw [List.getElem?_append_right (by omega), Nat.add_sub_cancel_left]
    simp only [List.getElem?_cons_succ, List.getElem?_cons_zero]
  have h0 : (front ++ b :: g :: r :: rest)[front.length]? = some b := by
    rw [List.getElem?_append_right (by omega), Nat.sub_self]
    simp only [List.getElem?_cons_zero]
  simp only [grayIteration, h2, h1, h0]
  simp [List.set_append_right]

theorem forCount_gray (n : Nat) : ∀ (front rest : List Byte), rest.length = 3 * n →
    forCount 3 (fun pxl px => grayIteration px pxl) n front.length (front ++ rest) =
      some (front ++ grayPixels rest) := by
  induction n with
  | zero =>
    intro front rest h
    have : rest = [] := List.length_eq_zero.mp (by omega)
    subst this
    simp [forCount, grayPixels]
  | succ n ih =>
    intro front rest h
    match rest, h with
    | b :: g :: r :: rest1, h =>
      simp only [forCount, grayIteration_append, grayPixels]
      have hlen : rest1.length = 3 * n := by
        simp only [List.length_cons] at h
        omega
      have := ih (front ++ [toByte (RGB2Gray r g b), toByte (RGB2Gray r g b),
        toByte (RGB2Gray r g b)]) rest1 hlen
      simp only [List.length_append, List.length_cons, List.length_nil, List.append_assoc,
        List.cons_append, List.nil_append] at this
      exact this

/-- On a buffer of whole pixels of at most `INT_MAX` bytes the grayscale loop completes
and computes `grayPixels`. -/
theorem BMP_gray_loop_eq (img : BMP_Image) (hlen : img.pixel.length = img.pixel_size)
    (h3 : img.pixel_size % 3 = 0) (hint : img.pixel_size < 2 ^ 31) :
    BMP_gray_loop img = some { img with pixel := grayPixels img.pixel } := by
  have hcount : (img.pixel_size - 0 + (3 - 1)) / 3 = img.pixel_size / 3 := by omega
  have hl : img.pixel.length = 3 * (img.pixel_size / 3) := by omega
  have h := forCount_gray (img.pixel_size / 3) [] img.pixel hl
  have hg : intCounter 0 img.pixel_size 3 := by
    unfold intCounter
    omega
  simp only [List.length_nil, List.nil_append] at h
  simp only [BMP_gray_loop, if_pos hg, forLoop, hcount, h]

/-- The grayscale loop is undefined as soon as its counter has to pass `INT_MAX`. -/
theorem BMP_gray_loop_overflow (img : BMP_Image) (h : ¬ intCounter 0 img.pixel_size 3) :
    BMP_gray_loop img = none := by
  unfold BMP_gray_loop
  rw [if_neg h]

theorem grayPixels_length : ∀ l : List Byte, (grayPixels l).length = l.length
  | [] => rfl
  | [_] => rfl
  | [_, _] => rfl
  | _ :: _ :: _ :: rest => by
    simp only [grayPixels, List.length_cons, grayPixels_length rest]

theorem grayPixels_channels : ∀ (k : Nat) (l : List Byte), 3 * k + 2 < l.length →
    ∃ y : Byte, (grayPixels l)[3 * k]? = some y ∧ (grayPixels l)[3 * k + 1]? = some y ∧
      (grayPixels l)[3 * k + 2]? = some y := by
  intro k
  induction k with
  | zero =>
    intro l h
    match l, h with
    | b :: g :: r :: rest, _ =>
      exact ⟨toByte (RGB2Gray r g b), by simp [grayPixels]⟩
  | succ k ih =>
    intro l h
    match l, h with
    | b :: g :: r :: rest, h =>
      have hk : 3 * k + 2 < rest.length := by
        simp only [List.length_cons] at h
        omega
      obtain ⟨y, h0, h1, h2⟩ := ih rest hk
      refine ⟨y, ?_, ?_, ?_⟩
      · have : 3 * (k + 1) = 3 * k + 1 + 1 + 1 := by ring
        rw [this]
        simpa only [grayPixels, List.getElem?_cons_succ] using h0
      · have : 3 * (k + 1) + 1 = 3 * k + 1 + 1 + 1 + 1 := by ring
        rw [this]
        simpa only [grayPixels, List.getElem?_cons_succ] using h1
      · have : 3 * (k + 1) + 2 = 3 * k + 2 + 1 + 1 + 1 := by ring
        rw [this]
        simpa only [grayPixels, List.getElem?_cons_succ] using h2

/-- C5 (counterexample): the pixel (B=10, G=20, R=200), whose exact luminance is 72.66,
becomes (72, 72, 72) and not the rounded value (73, 73, 73). -/
theorem gray_rounding_counterexample :
    grayIteration [10, 20, 200] 0 = some [72, 72, 72] ∧ specLuminance 10 20 200 = 73 := by
  decide!

/-- C5 (amended): for every pixel (B, G, R) the grayscale step replaces the three channels
with `Y = RGB2Gray R G B`, the double-precision value of
`0.2989·R + 0.5870·G + 0.1140·B` truncated toward zero: `Y` is the floor of the exact
weighted sum whenever that sum is not an integer and at most one below it otherwise;
`Y ≤ 254`, so no clamping takes place; (10, 20, 200) becomes 72 and white becomes 254. -/
theorem gray_truncates (B G R : Byte) :
    grayIteration [B, G, R] 0 =
      some [toByte (RGB2Gray R G B), toByte (RGB2Gray R G B), toByte (RGB2Gray R G B)] ∧
    (toByte (RGB2Gray R G B)).val = RGB2Gray R G B ∧
    RGB2Gray R G B ≤ 254 ∧
    RGB2Gray R G B ≤ (1140 * B.val + 5870 * G.val + 2989 * R.val) / 10000 ∧
    (1140 * B.val + 5870 * G.val + 2989 * R.val) / 10000 ≤ RGB2Gray R G B + 1 ∧
    ((1140 * B.val + 5870 * G.val + 2989 * R.val) % 10000 ≠ 0 →
      RGB2Gray R G B = (1140 * B.val + 5870 * G.val + 2989 * R.val) / 10000) ∧
    RGB2Gray 200 20 10 = 72 ∧ RGB2Gray 255 255 255 = 254 := by
  obtain ⟨h1, h2, h3⟩ := RGB2Gray_floor R G B
  have hT : 2989 * R.val + 5870 * G.val + 1140 * B.val =
      1140 * B.val + 5870 * G.val + 2989 * R.val := by ring
  rw [hT] at h1 h2 h3
  have hB := B.isLt
  have hG := G.isLt
  have hR := R.isLt
  have h254 : RGB2Gray R G B ≤ 254 := by omega
  refine ⟨?_, ?_, h254, h1, h2, h3, by decide!, by decide!⟩
  · exact grayIteration_append [] [] B G R
  · simp only [toByte]
    omega

/-- Witness for C5 (amended): the pixel (10, 20, 200), whose weighted sum 726600 is not a
multiple of 10000, gets the gray value 72. -/
theorem gray_truncates_witness :
    RGB2Gray 200 20 10 = (1140 * 10 + 5870 * 20 + 2989 * 200) / 10000 :=
  (gray_truncates 10 20 200).2.2.2.2.2.1 (by decide)

/-- Grayscale channel equality below the counter limit: for every image whose pixel buffer
has a size that is a multiple of 3 and at most `INT_MAX`, the grayscale loop completes,
keeps the buffer size, and afterwards the three bytes of every pixel (offsets 3k, 3k+1,
3k+2) hold one common value. -/
theorem gray_channels_equal_below_limit (img : BMP_Image)
    (hlen : img.pixel.length = img.pixel_size) (h3 : img.pixel_size % 3 = 0)
    (hint : img.pixel_size < 2 ^ 31) :
    ∃ out : BMP_Image, BMP_gray_loop img = some out ∧
      out.pixel.length = img.pixel_size ∧
      ∀ k : Nat, 3 * k + 2 < img.pixel_size →
        ∃ y : Byte, out.pixel[3 * k]? = some y ∧ out.pixel[3 * k + 1]? = some y ∧
          out.pixel[3 * k + 2]? = some y := by
  refine ⟨_, BMP_gray_loop_eq img hlen h3 hint, ?_, ?_⟩
  · simp only [grayPixels_length, hlen]
  · intro k hk
    exact grayPixels_channels k img.pixel (by omega)

theorem hugeImage_size :
    hugeImage.pixel.length = 2147483649 ∧ hugeImage.pixel_size = 2147483649 := by
  constructor
  · simp only [hugeImage, imageOf, hugeBuffer, List.length_map, List.length_range]
  · simp only [hugeImage, imageOf, hugeBuffer, List.length_map, List.length_range]

/-- C6 (evaluation at the failing input): `hugeImage` has a pixel buffer of 2147483649
bytes, a multiple of 3 (715827883 whole pixels), whose first pixel (0, 1, 2) is not gray.
The last iteration of the grayscale loop runs at `pxl = 2147483646`, after which
`pxl += 3` has to produce 2147483649, above `INT_MAX = 2147483647`: the `int` counter
overflows and the loop has no defined result. -/
theorem gray_counter_overflow :
    hugeImage.pixel.length = 2147483649 ∧ hugeImage.pixel_size = 2147483649 ∧
    2147483649 % 3 = 0 ∧ 2147483646 < hugeImage.pixel_size ∧
    ¬ (2147483646 + 3 < 2 ^ 31) ∧
    hugeBuffer.take 3 = [0, 1, 2] ∧
    BMP_gray_loop hugeImage = none := by
  obtain ⟨h1, h2⟩ := hugeImage_size
  refine ⟨h1, h2, by norm_num, by omega, by norm_num, ?_, ?_⟩
  · simp only [hugeBuffer, ← List.map_take, List.take_range]
    decide
  · apply BMP_gray_loop_overflow
    rw [h2]
    unfold intCounter
    norm_num

/-- C8 (counterexample): the white pixel (255, 255, 255) gets the gray value 254, which
is below the minimum 255 of its channels. -/
theorem gray_below_min_counterexample :
    RGB2Gray 255 255 255 = 254 ∧
      ¬ (min (255 : Byte).val (min (255 : Byte).val (255 : Byte).val) ≤ RGB2Gray 255 255 255) := by
  decide!

/-- C8 (amended): for every pixel (B, G, R) the gray value `Y` of `RGB2Gray` satisfies
`min(B, G, R) - 1 ≤ Y ≤ max(B, G, R)`. -/
theorem gray_between_min_and_max (B G R : Byte) :
    min B.val (min G.val R.val) - 1 ≤ RGB2Gray R G B ∧
      RGB2Gray R G B ≤ max B.val (max G.val R.val) := by
  obtain ⟨h1, h2, h3⟩ := RGB2Gray_floor R G B
  have hB := B.isLt
  have hG := G.isLt
  have hR := R.isLt
  constructor
  · by_cases hρ : (2989 * R.val + 5870 * G.val + 1140 * B.val) % 10000 = 0
    · omega
    · have := h3 hρ
      omega
  · omega

/-! ## Counted loops -/

theorem forLoop_one {σ : Type} (lo hi : Nat) (body : Nat → σ → Option σ) (s : σ) :
    forLoop lo hi 1 body s = forCount 1 body (hi - lo) lo s := by
  simp [forLoop]

/-- Invariant rule for a counted loop with unit step: if `P` holds initially and every
iteration in range succeeds and re-establishes `P` for the next counter value, the loop
succeeds and `P` holds at the end. -/
theorem forCount_inv {σ : Type} (body : Nat → σ → Option σ) (P : Nat → σ → Prop) (n : Nat) :
    ∀ (i0 : Nat) (s0 : σ), P i0 s0 →
      (∀ i s, i0 ≤ i → i < i0 + n → P i s → ∃ t, body i s = some t ∧ P (i + 1) t) →
      ∃ t, forCount 1 body n i0 s0 = some t ∧ P (i0 + n) t := by
  induction n with
  | zero =>
    intro i0 s0 h0 _
    exact ⟨s0, rfl, h0⟩
  | succ n ih =>
    intro i0 s0 h0 hstep
    obtain ⟨t, ht, hP⟩ := hstep i0 s0 (le_refl _) (by omega) h0
    obtain ⟨u, hu, hPu⟩ := ih (i0 + 1) t hP (fun i s h1 h2 hp => hstep i s (by omega) (by omega) hp)
    refine ⟨u, ?_, ?_⟩
    · simp only [forCount, ht, hu]
    · have : i0 + (n + 1) = i0 + 1 + n := by omega
      rw [this]
      exact hPu

theorem forCount_eq_foldl {σ : Type} (body : Nat → σ → Option σ) (f : σ → Nat → σ) (n : Nat) :
    ∀ (i0 : Nat) (s : σ), (∀ k t, i0 ≤ k → k < i0 + n → body k t = some (f t k)) →
      forCount 1 body n i0 s = some ((List.range' i0 n).foldl f s) := by
  induction n with
  | zero =>
    intro i0 s _
    rfl
  | succ n ih =>
    intro i0 s h
    have h0 := h i0 s (le_refl _) (by omega)
    have := ih (i0 + 1) (f s i0) (fun k t h1 h2 => h k t (by omega) (by omega))
    simp only [forCount, h0, this, List.range'_succ, List.foldl_cons]

theorem cell_index_lt (W i1 i2 j1 j2 : Nat) (hi : i1 < i2) (hj : j1 < W) :
    i1 * W + j1 < i2 * W + j2 := by
  have h : (i1 + 1) * W ≤ i2 * W := Nat.mul_le_mul_right W hi
  have h2 : (i1 + 1) * W = i1 * W + W := by ring
  omega

theorem cell_index_inj (W i1 i2 j1 j2 : Nat) (hj1 : j1 < W) (hj2 : j2 < W)
    (h : i1 * W + j1 = i2 * W + j2) : i1 = i2 ∧ j1 = j2 := by
  rcases Nat.lt_trichotomy i1 i2 with hlt | heq | hgt
  · have := cell_index_lt W i1 i2 j1 j2 hlt hj1
    omega
  · subst heq
    exact ⟨rfl, by omega⟩
  · have := cell_index_lt W i2 i1 j2 j1 hgt hj2
    omega

theorem cell_index_bound (W H i j : Nat) (hi : i < H) (hj : j < W) : i * W + j < H * W := by
  have h : (i + 1) * W ≤ H * W := Nat.mul_le_mul_right W hi
  have h2 : (i + 1) * W = i * W + W := by ring
  omega

/-- A loop nest that stores `V i j` into cell `i * W + j` for every `(i, j)` of a
rectangle succeeds, fills exactly those cells and leaves every other cell alone. -/
theorem fill_rect (cell : Nat → Nat → List Byte → Option (List Byte)) (V : Nat → Nat → Byte)
    (W L ilo ihi jlo jhi : Nat) (hjW : jhi ≤ W)
    (hcell : ∀ i j d, ilo ≤ i → i < ihi → jlo ≤ j → j < jhi → d.length = L →
      i * W + j < L ∧ cell i j d = some (d.set (i * W + j) (V i j)))
    (d0 : List Byte) (hd0 : d0.length = L) :
    ∃ d1, forLoop ilo ihi 1 (fun i d => forLoop jlo jhi 1 (fun j d => cell i j d) d) d0 = some d1 ∧
      d1.length = L ∧
      (∀ i j, ilo ≤ i → i < ihi → jlo ≤ j → j < jhi → d1[i * W + j]? = some (V i j)) ∧
      (∀ p, (∀ i j, ilo ≤ i → i < ihi → jlo ≤ j → j < jhi → p ≠ i * W + j) →
        d1[p]? = d0[p]?) := by
  -- the inner loop on row `i`, started from `d`
  have inner : ∀ i d, ilo ≤ i → i < ihi → d.length = L →
      ∃ e, forLoop jlo jhi 1 (fun j d => cell i j d) d = some e ∧ e.length = L ∧
        (∀ j, jlo ≤ j → j < jhi → e[i * W + j]? = some (V i j)) ∧
        (∀ p, (∀ j, jlo ≤ j → j < jhi → p ≠ i * W + j) → e[p]? = d[p]?) := by
    intro i d hi1 hi2 hd
    rw [forLoop_one]
    by_cases hemp : jhi ≤ jlo
    · have : jhi - jlo = 0 := by omega
      rw [this]
      exact ⟨d, rfl, hd, fun j h1 h2 => by omega, fun p _ => rfl⟩
    have hinv := forCount_inv (fun j d => cell i j d)
      (fun j e => e.length = L ∧
        (∀ j1, jlo ≤ j1 → j1 < j → e[i * W + j1]? = some (V i j1)) ∧
        (∀ p, (∀ j1, jlo ≤ j1 → j1 < j → p ≠ i * W + j1) → e[p]? = d[p]?))
      (jhi - jlo) jlo d ⟨hd, fun j1 h1 h2 => by omega, fun p _ => rfl⟩
      (by
        intro j e hj1 hj2 ⟨he, hfilled, hframe⟩
        obtain ⟨hb, hc⟩ := hcell i j e hi1 hi2 hj1 (by omega) he
        refine ⟨_, hc, ?_, ?_, ?_⟩
        · simp only [List.length_set, he]
        · intro j1 h1 h2
          by_cases hjj : j1 = j
          · subst hjj
            rw [List.getElem?_set_self (by omega)]
          · rw [List.getElem?_set_ne (by omega)]
            exact hfilled j1 h1 (by omega)
        · intro p hp
          rw [List.getElem?_set_ne (by
            intro h
            exact hp j hj1 (by omega) h.symm)]
          exact hframe p (fun j1 h1 h2 => hp j1 h1 (by omega)))
    obtain ⟨e, he, hlen, hfilled, hframe⟩ := hinv
    have hj : jlo + (jhi - jlo) = jhi := by omega
    rw [hj] at hfilled hframe
    exact ⟨e, he, hlen, hfilled, hframe⟩
  rw [forLoop_one]
  by_cases hemp : ihi ≤ ilo
  · have : ihi - ilo = 0 := by omega
    rw [this]
    exact ⟨d0, rfl, hd0, fun i j h1 h2 => by omega, fun p _ => rfl⟩
  have hinv := forCount_inv (fun i d => forLoop jlo jhi 1 (fun j d => cell i j d) d)
    (fun i e => e.length = L ∧
      (∀ i1 j, ilo ≤ i1 → i1 < i → jlo ≤ j → j < jhi → e[i1 * W + j]? = some (V i1 j)) ∧
      (∀ p, (∀ i1 j, ilo ≤ i1 → i1 < i → jlo ≤ j → j < jhi → p ≠ i1 * W + j) →
        e[p]? = d0[p]?))
    (ihi - ilo) ilo d0 ⟨hd0, fun i1 j h1 h2 => by omega, fun p _ => rfl⟩
    (by
      intro i d hi1 hi2 ⟨hd, hfilled, hframe⟩
      obtain ⟨e, he, hlen, hrow, hrest⟩ := inner i d hi1 (by omega) hd
      refine ⟨e, he, hlen, ?_, ?_⟩
      · intro i1 j h1 h2 h3 h4
        by_cases hii : i1 = i
        · subst hii
          exact hrow j h3 h4
        · rw [hrest (i1 * W + j) (fun j2 _ h6 => by
            have := cell_index_lt W i1 i j j2 (by omega) (by omega)
            omega)]
          exact hfilled i1 j h1 (by omega) h3 h4
      · intro p hp
        rw [hrest p (fun j h1 h2 => hp i j hi1 (by omega) h1 h2)]
        exact hframe p (fun i1 j h1 h2 h3 h4 => hp i1 j h1 (by omega) h3 h4))
  obtain ⟨e, he, hlen, hfilled, hframe⟩ := hinv
  have hi : ilo + (ihi - ilo) = ihi := by omega
  rw [hi] at hfilled hframe
  exact ⟨e, he, hlen, hfilled, hframe⟩


/-! ## The blur loops -/

theorem getElem?_getD (l : List Byte) (n : Nat) (h : n < l.length) :
    l[n]? = some (l.getD n 0) := by
  simp [List.getD_eq_getElem?_getD, List.getElem?_eq_getElem h]

theorem memcpy_spec (dst src : List Byte) (d s n : Nat) (hs : s + n ≤ src.length)
    (hd : d + n ≤ dst.length) :
    ∃ r, memcpy dst d src s n = some r ∧ r.length = dst.length ∧
      (∀ p, p < d → r[p]? = dst[p]?) ∧
      (∀ p, d ≤ p → p < d + n → r[p]? = src[s + (p - d)]?) := by
  refine ⟨dst.take d ++ ((src.drop s).take n ++ dst.drop (d + n)), ?_, ?_, ?_, ?_⟩
  · simp only [memcpy]
    rw [if_pos ⟨hs, hd⟩]
  · simp only [List.length_append, List.length_take, List.length_drop]
    omega
  · intro p hp
    rw [List.getElem?_append_left (by simp only [List.length_take]; omega)]
    rw [List.getElem?_take_of_lt hp]
  · intro p hp1 hp2
    rw [List.getElem?_append_right (by simp only [List.length_take]; omega)]
    have hl : (dst.take d).length = d := by simp only [List.length_take]; omega
    rw [hl]
    rw [List.getElem?_append_left (by simp only [List.length_take, List.length_drop]; omega)]
    rw [List.getElem?_take_of_lt (by omega), List.getElem?_drop]

/-- Arithmetic facts that follow from the preconditions: nothing wraps around. -/
theorem blurPre_facts (img : BMP_Image) (N : Nat) (hpre : BlurPre img N) :
    (img.width * 3) % 2 ^ 32 = 3 * img.width ∧
    halfWidth N = (N - 1) / 2 ∧
    1 ≤ (N - 1) / 2 ∧
    N = 2 * ((N - 1) / 2) + 1 ∧
    (N * 3) % 2 ^ 32 = N * 3 ∧
    img.height * (3 * img.width) < 2 ^ 32 ∧
    img.height < 2 ^ 32 ∧ 3 * img.width < 2 ^ 32 := by
  obtain ⟨hodd, h3, hMh, hMw, hsize, hlen⟩ := hpre
  have hM1 : 1 ≤ (N - 1) / 2 := by omega
  have hh1 : 1 ≤ img.height := by omega
  have hw1 : 1 ≤ 3 * img.width := by omega
  have hhw : img.height * (3 * img.width) < 2 ^ 32 := by omega
  have hh : img.height ≤ img.height * (3 * img.width) := Nat.le_mul_of_pos_right _ (by omega)
  have hw : 3 * img.width ≤ img.height * (3 * img.width) := Nat.le_mul_of_pos_left _ (by omega)
  have hMM : (N - 1) / 2 * ((N - 1) / 2) ≤ img.height * (3 * img.width) :=
    Nat.mul_le_mul hMh hMw
  have hM16 : (N - 1) / 2 < 65536 := by
    by_contra hge
    have h1 : 65536 * 65536 ≤ (N - 1) / 2 * ((N - 1) / 2) :=
      Nat.mul_le_mul (by omega) (by omega)
    omega
  have hN : N < 131074 := by omega
  refine ⟨?_, ?_, hM1, by omega, ?_, hhw, by omega, by omega⟩
  · rw [Nat.mul_comm]
    exact Nat.mod_eq_of_lt (by omega)
  · unfold halfWidth
    have : (N + 2 ^ 32 - 1) % 2 ^ 32 = N - 1 := by omega
    rw [this]
  · exact Nat.mod_eq_of_lt (by omega)

/-- Under the preconditions no `int` loop counter of `kernel` and `BMP_blur` overflows. -/
theorem blurCounters_of_blurPre (img : BMP_Image) (N : Nat) (hpre : BlurPre img N) :
    blurCounters img.height ((img.width * 3) % 2 ^ 32) N := by
  obtain ⟨hw, hM, hM1, hN, hN3, hhw, hh, hw32⟩ := blurPre_facts img N hpre
  obtain ⟨hodd, h3, hMh, hMw, hsize, hlen⟩ := hpre
  have hMM : (N - 1) / 2 * ((N - 1) / 2) ≤ img.height * (3 * img.width) :=
    Nat.mul_le_mul hMh hMw
  have hM16 : (N - 1) / 2 < 65536 := by
    by_contra hge
    have h1 : 65536 * 65536 ≤ (N - 1) / 2 * ((N - 1) / 2) :=
      Nat.mul_le_mul (by omega) (by omega)
    omega
  have hh3 : img.height * 3 ≤ img.height * (3 * img.width) :=
    Nat.mul_le_mul_left _ (by omega)
  have hw3 : 3 ≤ img.height → 3 * (3 * img.width) ≤ img.height * (3 * img.width) :=
    fun h => Nat.mul_le_mul_right _ h
  unfold blurCounters intCounter
  rw [hw, hM, hN3]
  refine ⟨by omega, fun _ => by omega, by omega, fun h => ⟨?_, fun _ => by omega⟩, by omega,
    fun h => ?_⟩
  · have h9 := hw3 (by omega)
    have hwlt : 3 * img.width < 2 ^ 31 := by omega
    omega
  · have h9 := hw3 (by omega)
    have hwlt : 3 * img.width < 2 ^ 31 := by omega
    have hw1 : 1 ≤ 3 * img.width := by omega
    have hmod : (3 * img.width + 2 ^ 32 - 1) % 2 ^ 32 = 3 * img.width - 1 := by omega
    rw [hmod]
    omega

theorem pixelMat_spec (img : BMP_Image) (N : Nat) (hpre : BlurPre img N) :
    ∃ mat, pixelMat img = some mat ∧ mat.length = img.height * (3 * img.width) ∧
      ∀ p, p < img.height * (3 * img.width) → mat[p]? = img.pixel[p]? := by
  obtain ⟨hw, -, -, -, -, hhw, hh, hw32⟩ := blurPre_facts img N hpre
  obtain ⟨-, -, -, -, hsize, hlen⟩ := hpre
  unfold pixelMat
  simp only [hw, forLoop_one, Nat.sub_zero]
  have hinv := forCount_inv
    (fun i mat => memcpy mat ((i * (3 * img.width)) % 2 ^ 32) img.pixel
      ((i * img.width * 3) % 2 ^ 32) (3 * img.width))
    (fun i mat => mat.length = img.height * (3 * img.width) ∧
      ∀ p, p < i * (3 * img.width) → mat[p]? = img.pixel[p]?)
    img.height 0 (List.replicate (img.height * (3 * img.width)) 0)
    ⟨by simp only [List.length_replicate], fun p hp => by omega⟩
    (by
      intro i mat _ hi ⟨hl, hcopied⟩
      have hrow : (i + 1) * (3 * img.width) ≤ img.height * (3 * img.width) :=
        Nat.mul_le_mul_right _ (by omega)
      have hrow2 : (i + 1) * (3 * img.width) = i * (3 * img.width) + 3 * img.width := by ring
      have h1 : (i * (3 * img.width)) % 2 ^ 32 = i * (3 * img.width) :=
        Nat.mod_eq_of_lt (by omega)
      have h2 : (i * img.width * 3) % 2 ^ 32 = i * (3 * img.width) := by
        have : i * img.width * 3 = i * (3 * img.width) := by ring
        rw [this, h1]
      dsimp only
      rw [h1, h2]
      obtain ⟨r, hr, hrl, hbefore, hin⟩ := memcpy_spec mat img.pixel (i * (3 * img.width))
        (i * (3 * img.width)) (3 * img.width) (by omega) (by omega)
      refine ⟨r, hr, by omega, ?_⟩
      intro p hp
      by_cases hlt : p < i * (3 * img.width)
      · rw [hbefore p hlt]
        exact hcopied p hlt
      · rw [hin p (by omega) (by omega)]
        congr 1
        omega)
  obtain ⟨mat, hmat, hl, hall⟩ := hinv
  simp only [Nat.zero_add] at hall
  exact ⟨mat, hmat, hl, hall⟩

theorem blurSum_spec (pixel : List Byte) (N w h M i j : Nat)
    (hN : N = 2 * M + 1) (hN3 : (N * 3) % 2 ^ 32 = N * 3)
    (hi1 : M ≤ i) (hi2 : i + M < h) (hj1 : M ≤ j) (hj2 : j + M < w)
    (hsize : h * w ≤ pixel.length) (hlen : pixel.length < 2 ^ 32) :
    blurSum pixel (kernel N) w M i j = some (windowSum pixel N w M i j) := by
  unfold blurSum windowSum
  rw [forLoop_one, List.range_eq_range', Nat.sub_zero]
  apply forCount_eq_foldl
  intro kk t _ hkk
  rw [forLoop_one, Nat.sub_zero]
  apply forCount_eq_foldl
  intro ll u _ hll
  have hrow : (kernel N)[kk]? = some (List.replicate ((N * 3) % 2 ^ 32) (kernelValue N)) := by
    unfold kernel
    exact List.getElem?_replicate_of_lt (by omega)
  have hcellk : (List.replicate ((N * 3) % 2 ^ 32) (kernelValue N))[ll]? =
      some (kernelValue N) := by
    rw [hN3]
    exact List.getElem?_replicate_of_lt (by omega)
  have hidx : (i + kk - M) * w + (j + ll - M) < h * w :=
    cell_index_bound w h (i + kk - M) (j + ll - M) (by omega) (by omega)
  have hmod : ((i + kk - M) * w + (j + ll - M)) % 2 ^ 32 = (i + kk - M) * w + (j + ll - M) :=
    Nat.mod_eq_of_lt (by omega)
  have hpix := getElem?_getD pixel ((i + kk - M) * w + (j + ll - M)) (by omega)
  simp only [hrow, Option.some_bind, hcellk, hmod, hpix]

theorem outIndex_spec (h w i j : Nat) (hhw : h * w < 2 ^ 32) (hi : i < h) (hj : j < w) :
    outIndex h w i j = some (i * w + j) ∧ i * w + j < h * w := by
  have hlt := cell_index_bound w h i j hi hj
  have hm : (i * w) % 2 ^ 32 = i * w := Nat.mod_eq_of_lt (by omega)
  refine ⟨?_, hlt⟩
  simp only [outIndex, if_pos hi, hm]

/-- The first loop nest stores the truncated window sum in every cell at least `M` away
from the four edges of the byte matrix and leaves the other cells of `out_buffer` alone. -/
theorem blurFill_spec (pixel mat : List Byte) (N h w M : Nat)
    (hN : N = 2 * M + 1) (hN3 : (N * 3) % 2 ^ 32 = N * 3) (hMh : M ≤ h) (hMw : M ≤ w)
    (hh32 : h < 2 ^ 32) (hw32 : w < 2 ^ 32)
    (hsize : h * w ≤ pixel.length) (hlen : pixel.length < 2 ^ 32) (hmat : mat.length = h * w) :
    ∃ filled, blurFill pixel (kernel N) h w M mat = some filled ∧ filled.length = h * w ∧
      (∀ i j, M ≤ i → i + M < h → M ≤ j → j + M < w →
        filled[i * w + j]? = some (toByte (windowSum pixel N w M i j).trunc)) ∧
      (∀ p, (∀ i j, M ≤ i → i + M < h → M ≤ j → j + M < w → p ≠ i * w + j) →
        filled[p]? = mat[p]?) := by
  have hb1 : (h + 2 ^ 32 - M) % 2 ^ 32 = h - M := by omega
  have hb2 : (w + 2 ^ 32 - M) % 2 ^ 32 = w - M := by omega
  obtain ⟨filled, hfilled, hfl, hfin, hfout⟩ := fill_rect
    (fun i j out =>
      match blurSum pixel (kernel N) w M i j, outIndex h w i j with
      | some sum, some idx => store out idx (toByte sum.trunc)
      | _, _ => none)
    (fun i j => toByte (windowSum pixel N w M i j).trunc) w (h * w) M (h - M) M (w - M)
    (Nat.sub_le w M)
    (by
      intro i j d hi1 hi2 hj1 hj2 hd
      have hi3 : i + M < h := by omega
      have hj3 : j + M < w := by omega
      obtain ⟨ho, hlt⟩ := outIndex_spec h w i j (by omega) (by omega) (by omega)
      have hs := blurSum_spec pixel N w h M i j hN hN3 hi1 hi3 hj1 hj3 hsize hlen
      refine ⟨hlt, ?_⟩
      simp only [hs, ho, store]
      rw [if_pos (by omega)])
    mat hmat
  refine ⟨filled, ?_, hfl, ?_, ?_⟩
  · unfold blurFill
    rw [hb1, hb2]
    exact hfilled
  · intro i j hi1 hi2 hj1 hj2
    exact hfin i j hi1 (by omega) hj1 (by omega)
  · intro p hp
    exact hfout p (fun i j h1 h2 h3 h4 => hp i j h1 (by omega) h3 (by omega))

/-- The second loop nest copies the cells of rows `1 .. height - 2` and byte columns
`1 .. width - 2` from `out_buffer` into the pixel buffer and leaves the rest alone. -/
theorem blurCopyBack_spec (pixel filled : List Byte) (h w : Nat) (hh : 1 ≤ h) (hw : 1 ≤ w)
    (hh32 : h < 2 ^ 32) (hw32 : w < 2 ^ 32)
    (hsize : h * w ≤ pixel.length) (hlen : pixel.length < 2 ^ 32)
    (hfl : filled.length = h * w) :
    ∃ px, blurCopyBack filled h w pixel = some px ∧ px.length = pixel.length ∧
      (∀ i j, 1 ≤ i → i + 1 < h → 1 ≤ j → j + 1 < w → px[i * w + j]? = filled[i * w + j]?) ∧
      (∀ p, (∀ i j, 1 ≤ i → i + 1 < h → 1 ≤ j → j + 1 < w → p ≠ i * w + j) →
        px[p]? = pixel[p]?) := by
  have hc1 : (h + 2 ^ 32 - 1) % 2 ^ 32 = h - 1 := by omega
  have hc2 : (w + 2 ^ 32 - 1) % 2 ^ 32 = w - 1 := by omega
  obtain ⟨px, hpx, hpl, hpin, hpout⟩ := fill_rect
    (fun i j px =>
      match (outIndex h w i j).bind (fun idx => filled[idx]?) with
      | some v => store px ((i * w + j) % 2 ^ 32) v
      | none => none)
    (fun i j => filled.getD (i * w + j) 0) w pixel.length 1 (h - 1) 1 (w - 1)
    (Nat.sub_le w 1)
    (by
      intro i j d hi1 hi2 hj1 hj2 hd
      obtain ⟨ho, hlt⟩ := outIndex_spec h w i j (by omega) (by omega) (by omega)
      have hv := getElem?_getD filled (i * w + j) (by omega)
      have hm : (i * w + j) % 2 ^ 32 = i * w + j := Nat.mod_eq_of_lt (by omega)
      refine ⟨by omega, ?_⟩
      simp only [ho, Option.some_bind, hv, hm, store]
      rw [if_pos (by omega)])
    pixel rfl
  refine ⟨px, ?_, hpl, ?_, ?_⟩
  · unfold blurCopyBack
    rw [hc1, hc2]
    exact hpx
  · intro i j hi1 hi2 hj1 hj2
    have hlt := cell_index_bound w h i j (by omega) (by omega)
    rw [hpin i j hi1 (by omega) hj1 (by omega), getElem?_getD filled (i * w + j) (by omega)]
  · intro p hp
    exact hpout p (fun i j h1 h2 h3 h4 => hp i j h1 (by omega) h3 (by omega))

/-- Behaviour of the loops of `BMP_blur` under the preconditions `BlurPre`: they complete,
every cell `(i, j)` of the byte matrix that is at least `M` away from all four edges
receives the truncated window sum of the original buffer, every other cell of the matrix
and every byte behind the matrix keeps its value. -/
theorem blur_loops_spec (img : BMP_Image) (N : Nat) (hpre : BlurPre img N) :
    ∃ px : List Byte, BMP_blur_loops img N = some { img with pixel := px } ∧
      px.length = img.pixel.length ∧
      (∀ i j, (N - 1) / 2 ≤ i → i + (N - 1) / 2 < img.height →
        (N - 1) / 2 ≤ j → j + (N - 1) / 2 < 3 * img.width →
        px[i * (3 * img.width) + j]? =
          some (toByte (windowSum img.pixel N (3 * img.width) ((N - 1) / 2) i j).trunc)) ∧
      (∀ i j, i < img.height → j < 3 * img.width →
        (i < (N - 1) / 2 ∨ img.height ≤ i + (N - 1) / 2 ∨ j < (N - 1) / 2 ∨
          3 * img.width ≤ j + (N - 1) / 2) →
        px[i * (3 * img.width) + j]? = img.pixel[i * (3 * img.width) + j]?) ∧
      (∀ p, img.height * (3 * img.width) ≤ p → px[p]? = img.pixel[p]?) := by
  have hcnt := blurCounters_of_blurPre img N hpre
  obtain ⟨hw, hM, hM1, hN, hN3, hhw, hh, hw32⟩ := blurPre_facts img N hpre
  obtain ⟨mat, hmat, hmatlen, hmatval⟩ := pixelMat_spec img N hpre
  obtain ⟨-, -, hMh, hMw, hsize, hlen⟩ := hpre
  obtain ⟨filled, hfilled, hfl, hfin, hfout⟩ := blurFill_spec img.pixel mat N img.height
    (3 * img.width) ((N - 1) / 2) hN hN3 hMh hMw hh hw32 hsize hlen hmatlen
  obtain ⟨px, hpx, hpl, hpin, hpout⟩ := blurCopyBack_spec img.pixel filled img.height
    (3 * img.width) (le_trans hM1 hMh) (le_trans hM1 hMw) hh hw32 hsize hlen hfl
  refine ⟨px, ?_, hpl, ?_, ?_, ?_⟩
  · unfold BMP_blur_loops
    rw [if_pos hcnt, hmat, Option.some_bind, hw, hM, hfilled, Option.some_bind, hpx,
      Option.map_some']
  · intro i j hi1 hi2 hj1 hj2
    rw [hpin i j (le_trans hM1 hi1) (by omega) (le_trans hM1 hj1) (by omega)]
    exact hfin i j hi1 hi2 hj1 hj2
  · intro i j hi hj hborder
    have hlt := cell_index_bound (3 * img.width) img.height i j hi hj
    have hkeep : filled[i * (3 * img.width) + j]? = img.pixel[i * (3 * img.width) + j]? := by
      rw [hfout (i * (3 * img.width) + j) (by
        intro i1 j1 h1 h2 h3 h4 heq
        obtain ⟨e1, e2⟩ := cell_index_inj (3 * img.width) i i1 j j1 hj (by omega) heq
        omega)]
      exact hmatval _ hlt
    by_cases hin : 1 ≤ i ∧ i + 1 < img.height ∧ 1 ≤ j ∧ j + 1 < 3 * img.width
    · rw [hpin i j hin.1 hin.2.1 hin.2.2.1 hin.2.2.2, hkeep]
    · exact hpout (i * (3 * img.width) + j) (by
        intro i1 j1 h1 h2 h3 h4 heq
        obtain ⟨e1, e2⟩ := cell_index_inj (3 * img.width) i i1 j j1 hj (by omega) heq
        apply hin
        omega)
  · intro p hp
    exact hpout p (by
      intro i1 j1 h1 h2 h3 h4 heq
      have := cell_index_bound (3 * img.width) img.height i1 j1 (by omega) (by omega)
      omega)

/-- C9 (counterexample): in the 4x3 image whose pixels are all (B=0, G=240, R=240),
blurred with N = 3, the blue channel of the interior pixel (1, 1) (byte 15 of the buffer)
receives 160, the mean of the three adjacent bytes R, B, G over three rows, whereas the
mean of the blue channel over the 3x3 pixels around it is 0. -/
theorem blur_channel_mean_counterexample :
    Option.map (fun out : BMP_Image => out.pixel[1 * (3 * 4) + (3 * 1 + 0)]?)
        (BMP_blur_loops yellowImage 3) = some (some 160) ∧
      specChannelMean yellowImage.pixel 4 3 1 1 0 = 0 := by
  decide!

/-- C9 (amended): for every image and odd N ≥ 3 satisfying `BlurPre`, with M = (N-1)/2,
and every byte row `i` and byte column `j` with M ≤ i < height - M and
M ≤ j < 3·width - M, `BMP_blur` completes and the byte it leaves at row `i`, column `j`
(channel `j % 3` of pixel `j / 3`) is the truncation of the single-precision sum of
`(1/N²)·b` over the N×N bytes `b` centred at byte `(i, j)` of the original buffer:
horizontally adjacent samples are 1 byte apart, so the three channels are mixed. -/
theorem blur_interior_value (img : BMP_Image) (N : Nat) (hpre : BlurPre img N) (i j : Nat)
    (hi1 : (N - 1) / 2 ≤ i) (hi2 : i + (N - 1) / 2 < img.height)
    (hj1 : (N - 1) / 2 ≤ j) (hj2 : j + (N - 1) / 2 < 3 * img.width) :
    ∃ out : BMP_Image, BMP_blur_loops img N = some out ∧
      out.pixel[i * (3 * img.width) + j]? =
        some (toByte (windowSum img.pixel N (3 * img.width) ((N - 1) / 2) i j).trunc) := by
  obtain ⟨px, hpx, -, hin, -, -⟩ := blur_loops_spec img N hpre
  exact ⟨_, hpx, hin i j hi1 hi2 hj1 hj2⟩

/-- Witness for C9 (amended): byte row 1, byte column 3 of the 4x3 image with N = 3. -/
theorem blur_interior_value_witness :
    ∃ out : BMP_Image, BMP_blur_loops yellowImage 3 = some out ∧
      out.pixel[1 * (3 * yellowImage.width) + 3]? =
        some (toByte (windowSum yellowImage.pixel 3 (3 * yellowImage.width) ((3 - 1) / 2) 1 3).trunc) :=
  blur_interior_value yellowImage 3 (by decide) 1 3 (by decide) (by decide) (by decide)
    (by decide)

/-- C10 (counterexample): in the same image blurred with N = 3 (M = 1), the pixel
(x, y) = (0, 1) lies in the left border (x < M), yet its green byte (index 13) changes
from 240 to 160. -/
theorem blur_border_pixel_counterexample :
    yellowImage.pixel[1 * (3 * 4) + (3 * 0 + 1)]? = some 240 ∧
      Option.map (fun out : BMP_Image => out.pixel[1 * (3 * 4) + (3 * 0 + 1)]?)
        (BMP_blur_loops yellowImage 3) = some (some 160) := by
  decide!

/-- C10 (amended): for every image and odd N ≥ 3 satisfying `BlurPre`, with M = (N-1)/2,
`BMP_blur` completes and leaves unchanged every channel byte `c` of a pixel `(x, y)` that
lies in a row y < M or y ≥ height - M, or whose byte column 3x + c is < M or
≥ 3·width - M.  In particular a pixel with y < M, y ≥ height - M, 3x + 2 < M or
3x ≥ 3·width - M keeps all three bytes. -/
theorem blur_border_bytes (img : BMP_Image) (N : Nat) (hpre : BlurPre img N) (x y c : Nat)
    (hx : x < img.width) (hy : y < img.height) (hc : c < 3)
    (hborder : y < (N - 1) / 2 ∨ img.height ≤ y + (N - 1) / 2 ∨ 3 * x + c < (N - 1) / 2 ∨
      3 * img.width ≤ 3 * x + c + (N - 1) / 2) :
    ∃ out : BMP_Image, BMP_blur_loops img N = some out ∧
      out.pixel[y * (3 * img.width) + (3 * x + c)]? =
        img.pixel[y * (3 * img.width) + (3 * x + c)]? := by
  obtain ⟨px, hpx, -, -, hout, -⟩ := blur_loops_spec img N hpre
  exact ⟨_, hpx, hout y (3 * x + c) hy (by omega) hborder⟩

/-- Witness for C10 (amended): the blue byte of pixel (0, 1), byte column 0 < M. -/
theorem blur_border_bytes_witness :
    ∃ out : BMP_Image, BMP_blur_loops yellowImage 3 = some out ∧
      out.pixel[1 * (3 * yellowImage.width) + (3 * 0 + 0)]? =
        yellowImage.pixel[1 * (3 * yellowImage.width) + (3 * 0 + 0)]? :=
  blur_border_bytes yellowImage 3 (by decide) 0 1 0 (by decide) (by decide) (by decide)
    (by decide)

/-! ## The loaded image and the declared dimensions -/

theorem BMP_open_fields (file : List Byte) (img : BMP_Image)
    (h : BMP_open (some file) = OpenResult.image img) :
    img.pixel.length = img.pixel_size ∧ img.pixel_size + sizeofHeader = file.length ∧
      img.pixel_size = pixelSizeOf img.header ∧ img.width = img.header.width ∧
      img.height = img.header.height ∧ img.pixel_size < 2 ^ 32 := by
  obtain ⟨hlen, -, hps, himg⟩ := (BMP_open_eq_image_iff file img).mp h
  subst himg
  refine ⟨?_, ?_, rfl, rfl, rfl, ?_⟩
  · simp only [List.length_drop]
    omega
  · simp only []
    omega
  · exact Nat.mod_lt _ (by norm_num)

/-- C12 (counterexample): the 58-byte file whose header declares a 100x1 image is accepted
with `pixel_size = 8`, although one padded row of 100 pixels takes 300 bytes. -/
theorem BMP_open_size_invariant_counterexample :
    ∃ img : BMP_Image, BMP_open (some bmpWide) = OpenResult.image img ∧ img.pixel_size = 8 ∧
      img.height * rowStride img.width = 300 ∧
      ¬ (img.pixel_size ≥ img.height * rowStride img.width) := by
  refine ⟨_, rfl, ?_⟩
  decide

/-- C12 (amended): every image that `BMP_open` returns has a pixel buffer of exactly
`pixel_size` bytes, where `pixel_size` is the number of file bytes after the header
record (`header.size - sizeof(BMP_Header)` in `unsigned int`), and takes `width` and
`height` from the header unchecked; `pixel_size ≥ height × row_stride` holds exactly when
the file holds that many bytes after the header record, which `BMP_open` does not test. -/
theorem BMP_open_size_invariant (file : List Byte) (img : BMP_Image)
    (h : BMP_open (some file) = OpenResult.image img) :
    img.pixel.length = img.pixel_size ∧
    img.pixel_size = file.length - sizeofHeader ∧
    img.pixel_size = pixelSizeOf img.header ∧
    img.width = img.header.width ∧ img.height = img.header.height ∧
    (img.pixel_size ≥ img.height * rowStride img.width ↔
      img.header.height * rowStride img.header.width + sizeofHeader ≤ file.length) := by
  obtain ⟨h1, h2, h3, h4, h5, -⟩ := BMP_open_fields file img h
  refine ⟨h1, by omega, h3, h4, h5, ?_⟩
  rw [← h4, ← h5]
  omega

/-- Witness for C12 (amended): the standard 1x1 bitmap, for which the inequality holds. -/
theorem BMP_open_size_invariant_witness :
    bmp1x1Image.pixel.length = bmp1x1Image.pixel_size ∧
    bmp1x1Image.pixel_size = bmp1x1.length - sizeofHeader ∧
    bmp1x1Image.pixel_size = pixelSizeOf bmp1x1Image.header ∧
    bmp1x1Image.width = bmp1x1Image.header.width ∧
    bmp1x1Image.height = bmp1x1Image.header.height ∧
    (bmp1x1Image.pixel_size ≥ bmp1x1Image.height * rowStride bmp1x1Image.width ↔
      bmp1x1Image.header.height * rowStride bmp1x1Image.header.width + sizeofHeader ≤
        bmp1x1.length) :=
  BMP_open_size_invariant bmp1x1 bmp1x1Image (by decide)

/-! ## The run of `BMP_blur` -/

theorem BMP_blur_of_open_null (fptr : Option (List Byte)) (filename : String) (size : Nat)
    (h : BMP_open fptr = OpenResult.null) :
    BMP_blur fptr filename size = Outcome.nullDereference := by
  unfold BMP_blur
  rw [h]

theorem BMP_blur_of_open_image (fptr : Option (List Byte)) (filename : String) (size : Nat)
    (img : BMP_Image) (h : BMP_open fptr = OpenResult.image img) :
    BMP_blur fptr filename size = blurOutcome img filename size := by
  unfold BMP_blur
  rw [h]

/-- C13 (evaluation at the failing input): when the input file cannot be opened
`BMP_open` returns `NULL`, and `BMP_blur` does not stop there: it hands the `NULL` pointer
to `pixelMat`, whose first statement reads `img->height` through it.  The same happens for
the file cut short by one byte, for which `BMP_open` returns `NULL` after a valid header
record. -/
theorem BMP_blur_null_dereference :
    BMP_open none = OpenResult.null ∧
    BMP_blur none "original.bmp" 3 = Outcome.nullDereference ∧
    BMP_open (some bmpTruncated) = OpenResult.null ∧
    BMP_blur (some bmpTruncated) "original.bmp" 3 = Outcome.nullDereference :=
  ⟨by decide, by decide, by decide, by decide⟩

/-- On an accepted file whose image satisfies `BlurPre` the run of `BMP_blur` ends with
the output file written under the name built from the input name and the kernel size. -/
theorem BMP_blur_written (file : List Byte) (img : BMP_Image) (filename : String) (N : Nat)
    (hopen : BMP_open (some file) = OpenResult.image img) (hpre : BlurPre img N) :
    ∃ px : List Byte, BMP_blur_loops img N = some { img with pixel := px } ∧
      px.length = img.pixel.length ∧
      BMP_blur (some file) filename N =
        Outcome.written (blurName filename N) (encodeHeader img.header ++ px) := by
  obtain ⟨px, hpx, hlen, -⟩ := blur_loops_spec img N hpre
  obtain ⟨h1, -⟩ := BMP_open_fields file img hopen
  refine ⟨px, hpx, hlen, ?_⟩
  rw [BMP_blur_of_open_image _ _ _ img hopen]
  unfold blurOutcome
  rw [hpx]
  unfold saveOutcome BMP_save
  have htake : px.take img.pixel_size = px := List.take_of_length_le (by omega)
  simp only [htake]
  rw [if_neg (by omega)]

/-- C14 (counterexample): for the kernel size 101 the 17x50 bitmap is blurred into the
file `Blur101.bmp`, a name with three digits, which is not of the form
`Blur` + two characters + `.bmp`. -/
theorem blur_name_counterexample :
    (∃ bytes : List Byte,
      BMP_blur (some tallFile) "original.bmp" 101 = Outcome.written "Blur101.bmp" bytes) ∧
    (∀ a b : Char, "Blur101.bmp" ≠ "Blur" ++ String.mk [a, b] ++ ".bmp") := by
  constructor
  · obtain ⟨px, -, -, h⟩ := BMP_blur_written tallFile tallImage "original.bmp" 101
      (by decide!) (by decide!)
    exact ⟨_, h⟩
  · intro a b h
    have hl := congrArg String.length h
    have h2 : (String.mk [a, b]).length = 2 := rfl
    simp only [String.length_append, h2] at hl
    exact absurd hl (by decide)

/-- C14 (amended): for every accepted input file whose image satisfies `BlurPre` for the
odd kernel size N ≥ 3, `BMP_blur` saves to `Rblur` ++ NN ++ `X.bmp` when the input name is
exactly `HorizontalRot.bmp` and to `Blur` ++ NN ++ `.bmp` for every other name, where NN
is the decimal rendering of N padded with a leading zero to at least two characters: the
two decimal digits of N for N ≤ 99, and e.g. `101` for N = 101. -/
theorem blur_name (file : List Byte) (img : BMP_Image) (filename : String) (N : Nat)
    (hopen : BMP_open (some file) = OpenResult.image img) (hpre : BlurPre img N) :
    (∃ bytes : List Byte, BMP_blur (some file) filename N =
      Outcome.written (if filename = "HorizontalRot.bmp" then "Rblur" ++ twoDigits N ++ "X.bmp"
        else "Blur" ++ twoDigits N ++ ".bmp") bytes) ∧
    (N ≤ 99 → twoDigits N = String.mk [Char.ofNat (48 + N / 10), Char.ofNat (48 + N % 10)]) ∧
    twoDigits 101 = "101" := by
  obtain ⟨px, -, -, h⟩ := BMP_blur_written file img filename N hopen hpre
  refine ⟨⟨_, h⟩, ?_, by decide⟩
  intro hN
  have hall : ∀ n : Fin 100,
      twoDigits n.val = String.mk [Char.ofNat (48 + n.val / 10), Char.ofNat (48 + n.val % 10)] := by
    decide
  exact hall ⟨N, by omega⟩

/-- Witness for C14 (amended): kernel size 7 on the 17x50 bitmap named
`HorizontalRot.bmp`. -/
theorem blur_name_witness :
    (∃ bytes : List Byte, BMP_blur (some tallFile) "HorizontalRot.bmp" 7 =
      Outcome.written (if "HorizontalRot.bmp" = "HorizontalRot.bmp"
        then "Rblur" ++ twoDigits 7 ++ "X.bmp" else "Blur" ++ twoDigits 7 ++ ".bmp") bytes) ∧
    twoDigits 7 = String.mk [Char.ofNat (48 + 7 / 10), Char.ofNat (48 + 7 % 10)] :=
  ⟨(blur_name tallFile tallImage "HorizontalRot.bmp" 7 (by decide!) (by decide!)).1,
   (blur_name tallFile tallImage "HorizontalRot.bmp" 7 (by decide!) (by decide!)).2.1
     (by decide)⟩

/-! ## Bounds of the grayscale loop -/

/-- The indices touched by the grayscale loop stay inside the buffer exactly when
`pixel_size` is a multiple of 3. -/
theorem grayLoopIndices_in_bounds_iff (n : Nat) :
    (∀ idx ∈ grayLoopIndices n, idx < n) ↔ n % 3 = 0 := by
  unfold grayLoopIndices
  constructor
  · intro h
    by_contra hne
    have hmem : 3 * (n / 3) + 2 ∈
        (List.range ((n - 0 + (3 - 1)) / 3)).flatMap (fun k => [3 * k + 2, 3 * k + 1, 3 * k]) := by
      rw [List.mem_flatMap]
      exact ⟨n / 3, List.mem_range.mpr (by omega), by simp⟩
    have := h _ hmem
    omega
  · intro h idx hidx
    rw [List.mem_flatMap] at hidx
    obtain ⟨k, hk, hmem⟩ := hidx
    have hk2 := List.mem_range.mp hk
    simp only [List.mem_cons, List.mem_singleton, List.not_mem_nil, or_false] at hmem
    omega

/-- C18 (evaluation at the failing input): for the image loaded from the standard 1x1
bitmap, `pixel_size` is 8; the loop runs the iteration `pxl = 6` because `6 < 8`, and that
iteration reads and writes index `6 + 2 = 8`, which is outside `[0, 8)`. -/
theorem gray_index_out_of_bounds :
    BMP_open (some bmp1x1) = OpenResult.image bmp1x1Image ∧ bmp1x1Image.pixel_size = 8 ∧
    bmp1x1Image.pixel.length = 8 ∧
    grayLoopIndices 8 = [2, 1, 0, 5, 4, 3, 8, 7, 6] ∧
    bmp1x1Image.pixel[6 + 2]? = none ∧
    grayIteration (grayPixels (bmp1x1Image.pixel.take 6) ++ bmp1x1Image.pixel.drop 6) 6 = none ∧
    BMP_gray_loop bmp1x1Image = none := by
  refine ⟨by decide, by decide, by decide, by decide, by decide, by decide!, by decide!⟩

/-! ## Index safety and the byte-level frame of the blur -/

/-- The preconditions of the blur claims, stated on `pixel_size`, imply `BlurPre`. -/
theorem blurPre_of_sizes (img : BMP_Image) (N : Nat) (hbuf : img.pixel.length = img.pixel_size)
    (h32 : img.pixel_size < 2 ^ 32) (hsize : img.pixel_size ≥ img.height * img.width * 3)
    (hodd : N % 2 = 1) (h3 : 3 ≤ N) (hMh : (N - 1) / 2 ≤ img.height)
    (hMw : (N - 1) / 2 ≤ 3 * img.width) : BlurPre img N := by
  have he : img.height * (3 * img.width) = img.height * img.width * 3 := by ring
  exact ⟨hodd, h3, hMh, hMw, by omega, by omega⟩

/-- C19: blur index safety.  For every image whose pixel buffer has `pixel_size` bytes with
`pixel_size ≥ height × width × 3`, and every odd N ≥ 3 with M = (N-1)/2 ≤ height and
M ≤ 3·width, the loops of `BMP_blur` and `pixelMat` complete without any access outside
a buffer; explicitly, with W = 3·width: every row copied by `pixelMat` lies inside the
pixel buffer and the output matrix, every sample `(i+k)·W + (j+l)` read by the first loop
nest lies inside the pixel buffer, the kernel cell `[k+M][l+M]` inside the N × 3N kernel
matrix, the cell `out_buffer[i][j]` inside the output matrix, and every cell of the
copy-back loop inside both the output matrix and the pixel buffer. -/
theorem blur_indices_in_bounds (img : BMP_Image) (N : Nat)
    (hbuf : img.pixel.length = img.pixel_size) (h32 : img.pixel_size < 2 ^ 32)
    (hsize : img.pixel_size ≥ img.height * img.width * 3)
    (hodd : N % 2 = 1) (h3 : 3 ≤ N) (hMh : (N - 1) / 2 ≤ img.height)
    (hMw : (N - 1) / 2 ≤ 3 * img.width) :
    (∃ out : BMP_Image, BMP_blur_loops img N = some out) ∧
    (∀ i, i < img.height →
      i * (3 * img.width) + 3 * img.width ≤ img.pixel_size ∧
      i * (3 * img.width) + 3 * img.width ≤ img.height * (3 * img.width)) ∧
    (∀ i j kk ll, (N - 1) / 2 ≤ i → i + (N - 1) / 2 < img.height →
      (N - 1) / 2 ≤ j → j + (N - 1) / 2 < 3 * img.width →
      kk ≤ 2 * ((N - 1) / 2) → ll ≤ 2 * ((N - 1) / 2) →
      (i + kk - (N - 1) / 2) * (3 * img.width) + (j + ll - (N - 1) / 2) < img.pixel_size ∧
      kk < N ∧ ll < 3 * N ∧ i < img.height ∧
      i * (3 * img.width) + j < img.height * (3 * img.width)) ∧
    (∀ i j, 1 ≤ i → i + 1 < img.height → 1 ≤ j → j + 1 < 3 * img.width →
      i * (3 * img.width) + j < img.height * (3 * img.width) ∧
      i * (3 * img.width) + j < img.pixel_size) := by
  have hpre := blurPre_of_sizes img N hbuf h32 hsize hodd h3 hMh hMw
  obtain ⟨px, hpx, -⟩ := blur_loops_spec img N hpre
  have he : img.height * (3 * img.width) = img.height * img.width * 3 := by ring
  refine ⟨⟨_, hpx⟩, ?_, ?_, ?_⟩
  · intro i hi
    have h1 : (i + 1) * (3 * img.width) ≤ img.height * (3 * img.width) :=
      Nat.mul_le_mul_right _ hi
    have h2 : (i + 1) * (3 * img.width) = i * (3 * img.width) + 3 * img.width := by ring
    omega
  · intro i j kk ll hi1 hi2 hj1 hj2 hkk hll
    have h1 := cell_index_bound (3 * img.width) img.height (i + kk - (N - 1) / 2)
      (j + ll - (N - 1) / 2) (by omega) (by omega)
    have h2 := cell_index_bound (3 * img.width) img.height i j (by omega) (by omega)
    refine ⟨by omega, by omega, by omega, by omega, h2⟩
  · intro i j hi1 hi2 hj1 hj2
    have h2 := cell_index_bound (3 * img.width) img.height i j (by omega) (by omega)
    exact ⟨h2, by omega⟩

/-- Witness for C19: the 4x3 image with N = 3. -/
theorem blur_indices_in_bounds_witness :
    ∃ out : BMP_Image, BMP_blur_loops yellowImage 3 = some out :=
  (blur_indices_in_bounds yellowImage 3 (by decide) (by decide) (by decide) (by decide)
    (by decide) (by decide) (by decide)).1

/-- The copy-back restricted to the filled cells copies exactly those cells. -/
theorem blurCopyBackInterior_spec (pixel filled : List Byte) (h w M : Nat)
    (hMh : M ≤ h) (hMw : M ≤ w) (hh32 : h < 2 ^ 32) (hw32 : w < 2 ^ 32)
    (hsize : h * w ≤ pixel.length) (hlen : pixel.length < 2 ^ 32)
    (hfl : filled.length = h * w) :
    ∃ px, blurCopyBackInterior filled h w M pixel = some px ∧ px.length = pixel.length ∧
      (∀ i j, M ≤ i → i + M < h → M ≤ j → j + M < w → px[i * w + j]? = filled[i * w + j]?) ∧
      (∀ p, (∀ i j, M ≤ i → i + M < h → M ≤ j → j + M < w → p ≠ i * w + j) →
        px[p]? = pixel[p]?) := by
  have hc1 : (h + 2 ^ 32 - M) % 2 ^ 32 = h - M := by omega
  have hc2 : (w + 2 ^ 32 - M) % 2 ^ 32 = w - M := by omega
  obtain ⟨px, hpx, hpl, hpin, hpout⟩ := fill_rect
    (fun i j px =>
      match (outIndex h w i j).bind (fun idx => filled[idx]?) with
      | some v => store px ((i * w + j) % 2 ^ 32) v
      | none => none)
    (fun i j => filled.getD (i * w + j) 0) w pixel.length M (h - M) M (w - M)
    (Nat.sub_le w M)
    (by
      intro i j d hi1 hi2 hj1 hj2 hd
      obtain ⟨ho, hlt⟩ := outIndex_spec h w i j (by omega) (by omega) (by omega)
      have hv := getElem?_getD filled (i * w + j) (by omega)
      have hm : (i * w + j) % 2 ^ 32 = i * w + j := Nat.mod_eq_of_lt (by omega)
      refine ⟨by omega, ?_⟩
      simp only [ho, Option.some_bind, hv, hm, store]
      rw [if_pos (by omega)])
    pixel rfl
  refine ⟨px, ?_, hpl, ?_, ?_⟩
  · unfold blurCopyBackInterior
    rw [hc1, hc2]
    exact hpx
  · intro i j hi1 hi2 hj1 hj2
    have hlt := cell_index_bound w h i j (by omega) (by omega)
    rw [hpin i j hi1 (by omega) hj1 (by omega), getElem?_getD filled (i * w + j) (by omega)]
  · intro p hp
    exact hpout p (fun i j h1 h2 h3 h4 => hp i j h1 (by omega) h3 (by omega))

/-- Under `BlurPre` the loops with the restricted copy-back produce the same buffer as the
loops of `BMP_blur`. -/
theorem blur_loops_interior_eq (img : BMP_Image) (N : Nat) (hpre : BlurPre img N) :
    BMP_blur_loops_interior img N = BMP_blur_loops img N := by
  have hcnt := blurCounters_of_blurPre img N hpre
  obtain ⟨px, hpx, hpl, hin, hborder, hbehind⟩ := blur_loops_spec img N hpre
  obtain ⟨hw, hM, hM1, hN, hN3, hhw, hh, hw32⟩ := blurPre_facts img N hpre
  obtain ⟨mat, hmat, hmatlen, hmatval⟩ := pixelMat_spec img N hpre
  obtain ⟨-, -, hMh, hMw, hsize, hlen⟩ := hpre
  obtain ⟨filled, hfilled, hfl, hfin, hfout⟩ := blurFill_spec img.pixel mat N img.height
    (3 * img.width) ((N - 1) / 2) hN hN3 hMh hMw hh hw32 hsize hlen hmatlen
  obtain ⟨qx, hqx, hql, hqin, hqout⟩ := blurCopyBackInterior_spec img.pixel filled img.height
    (3 * img.width) ((N - 1) / 2) hMh hMw hh hw32 hsize hlen hfl
  have hq : BMP_blur_loops_interior img N = some { img with pixel := qx } := by
    unfold BMP_blur_loops_interior
    rw [if_pos hcnt, hmat, Option.some_bind, hw, hM, hfilled, Option.some_bind, hqx,
      Option.map_some']
  rw [hq, hpx]
  have hlist : qx = px := by
    apply List.ext_getElem?
    intro p
    by_cases hp : img.height * (3 * img.width) ≤ p
    · rw [hbehind p hp]
      exact hqout p (by
        intro i j h1 h2 h3 h4 heq
        have := cell_index_bound (3 * img.width) img.height i j (by omega) (by omega)
        omega)
    · have hwpos : 0 < 3 * img.width := by omega
      have hdm : 3 * img.width * (p / (3 * img.width)) + p % (3 * img.width) = p :=
        Nat.div_add_mod p (3 * img.width)
      have hj : p % (3 * img.width) < 3 * img.width := Nat.mod_lt _ hwpos
      have hi : p / (3 * img.width) < img.height := by
        rw [Nat.div_lt_iff_lt_mul hwpos]
        omega
      have hpe : p = p / (3 * img.width) * (3 * img.width) + p % (3 * img.width) := by
        rw [Nat.mul_comm]
        exact hdm.symm
      generalize p / (3 * img.width) = i at hi hpe
      generalize p % (3 * img.width) = j at hj hpe
      subst hpe
      by_cases hint : (N - 1) / 2 ≤ i ∧ i + (N - 1) / 2 < img.height ∧ (N - 1) / 2 ≤ j ∧
          j + (N - 1) / 2 < 3 * img.width
      · rw [hqin i j hint.1 hint.2.1 hint.2.2.1 hint.2.2.2,
          hin i j hint.1 hint.2.1 hint.2.2.1 hint.2.2.2]
        exact hfin i j hint.1 hint.2.1 hint.2.2.1 hint.2.2.2
      · rw [hborder i j hi hj (by omega)]
        exact hqout _ (by
          intro i1 j1 h1 h2 h3 h4 heq
          obtain ⟨e1, e2⟩ := cell_index_inj (3 * img.width) i i1 j j1 hj (by omega) heq
          apply hint
          omega)
  rw [hlist]

/-- C20: byte-level frame of the blur.  Under the preconditions of C19, `BMP_blur`
completes and every byte at row `i` and byte column `j` (index `i × 3·width + j`) with
`i < M`, `i ≥ height - M`, `j < M` or `j ≥ 3·width - M`, and every byte at an index
`≥ height × 3·width`, is unchanged, although the copy-back loop covers rows
`1 .. height-2` and byte columns `1 .. 3·width-2`; the result is the same as with a
copy-back restricted to rows `M .. height-M-1` and byte columns `M .. 3·width-M-1`. -/
theorem blur_byte_frame (img : BMP_Image) (N : Nat)
    (hbuf : img.pixel.length = img.pixel_size) (h32 : img.pixel_size < 2 ^ 32)
    (hsize : img.pixel_size ≥ img.height * img.width * 3)
    (hodd : N % 2 = 1) (h3 : 3 ≤ N) (hMh : (N - 1) / 2 ≤ img.height)
    (hMw : (N - 1) / 2 ≤ 3 * img.width) :
    ∃ out : BMP_Image, BMP_blur_loops img N = some out ∧
      out.pixel.length = img.pixel.length ∧
      (∀ i j, i < img.height → j < 3 * img.width →
        (i < (N - 1) / 2 ∨ i ≥ img.height - (N - 1) / 2 ∨ j < (N - 1) / 2 ∨
          j ≥ 3 * img.width - (N - 1) / 2) →
        out.pixel[i * (3 * img.width) + j]? = img.pixel[i * (3 * img.width) + j]?) ∧
      (∀ p, p ≥ img.height * (3 * img.width) → out.pixel[p]? = img.pixel[p]?) ∧
      BMP_blur_loops_interior img N = some out := by
  have hpre := blurPre_of_sizes img N hbuf h32 hsize hodd h3 hMh hMw
  obtain ⟨px, hpx, hpl, -, hborder, hbehind⟩ := blur_loops_spec img N hpre
  refine ⟨_, hpx, hpl, ?_, hbehind, ?_⟩
  · intro i j hi hj hb
    exact hborder i j hi hj (by omega)
  · rw [blur_loops_interior_eq img N hpre, hpx]

/-- Witness for C20: the 4x3 image with N = 3. -/
theorem blur_byte_frame_witness :
    ∃ out : BMP_Image, BMP_blur_loops yellowImage 3 = some out ∧
      out.pixel.length = yellowImage.pixel.length ∧
      (∀ i j, i < yellowImage.height → j < 3 * yellowImage.width →
        (i < (3 - 1) / 2 ∨ i ≥ yellowImage.height - (3 - 1) / 2 ∨ j < (3 - 1) / 2 ∨
          j ≥ 3 * yellowImage.width - (3 - 1) / 2) →
        out.pixel[i * (3 * yellowImage.width) + j]? =
          yellowImage.pixel[i * (3 * yellowImage.width) + j]?) ∧
      (∀ p, p ≥ yellowImage.height * (3 * yellowImage.width) →
        out.pixel[p]? = yellowImage.pixel[p]?) ∧
      BMP_blur_loops_interior yellowImage 3 = some out :=
  blur_byte_frame yellowImage 3 (by decide) (by decide) (by decide) (by decide)
    (by decide) (by decide) (by decide)

/-! ## Row addressing of the blur -/

/-- C17 (counterexample): in the 3x3 image of pixels (90, 90, 90) stored with padded rows
(`row_stride = 12`), `pixelMat` takes row 1 from offset `1 × 9`, not `1 × 12`: the output
matrix is the first 27 bytes of the buffer.  With N = 3 the blur therefore leaves 80 at
index 15, the first byte of pixel (1, 1) in the padded layout, the mean over vertical
neighbours 9 bytes apart, which include the padding byte 23; with vertical neighbours
`row_stride` bytes apart the value would be 90. -/
theorem blur_row_stride_counterexample :
    rowStride 3 = 12 ∧
    pixelMat paddedImage = some (paddedImage.pixel.take 27) ∧
    Option.map (fun out : BMP_Image => out.pixel[1 * rowStride 3 + 3]?)
      (BMP_blur_loops paddedImage 3) = some (some 80) ∧
    toByte (windowSum paddedImage.pixel 3 (rowStride 3) 1 1 3).trunc = 90 := by
  decide!

/-- C17 (amended): for every image and odd N ≥ 3 satisfying `BlurPre`, `pixelMat` and
`BMP_blur` address row `y` of the pixel buffer at byte offset `y × (3·width)`: the output
matrix of `pixelMat` holds the bytes `y·3·width + j` of the buffer at row `y`, column `j`,
and the value stored at an interior cell is the window sum whose rows are `3·width` bytes
apart.  This offset equals `y × row_stride` only when `3·width` is a multiple of 4. -/
theorem blur_row_offset (img : BMP_Image) (N : Nat) (hpre : BlurPre img N) :
    (∃ mat : List Byte, pixelMat img = some mat ∧
      mat.length = img.height * (3 * img.width) ∧
      ∀ y j, y < img.height → j < 3 * img.width →
        mat[y * (3 * img.width) + j]? = img.pixel[y * (3 * img.width) + j]?) ∧
    (∃ out : BMP_Image, BMP_blur_loops img N = some out ∧
      ∀ i j, (N - 1) / 2 ≤ i → i + (N - 1) / 2 < img.height →
        (N - 1) / 2 ≤ j → j + (N - 1) / 2 < 3 * img.width →
        out.pixel[i * (3 * img.width) + j]? =
          some (toByte (windowSum img.pixel N (3 * img.width) ((N - 1) / 2) i j).trunc)) ∧
    (rowStride img.width = 3 * img.width ↔ (3 * img.width) % 4 = 0) := by
  obtain ⟨mat, hmat, hmatlen, hmatval⟩ := pixelMat_spec img N hpre
  obtain ⟨px, hpx, -, hin, -, -⟩ := blur_loops_spec img N hpre
  refine ⟨⟨mat, hmat, hmatlen, ?_⟩, ⟨_, hpx, hin⟩, ?_⟩
  · intro y j hy hj
    exact hmatval _ (cell_index_bound (3 * img.width) img.height y j hy hj)
  · unfold rowStride
    omega

/-- Witness for C17 (amended): the padded 3x3 image with N = 3. -/
theorem blur_row_offset_witness :
    (∃ mat : List Byte, pixelMat paddedImage = some mat ∧
      mat.length = paddedImage.height * (3 * paddedImage.width) ∧
      ∀ y j, y < paddedImage.height → j < 3 * paddedImage.width →
        mat[y * (3 * paddedImage.width) + j]? =
          paddedImage.pixel[y * (3 * paddedImage.width) + j]?) :=
  (blur_row_offset paddedImage 3 (by decide)).1

/-! ## Independence of the iteration order -/

theorem foldl_bind_none {ι σ : Type} (body : ι → σ → Option σ) (l : List ι) :
    l.foldl (fun acc a => acc.bind (body a)) none = none := by
  induction l with
  | nil => rfl
  | cons a l ih => simpa only [List.foldl_cons, Option.none_bind] using ih

theorem foldl_bind_eq {ι σ : Type} (body : ι → σ → Option σ) (l : List ι) (acc : Option σ) :
    l.foldl (fun acc a => acc.bind (body a)) acc = acc.bind (runIterations body l) := by
  cases acc with
  | none => rw [foldl_bind_none, Option.none_bind]
  | some s => rfl

theorem runIterations_cons {ι σ : Type} (body : ι → σ → Option σ) (a : ι) (l : List ι) (s : σ) :
    runIterations body (a :: l) s = (body a s).bind (runIterations body l) := by
  unfold runIterations
  rw [List.foldl_cons, Option.some_bind, foldl_bind_eq]
  rfl

theorem runIterations_append {ι σ : Type} (body : ι → σ → Option σ) (l1 l2 : List ι) (s : σ) :
    runIterations body (l1 ++ l2) s = (runIterations body l1 s).bind (runIterations body l2) := by
  unfold runIterations
  rw [List.foldl_append, foldl_bind_eq]
  rfl

theorem runIterations_map {ι κ σ : Type} (body : κ → σ → Option σ) (f : ι → κ) (l : List ι)
    (s : σ) : runIterations body (l.map f) s = runIterations (fun a => body (f a)) l s := by
  unfold runIterations
  rw [List.foldl_map]

theorem runIterations_congr {ι σ : Type} (body1 body2 : ι → σ → Option σ) (l : List ι)
    (h : ∀ a ∈ l, ∀ d, body1 a d = body2 a d) (s : σ) :
    runIterations body1 l s = runIterations body2 l s := by
  induction l generalizing s with
  | nil => rfl
  | cons a l ih =>
    rw [runIterations_cons, runIterations_cons, h a (List.mem_cons_self a l) s]
    congr 1
    funext t
    exact ih (fun b hb d => h b (List.mem_cons_of_mem a hb) d) t

/-- Iterations that commute pairwise can be executed in any order. -/
theorem runIterations_perm {ι σ : Type} (body : ι → σ → Option σ) (l1 l2 : List ι)
    (hperm : l1.Perm l2)
    (hcomm : ∀ x ∈ l1, ∀ y ∈ l1, ∀ d, (body x d).bind (body y) = (body y d).bind (body x))
    (s : σ) : runIterations body l1 s = runIterations body l2 s := by
  unfold runIterations
  apply List.Perm.foldl_eq' hperm
  intro x hx y hy z
  cases z with
  | none => rfl
  | some d => exact hcomm x hx y hy d

theorem forCount_eq_run {σ : Type} (step : Nat) (body : Nat → σ → Option σ) (n : Nat) :
    ∀ (i0 : Nat) (s : σ), forCount step body n i0 s =
      runIterations body ((List.range n).map (fun k => i0 + step * k)) s := by
  induction n with
  | zero =>
    intro i0 s
    rfl
  | succ n ih =>
    intro i0 s
    rw [List.range_succ_eq_map, List.map_cons, List.map_map, runIterations_cons]
    have hf : ((fun k => i0 + step * k) ∘ Nat.succ) = (fun k => i0 + step + step * k) := by
      funext k
      simp only [Function.comp, Nat.succ_eq_add_one]
      ring
    rw [hf]
    simp only [Nat.mul_zero, Nat.add_zero]
    cases hb : body i0 s with
    | none => simp only [forCount, hb, Option.none_bind]
    | some t => simp only [forCount, hb, Option.some_bind, ih (i0 + step) t]

theorem forLoop_eq_run {σ : Type} (lo hi step : Nat) (body : Nat → σ → Option σ) (s : σ) :
    forLoop lo hi step body s = runIterations body (iterationSpace lo hi step) s := by
  unfold forLoop iterationSpace
  exact forCount_eq_run step body _ lo s

theorem nest_eq_run (cell : Nat → Nat → List Byte → Option (List Byte))
    (ilo ihi jlo jhi : Nat) (d0 : List Byte) :
    forLoop ilo ihi 1 (fun i d => forLoop jlo jhi 1 (fun j d => cell i j d) d) d0 =
      runIterations (fun a d => cell a.1 a.2 d) (iterationSpace2 ilo ihi jlo jhi) d0 := by
  rw [forLoop_eq_run]
  unfold iterationSpace2
  generalize iterationSpace ilo ihi 1 = L
  induction L generalizing d0 with
  | nil => rfl
  | cons i L ih =>
    rw [runIterations_cons, List.flatMap_cons, runIterations_append, runIterations_map,
      forLoop_eq_run]
    congr 1
    funext t
    exact ih t

theorem mem_iterationSpace_one (lo hi i : Nat) :
    i ∈ iterationSpace lo hi 1 ↔ lo ≤ i ∧ i < hi := by
  unfold iterationSpace
  simp only [List.mem_map, List.mem_range]
  constructor
  · rintro ⟨k, hk, rfl⟩
    have : (hi - lo + (1 - 1)) / 1 = hi - lo := by simp
    omega
  · rintro ⟨h1, h2⟩
    refine ⟨i - lo, ?_, by omega⟩
    have : (hi - lo + (1 - 1)) / 1 = hi - lo := by simp
    omega

theorem mem_iterationSpace2 (ilo ihi jlo jhi : Nat) (a : Nat × Nat) :
    a ∈ iterationSpace2 ilo ihi jlo jhi ↔ (ilo ≤ a.1 ∧ a.1 < ihi) ∧ (jlo ≤ a.2 ∧ a.2 < jhi) := by
  unfold iterationSpace2
  simp only [List.mem_flatMap, List.mem_map, mem_iterationSpace_one]
  constructor
  · rintro ⟨i, hi, j, hj, rfl⟩
    exact ⟨hi, hj⟩
  · rintro ⟨hi, hj⟩
    exact ⟨a.1, hi, a.2, hj, rfl⟩

theorem mem_iterationSpace_three (n pxl : Nat) (h : pxl ∈ iterationSpace 0 n 3) :
    pxl % 3 = 0 := by
  unfold iterationSpace at h
  simp only [List.mem_map, List.mem_range] at h
  obtain ⟨k, -, rfl⟩ := h
  omega

theorem store_comm (d : List Byte) (i j : Nat) (u v : Byte) (hij : i ≠ j) :
    (store d i u).bind (fun e => store e j v) = (store d j v).bind (fun e => store e i u) := by
  unfold store
  by_cases hi : i < d.length <;> by_cases hj : j < d.length
  · simp only [hi, hj, if_true, Option.some_bind, List.length_set, List.set_comm u v d hij]
  · simp only [hi, hj, if_true, if_false, Option.some_bind, Option.none_bind, List.length_set]
  · simp only [hi, hj, if_true, if_false, Option.some_bind, Option.none_bind, List.length_set]
  · simp only [hi, hj, if_false, Option.none_bind]

/-- The grayscale iteration in closed form: it succeeds exactly when `pxl + 2` is inside
the buffer, and then stores `grayByte` at the three indices. -/
theorem grayIteration_eq (d : List Byte) (pxl : Nat) :
    grayIteration d pxl =
      if pxl + 2 < d.length then
        some (((d.set (pxl + 2) (grayByte d pxl)).set (pxl + 1) (grayByte d pxl)).set pxl
          (grayByte d pxl))
      else none := by
  by_cases h : pxl + 2 < d.length
  · have h2 := getElem?_getD d (pxl + 2) h
    have h1 := getElem?_getD d (pxl + 1) (by omega)
    have h0 := getElem?_getD d pxl (by omega)
    simp only [grayIteration, h2, h1, h0, if_pos h, grayByte]
  · have h2 : d[pxl + 2]? = none := List.getElem?_eq_none (by omega)
    simp only [grayIteration, h2, if_neg h]

/-- Each grayscale iteration writes only the three bytes of its own pixel. -/
theorem grayIteration_frame (d e : List Byte) (pxl p : Nat) (h : grayIteration d pxl = some e)
    (hp : p < pxl ∨ pxl + 3 ≤ p) : e[p]? = d[p]? ∧ e.length = d.length := by
  rw [grayIteration_eq] at h
  split_ifs at h with hb
  have he := (Option.some.inj h).symm
  subst he
  constructor
  · rw [List.getElem?_set_ne (by omega), List.getElem?_set_ne (by omega),
      List.getElem?_set_ne (by omega)]
  · simp only [List.length_set]

theorem getD_set_ne (d : List Byte) (i p : Nat) (v : Byte) (h : i ≠ p) :
    (d.set i v).getD p 0 = d.getD p 0 := by
  simp only [List.getD_eq_getElem?_getD, List.getElem?_set_ne h]

/-- Each grayscale iteration reads only the three bytes of its own pixel: the gray byte
of a pixel is not affected by the stores of an iteration on another pixel. -/
theorem grayByte_set (d : List Byte) (x y : Nat) (g : Byte) (hxy : x + 3 ≤ y ∨ y + 3 ≤ x) :
    grayByte (((d.set (x + 2) g).set (x + 1) g).set x g) y = grayByte d y := by
  unfold grayByte
  rw [getD_set_ne _ _ _ _ (by omega), getD_set_ne _ _ _ _ (by omega),
    getD_set_ne _ _ _ _ (by omega), getD_set_ne _ _ _ _ (by omega),
    getD_set_ne _ _ _ _ (by omega), getD_set_ne _ _ _ _ (by omega),
    getD_set_ne _ _ _ _ (by omega), getD_set_ne _ _ _ _ (by omega),
    getD_set_ne _ _ _ _ (by omega)]

theorem set_pass_three (d : List Byte) (a b c m : Nat) (g u : Byte)
    (ha : a ≠ m) (hb : b ≠ m) (hc : c ≠ m) :
    (((d.set a g).set b g).set c g).set m u = (((d.set m u).set a g).set b g).set c g := by
  rw [List.set_comm g u _ hc, List.set_comm g u _ hb, List.set_comm g u _ ha]

theorem grayIteration_comm (d : List Byte) (x y : Nat) (hxy : x + 3 ≤ y ∨ y + 3 ≤ x) :
    (grayIteration d x).bind (fun e => grayIteration e y) =
      (grayIteration d y).bind (fun e => grayIteration e x) := by
  by_cases hx : x + 2 < d.length <;> by_cases hy : y + 2 < d.length
  · rw [grayIteration_eq d x, grayIteration_eq d y, if_pos hx, if_pos hy, Option.some_bind,
      Option.some_bind, grayIteration_eq, grayIteration_eq]
    simp only [List.length_set, if_pos hx, if_pos hy]
    rw [grayByte_set d x y _ hxy, grayByte_set d y x _ (by omega)]
    congr 1
    rw [set_pass_three _ _ _ _ (y + 2) _ _ (by omega) (by omega) (by omega),
      set_pass_three _ _ _ _ (y + 1) _ _ (by omega) (by omega) (by omega),
      set_pass_three _ _ _ _ y _ _ (by omega) (by omega) (by omega)]
  · rw [grayIteration_eq d x, grayIteration_eq d y, if_pos hx, if_neg hy, Option.some_bind,
      Option.none_bind, grayIteration_eq]
    simp only [List.length_set, if_neg hy]
  · rw [grayIteration_eq d x, grayIteration_eq d y, if_neg hx, if_pos hy, Option.some_bind,
      Option.none_bind, grayIteration_eq]
    simp only [List.length_set, if_neg hx]
  · rw [grayIteration_eq d x, grayIteration_eq d y, if_neg hx, if_neg hy]
    rfl

/-- Whenever the grayscale loop completes in program order, it gives the same result for
every order of its iterations. -/
theorem gray_order_independent (img out : BMP_Image) (order : List Nat)
    (hrun : BMP_gray_loop img = some out)
    (hperm : order.Perm (iterationSpace 0 img.pixel_size 3)) :
    BMP_gray_loop_in order img = some out := by
  have hrun0 : runIterations (fun pxl px => grayIteration px pxl) order img.pixel =
      forLoop 0 img.pixel_size 3 (fun pxl px => grayIteration px pxl) img.pixel := by
    rw [forLoop_eq_run]
    apply runIterations_perm _ _ _ hperm
    intro x hx y hy d
    have h3x := mem_iterationSpace_three _ x (hperm.subset hx)
    have h3y := mem_iterationSpace_three _ y (hperm.subset hy)
    by_cases hxy : x = y
    · subst hxy
      rfl
    · exact grayIteration_comm d x y (by omega)
  unfold BMP_gray_loop at hrun
  by_cases hg : intCounter 0 img.pixel_size 3
  · rw [if_pos hg] at hrun
    unfold BMP_gray_loop_in
    rw [hrun0]
    cases hf : forLoop 0 img.pixel_size 3 (fun pxl px => grayIteration px pxl) img.pixel with
    | none =>
      rw [hf] at hrun
      cases hrun
    | some px =>
      rw [hf] at hrun
      exact hrun
  · rw [if_neg hg] at hrun
    cases hrun

/-- Iterations that each store one value, fixed in advance, into a cell of their own can
be executed in any order. -/
theorem store_cells_order (body : Nat × Nat → List Byte → Option (List Byte))
    (idx : Nat × Nat → Nat) (val : Nat × Nat → Byte) (l1 l2 : List (Nat × Nat))
    (hbody : ∀ a ∈ l1, ∀ d, body a d = store d (idx a) (val a))
    (hinj : ∀ x ∈ l1, ∀ y ∈ l1, idx x = idx y → x = y)
    (hperm : l1.Perm l2) (s : List Byte) :
    runIterations body l1 s = runIterations body l2 s := by
  apply runIterations_perm _ _ _ hperm
  intro x hx y hy d
  by_cases hxy : x = y
  · subst hxy
    rfl
  · have hne : idx x ≠ idx y := fun h => hxy (hinj x hx y hy h)
    have hy2 : body y = fun e => store e (idx y) (val y) := funext (hbody y hy)
    have hx2 : body x = fun e => store e (idx x) (val x) := funext (hbody x hx)
    rw [hbody x hx d, hbody y hy d, hy2, hx2]
    exact store_comm d (idx x) (idx y) (val x) (val y) hne

theorem blurFill_eq_run (pixel : List Byte) (K : List (List FP)) (h w M : Nat)
    (out : List Byte) :
    blurFill pixel K h w M out =
      runIterations (blurFillCell pixel K h w M) (blurFillSpace h w M) out := by
  unfold blurFill blurFillSpace
  exact nest_eq_run
    (fun i j out =>
      match blurSum pixel K w M i j, outIndex h w i j with
      | some sum, some idx => store out idx (toByte sum.trunc)
      | _, _ => none) _ _ _ _ out

theorem blurCopyBack_eq_run (filled : List Byte) (h w : Nat) (pixel : List Byte) :
    blurCopyBack filled h w pixel =
      runIterations (blurCopyBackCell filled h w) (blurCopyBackSpace h w) pixel := by
  unfold blurCopyBack blurCopyBackSpace
  exact nest_eq_run
    (fun i j px =>
      match (outIndex h w i j).bind (fun idx => filled[idx]?) with
      | some v => store px ((i * w + j) % 2 ^ 32) v
      | none => none) _ _ _ _ pixel

/-- Each iteration of the first blur loop nest reads only the original pixel buffer and
stores one value into its own cell of the output matrix. -/
theorem blurFillCell_eq (pixel : List Byte) (N h w M : Nat) (a : Nat × Nat)
    (hN : N = 2 * M + 1) (hN3 : (N * 3) % 2 ^ 32 = N * 3) (hhw : h * w < 2 ^ 32)
    (hsize : h * w ≤ pixel.length) (hlen : pixel.length < 2 ^ 32)
    (hi1 : M ≤ a.1) (hi2 : a.1 + M < h) (hj1 : M ≤ a.2) (hj2 : a.2 + M < w)
    (out : List Byte) :
    blurFillCell pixel (kernel N) h w M a out =
      store out (a.1 * w + a.2) (toByte (windowSum pixel N w M a.1 a.2).trunc) := by
  obtain ⟨ho, -⟩ := outIndex_spec h w a.1 a.2 hhw (by omega) (by omega)
  have hs := blurSum_spec pixel N w h M a.1 a.2 hN hN3 hi1 hi2 hj1 hj2 hsize hlen
  simp only [blurFillCell, hs, ho]

/-- Each iteration of the copy-back loop nest reads one cell of the output matrix and
stores it into the byte of the pixel buffer with the same index. -/
theorem blurCopyBackCell_eq (filled : List Byte) (h w : Nat) (a : Nat × Nat)
    (hhw : h * w < 2 ^ 32) (hfl : filled.length = h * w) (hi : a.1 < h) (hj : a.2 < w)
    (px : List Byte) :
    blurCopyBackCell filled h w a px =
      store px (a.1 * w + a.2) (filled.getD (a.1 * w + a.2) 0) := by
  obtain ⟨ho, hlt⟩ := outIndex_spec h w a.1 a.2 hhw hi hj
  have hv := getElem?_getD filled (a.1 * w + a.2) (by omega)
  have hm : (a.1 * w + a.2) % 2 ^ 32 = a.1 * w + a.2 := Nat.mod_eq_of_lt (by omega)
  simp only [blurCopyBackCell, ho, Option.some_bind, hv, hm]

theorem cell_index_inj_pair (w : Nat) (x y : Nat × Nat) (hx : x.2 < w) (hy : y.2 < w)
    (h : x.1 * w + x.2 = y.1 * w + y.2) : x = y := by
  obtain ⟨h1, h2⟩ := cell_index_inj w x.1 y.1 x.2 y.2 hx hy h
  exact Prod.ext h1 h2

/-- Every iteration of a run that completes has completed on some state. -/
theorem runIterations_some_mem {ι σ : Type} (body : ι → σ → Option σ) (l : List ι) :
    ∀ (s t : σ), runIterations body l s = some t → ∀ a ∈ l, ∃ d e, body a d = some e := by
  induction l with
  | nil =>
    intro s t _ a ha
    cases ha
  | cons b l ih =>
    intro s t h a ha
    rw [runIterations_cons] at h
    obtain ⟨u, hu, hrest⟩ := Option.bind_eq_some.mp h
    rcases List.mem_cons.mp ha with rfl | hmem
    · exact ⟨s, u, hu⟩
    · exact ih u t hrest a hmem

/-- Invariant rule for a counted loop that is known to complete. -/
theorem forCount_some_inv {σ : Type} (body : Nat → σ → Option σ) (P : Nat → σ → Prop)
    (n : Nat) : ∀ (i0 : Nat) (s0 t : σ), P i0 s0 →
      (∀ i s u, i0 ≤ i → i < i0 + n → P i s → body i s = some u → P (i + 1) u) →
      forCount 1 body n i0 s0 = some t → P (i0 + n) t := by
  induction n with
  | zero =>
    intro i0 s0 t h0 _ h
    have := Option.some.inj h
    subst this
    exact h0
  | succ n ih =>
    intro i0 s0 t h0 hstep h
    cases hb : body i0 s0 with
    | none =>
      simp only [forCount, hb] at h
      cases h
    | some u =>
      simp only [forCount, hb] at h
      have hu := hstep i0 s0 u (le_refl _) (by omega) h0 hb
      have := ih (i0 + 1) u t hu (fun i s v h1 h2 hp hv => hstep i s v (by omega) (by omega) hp hv) h
      have he : i0 + (n + 1) = i0 + 1 + n := by omega
      rw [he]
      exact this

theorem memcpy_some (dst src r : List Byte) (d s n : Nat) (h : memcpy dst d src s n = some r) :
    s + n ≤ src.length ∧ d + n ≤ dst.length ∧ r.length = dst.length := by
  by_cases hg : s + n ≤ src.length ∧ d + n ≤ dst.length
  · obtain ⟨r2, hr2, hl, -⟩ := memcpy_spec dst src d s n hg.1 hg.2
    rw [hr2] at h
    rw [← Option.some.inj h]
    exact ⟨hg.1, hg.2, hl⟩
  · unfold memcpy at h
    rw [if_neg hg] at h
    cases h

theorem row_offset_mod (i x w L : Nat) (hw : x % 2 ^ 32 = w) (hfit : i * w ≤ L)
    (hL : L < 2 ^ 32) : (i * x) % 2 ^ 32 = i * w := by
  rw [← Nat.mul_mod_mod, hw]
  exact Nat.mod_eq_of_lt (by omega)

/-- When `pixelMat` completes on a pixel buffer of `unsigned int` size, the byte matrix of
`height` rows of `width` bytes fits the pixel buffer, and nothing has wrapped around. -/
theorem pixelMat_some (img : BMP_Image) (mat : List Byte) (h32 : img.pixel.length < 2 ^ 32)
    (h : pixelMat img = some mat) :
    mat.length = img.height * ((img.width * 3) % 2 ^ 32) ∧
      img.height * ((img.width * 3) % 2 ^ 32) ≤ img.pixel.length := by
  unfold pixelMat at h
  simp only [forLoop_one, Nat.sub_zero] at h
  generalize hw : (img.width * 3) % 2 ^ 32 = w at h ⊢
  have hstep : ∀ (i : Nat) (m u : List Byte), 0 ≤ i → i < 0 + img.height →
      (m.length = img.height * w ∧ i * w ≤ img.pixel.length) →
      memcpy m ((i * w) % 2 ^ 32) img.pixel ((i * img.width * 3) % 2 ^ 32) w = some u →
      (u.length = img.height * w ∧ (i + 1) * w ≤ img.pixel.length) := by
    intro i m u _ hi hP hu
    obtain ⟨hl, hfit⟩ := hP
    obtain ⟨hs, hd, hr⟩ := memcpy_some m img.pixel u _ _ _ hu
    have hsrc : (i * img.width * 3) % 2 ^ 32 = i * w := by
      rw [Nat.mul_assoc]
      exact row_offset_mod i (img.width * 3) w img.pixel.length hw hfit h32
    rw [hsrc] at hs
    have hsucc : (i + 1) * w = i * w + w := by ring
    exact ⟨by omega, by omega⟩
  have hinv := forCount_some_inv
    (fun i mat => memcpy mat ((i * w) % 2 ^ 32) img.pixel ((i * img.width * 3) % 2 ^ 32) w)
    (fun i mat => mat.length = img.height * w ∧ i * w ≤ img.pixel.length)
    img.height 0 (List.replicate (img.height * w) 0) mat
    ⟨List.length_replicate _ _, by omega⟩ hstep h
  rw [Nat.zero_add] at hinv
  exact hinv

theorem halfWidth_lt (size : Nat) : halfWidth size < 2 ^ 31 := by
  unfold halfWidth
  omega

/-- An iteration of the first blur nest that completes on one state is, on every state,
the store of one value, computed from the original pixel buffer alone, into the cell
`out_buffer[i][j]`, whose row `i` exists. -/
theorem blurFillCell_some (pixel : List Byte) (K : List (List FP)) (h w M : Nat)
    (a : Nat × Nat) (d e : List Byte) (hde : blurFillCell pixel K h w M a d = some e) :
    a.1 < h ∧ ∀ out : List Byte, blurFillCell pixel K h w M a out =
      store out ((a.1 * w) % 2 ^ 32 + a.2)
        (toByte ((blurSum pixel K w M a.1 a.2).getD ⟨0, 0⟩).trunc) := by
  unfold blurFillCell at hde ⊢
  unfold outIndex at hde ⊢
  cases hs : blurSum pixel K w M a.1 a.2 with
  | none =>
    rw [hs] at hde
    cases hde
  | some sum =>
    by_cases hi : a.1 < h
    · refine ⟨hi, fun out => ?_⟩
      simp only [if_pos hi, Option.getD_some]
    · rw [hs, if_neg hi] at hde
      cases hde

/-- An iteration of the copy-back nest that completes on one state is, on every state,
the store of one value, read from the output matrix, into one byte of the pixel buffer. -/
theorem blurCopyBackCell_some (filled : List Byte) (h w : Nat) (a : Nat × Nat)
    (d e : List Byte) (hde : blurCopyBackCell filled h w a d = some e) :
    a.1 < h ∧ ∀ px : List Byte, blurCopyBackCell filled h w a px =
      store px ((a.1 * w + a.2) % 2 ^ 32)
        (((outIndex h w a.1 a.2).bind (fun idx => filled[idx]?)).getD 0) := by
  unfold blurCopyBackCell at hde ⊢
  cases hs : (outIndex h w a.1 a.2).bind (fun idx => filled[idx]?) with
  | none =>
    rw [hs] at hde
    cases hde
  | some v =>
    constructor
    · by_contra hi
      unfold outIndex at hs
      rw [if_neg hi] at hs
      cases hs
    · intro px
      simp only [Option.getD_some]

/-- The cells of the first blur nest lie inside the byte matrix as soon as no loop
counter overflows. -/
theorem blurFillSpace_bounds (h w N : Nat) (hw : w < 2 ^ 32) (hcnt : blurCounters h w N)
    (a : Nat × Nat) (ha : a ∈ blurFillSpace h w (halfWidth N)) :
    halfWidth N ≤ a.1 ∧ a.1 + halfWidth N < h ∧ halfWidth N ≤ a.2 ∧ a.2 + halfWidth N < w := by
  have hM := halfWidth_lt N
  unfold blurFillSpace at ha
  rw [mem_iterationSpace2] at ha
  obtain ⟨⟨hi1, hi2⟩, hj1, hj2⟩ := ha
  obtain ⟨-, -, hI, hJ, -, -⟩ := hcnt
  obtain ⟨hJ1, -⟩ := hJ (by omega)
  unfold intCounter at hI hJ1
  refine ⟨hi1, ?_, hj1, ?_⟩
  · omega
  · omega

/-- The cells of the copy-back nest lie inside the byte matrix as soon as no loop counter
overflows. -/
theorem blurCopyBackSpace_bounds (h w N : Nat) (hw : w < 2 ^ 32) (hcnt : blurCounters h w N)
    (a : Nat × Nat) (ha : a ∈ blurCopyBackSpace h w) :
    1 ≤ a.1 ∧ a.1 + 1 < h ∧ 1 ≤ a.2 ∧ a.2 + 1 < w := by
  unfold blurCopyBackSpace at ha
  rw [mem_iterationSpace2] at ha
  obtain ⟨⟨hi1, hi2⟩, hj1, hj2⟩ := ha
  obtain ⟨-, -, -, -, hI, hJ⟩ := hcnt
  have hJ1 := hJ (by omega)
  unfold intCounter at hI hJ1
  refine ⟨hi1, ?_, hj1, ?_⟩
  · omega
  · omega

/-- What a completed run of the loops of `BMP_blur` consists of. -/
theorem blur_loops_some (img out : BMP_Image) (N : Nat)
    (hrun : BMP_blur_loops img N = some out) :
    blurCounters img.height ((img.width * 3) % 2 ^ 32) N ∧
    ∃ mat filled px : List Byte, pixelMat img = some mat ∧
      blurFill img.pixel (kernel N) img.height ((img.width * 3) % 2 ^ 32) (halfWidth N) mat =
        some filled ∧
      blurCopyBack filled img.height ((img.width * 3) % 2 ^ 32) img.pixel = some px ∧
      out = { img with pixel := px } := by
  unfold BMP_blur_loops at hrun
  by_cases hcnt : blurCounters img.height ((img.width * 3) % 2 ^ 32) N
  · rw [if_pos hcnt] at hrun
    obtain ⟨mat, hmat, h2⟩ := Option.bind_eq_some.mp hrun
    obtain ⟨filled, hfilled, h3⟩ := Option.bind_eq_some.mp h2
    obtain ⟨px, hpx, h4⟩ := Option.map_eq_some'.mp h3
    exact ⟨hcnt, mat, filled, px, hmat, hfilled, hpx, h4.symm⟩
  · rw [if_neg hcnt] at hrun
    cases hrun

/-- Whenever the loops of `BMP_blur` complete in program order on a pixel buffer of
`unsigned int` size, they give the same result for every order of the iterations of the
first loop nest and every order of the iterations of the copy-back. -/
theorem blur_order_independent (img out : BMP_Image) (N : Nat)
    (h32 : img.pixel.length < 2 ^ 32) (hrun : BMP_blur_loops img N = some out)
    (order1 order2 : List (Nat × Nat))
    (h1 : order1.Perm (blurFillSpace img.height ((img.width * 3) % 2 ^ 32) (halfWidth N)))
    (h2 : order2.Perm (blurCopyBackSpace img.height ((img.width * 3) % 2 ^ 32))) :
    BMP_blur_loops_in order1 order2 img N = some out := by
  obtain ⟨hcnt, mat, filled, px, hmat, hfilled, hpx, hout⟩ := blur_loops_some img out N hrun
  obtain ⟨hml, hfit⟩ := pixelMat_some img mat h32 hmat
  have hw : (img.width * 3) % 2 ^ 32 < 2 ^ 32 := Nat.mod_lt _ (by norm_num)
  unfold BMP_blur_loops_in
  generalize (img.width * 3) % 2 ^ 32 = w at hcnt hfilled hpx hml hfit hw h1 h2 ⊢
  have hrow : ∀ i, i < img.height → (i * w) % 2 ^ 32 = i * w := by
    intro i hi
    have : i * w ≤ img.height * w := Nat.mul_le_mul_right w (by omega)
    exact Nat.mod_eq_of_lt (by omega)
  rw [blurFill_eq_run] at hfilled
  rw [blurCopyBack_eq_run] at hpx
  have hfill : runIterations (blurFillCell img.pixel (kernel N) img.height w (halfWidth N))
      order1 mat = some filled := by
    rw [← hfilled]
    apply (store_cells_order _ (fun a => (a.1 * w) % 2 ^ 32 + a.2)
      (fun a => toByte ((blurSum img.pixel (kernel N) w (halfWidth N) a.1 a.2).getD ⟨0, 0⟩).trunc)
      _ _ ?_ ?_ h1.symm mat).symm
    · intro a ha d
      obtain ⟨d0, e0, hde⟩ := runIterations_some_mem _ _ mat filled hfilled a ha
      exact (blurFillCell_some _ _ _ _ _ a d0 e0 hde).2 d
    · intro x hx y hy hxy
      obtain ⟨-, hx1, -, hx2⟩ := blurFillSpace_bounds img.height w N hw hcnt x hx
      obtain ⟨-, hy1, -, hy2⟩ := blurFillSpace_bounds img.height w N hw hcnt y hy
      simp only [hrow x.1 (by omega), hrow y.1 (by omega)] at hxy
      exact cell_index_inj_pair w x y (by omega) (by omega) hxy
  have hcopy : runIterations (blurCopyBackCell filled img.height w) order2 img.pixel =
      some px := by
    rw [← hpx]
    apply (store_cells_order _ (fun a => (a.1 * w + a.2) % 2 ^ 32)
      (fun a => ((outIndex img.height w a.1 a.2).bind (fun idx => filled[idx]?)).getD 0)
      _ _ ?_ ?_ h2.symm img.pixel).symm
    · intro a ha d
      obtain ⟨d0, e0, hde⟩ := runIterations_some_mem _ _ img.pixel px hpx a ha
      exact (blurCopyBackCell_some _ _ _ a d0 e0 hde).2 d
    · intro x hx y hy hxy
      obtain ⟨-, hx1, -, hx2⟩ := blurCopyBackSpace_bounds img.height w N hw hcnt x hx
      obtain ⟨-, hy1, -, hy2⟩ := blurCopyBackSpace_bounds img.height w N hw hcnt y hy
      have hbx := cell_index_bound w img.height x.1 x.2 (by omega) (by omega)
      have hby := cell_index_bound w img.height y.1 y.2 (by omega) (by omega)
      simp only [Nat.mod_eq_of_lt (show x.1 * w + x.2 < 2 ^ 32 by omega),
        Nat.mod_eq_of_lt (show y.1 * w + y.2 < 2 ^ 32 by omega)] at hxy
      exact cell_index_inj_pair w x y (by omega) (by omega) hxy
  rw [hmat, Option.some_bind, hfill, Option.some_bind, hcopy, Option.map_some', hout]

/-- C16: iteration-order independence.  Whenever the grayscale loop completes in program
order, executing its iterations sequentially in any permutation of its iteration space
completes with the same pixel buffer; and whenever the loops of `BMP_blur` complete in
program order (on a pixel buffer of `unsigned int` size, for any kernel size), executing
the iterations of the first loop nest and those of the copy-back nest in any permutations
of their iteration spaces completes with the same final pixel buffer.  The reasons: a
grayscale iteration changes only the three bytes of its own pixel; an iteration of the
first blur nest stores a value fixed in advance, computed from the original pixel buffer,
into the cell `out_buffer[i][j]`, and different iterations have different cells; a
copy-back iteration stores the cell `out_buffer[i][j]` into the byte of the same index,
and different iterations have different bytes. -/
theorem iteration_order_independent (imgG outG : BMP_Image) (order0 : List Nat)
    (hG : BMP_gray_loop imgG = some outG)
    (h0 : order0.Perm (iterationSpace 0 imgG.pixel_size 3))
    (img out : BMP_Image) (N : Nat) (h32 : img.pixel.length < 2 ^ 32)
    (hB : BMP_blur_loops img N = some out) (order1 order2 : List (Nat × Nat))
    (h1 : order1.Perm (blurFillSpace img.height ((img.width * 3) % 2 ^ 32) (halfWidth N)))
    (h2 : order2.Perm (blurCopyBackSpace img.height ((img.width * 3) % 2 ^ 32))) :
    BMP_gray_loop_in order0 imgG = some outG ∧
    BMP_blur_loops_in order1 order2 img N = some out ∧
    (∀ (d e : List Byte) (pxl p : Nat), grayIteration d pxl = some e →
      (p < pxl ∨ pxl + 3 ≤ p) → e[p]? = d[p]? ∧ e.length = d.length) ∧
    (∀ a ∈ blurFillSpace img.height ((img.width * 3) % 2 ^ 32) (halfWidth N),
      ∃ v : Byte, ∀ d : List Byte,
        blurFillCell img.pixel (kernel N) img.height ((img.width * 3) % 2 ^ 32) (halfWidth N)
          a d = store d (a.1 * ((img.width * 3) % 2 ^ 32) + a.2) v) ∧
    (∀ a ∈ blurFillSpace img.height ((img.width * 3) % 2 ^ 32) (halfWidth N),
      ∀ b ∈ blurFillSpace img.height ((img.width * 3) % 2 ^ 32) (halfWidth N),
        a.1 * ((img.width * 3) % 2 ^ 32) + a.2 = b.1 * ((img.width * 3) % 2 ^ 32) + b.2 →
        a = b) ∧
    (∀ a ∈ blurCopyBackSpace img.height ((img.width * 3) % 2 ^ 32),
      ∀ filled px : List Byte, filled.length = img.height * ((img.width * 3) % 2 ^ 32) →
        blurCopyBackCell filled img.height ((img.width * 3) % 2 ^ 32) a px =
        store px (a.1 * ((img.width * 3) % 2 ^ 32) + a.2)
          (filled.getD (a.1 * ((img.width * 3) % 2 ^ 32) + a.2) 0)) ∧
    (∀ a ∈ blurCopyBackSpace img.height ((img.width * 3) % 2 ^ 32),
      ∀ b ∈ blurCopyBackSpace img.height ((img.width * 3) % 2 ^ 32),
        a.1 * ((img.width * 3) % 2 ^ 32) + a.2 = b.1 * ((img.width * 3) % 2 ^ 32) + b.2 →
        a = b) := by
  obtain ⟨hcnt, mat, filled, px, hmat, hfilled, hpx, hout⟩ := blur_loops_some img out N hB
  obtain ⟨hml, hfit⟩ := pixelMat_some img mat h32 hmat
  have hw : (img.width * 3) % 2 ^ 32 < 2 ^ 32 := Nat.mod_lt _ (by norm_num)
  refine ⟨gray_order_independent imgG outG order0 hG h0,
    blur_order_independent img out N h32 hB order1 order2 h1 h2, grayIteration_frame,
    ?_, ?_, ?_, ?_⟩
  · intro a ha
    obtain ⟨-, ha1, -, ha2⟩ := blurFillSpace_bounds img.height ((img.width * 3) % 2 ^ 32) N hw
      hcnt a ha
    rw [blurFill_eq_run] at hfilled
    obtain ⟨d0, e0, hde⟩ := runIterations_some_mem _ _ mat filled hfilled a ha
    obtain ⟨-, hcell⟩ := blurFillCell_some _ _ _ _ _ a d0 e0 hde
    have hrow : (a.1 * ((img.width * 3) % 2 ^ 32)) % 2 ^ 32 =
        a.1 * ((img.width * 3) % 2 ^ 32) := by
      have : a.1 * ((img.width * 3) % 2 ^ 32) ≤ img.height * ((img.width * 3) % 2 ^ 32) :=
        Nat.mul_le_mul_right _ (by omega)
      exact Nat.mod_eq_of_lt (by omega)
    refine ⟨toByte ((blurSum img.pixel (kernel N) ((img.width * 3) % 2 ^ 32) (halfWidth N)
      a.1 a.2).getD ⟨0, 0⟩).trunc, fun d => ?_⟩
    rw [hcell d, hrow]
  · intro a ha b hb hab
    obtain ⟨-, -, -, ha2⟩ := blurFillSpace_bounds img.height ((img.width * 3) % 2 ^ 32) N hw
      hcnt a ha
    obtain ⟨-, -, -, hb2⟩ := blurFillSpace_bounds img.height ((img.width * 3) % 2 ^ 32) N hw
      hcnt b hb
    exact cell_index_inj_pair _ a b (by omega) (by omega) hab
  · intro a ha fl px hfl
    obtain ⟨-, ha1, -, ha2⟩ := blurCopyBackSpace_bounds img.height ((img.width * 3) % 2 ^ 32) N
      hw hcnt a ha
    exact blurCopyBackCell_eq fl img.height _ a (by omega) hfl (by omega) (by omega) px
  · intro a ha b hb hab
    obtain ⟨-, -, -, ha2⟩ := blurCopyBackSpace_bounds img.height ((img.width * 3) % 2 ^ 32) N
      hw hcnt a ha
    obtain ⟨-, -, -, hb2⟩ := blurCopyBackSpace_bounds img.height ((img.width * 3) % 2 ^ 32) N
      hw hcnt b hb
    exact cell_index_inj_pair _ a b (by omega) (by omega) hab

/-- Witness for C16: the reversed program order for a two-pixel grayscale and for the blur
of the 4x3 image with the even kernel size N = 2 (M = 0, every byte is a cell). -/
theorem iteration_order_independent_witness :
    ∃ outG out : BMP_Image,
      BMP_gray_loop (imageOf 2 1 [10, 20, 200, 255, 255, 255]) = some outG ∧
      BMP_gray_loop_in (iterationSpace 0 6 3).reverse
        (imageOf 2 1 [10, 20, 200, 255, 255, 255]) = some outG ∧
      BMP_blur_loops yellowImage 2 = some out ∧
      BMP_blur_loops_in
        (blurFillSpace yellowImage.height ((yellowImage.width * 3) % 2 ^ 32) (halfWidth 2)).reverse
        (blurCopyBackSpace yellowImage.height ((yellowImage.width * 3) % 2 ^ 32)).reverse
        yellowImage 2 = some out := by
  obtain ⟨outG, hG⟩ := Option.isSome_iff_exists.mp
    (by decide! : (BMP_gray_loop (imageOf 2 1 [10, 20, 200, 255, 255, 255])).isSome = true)
  obtain ⟨out, hB⟩ := Option.isSome_iff_exists.mp
    (by decide! : (BMP_blur_loops yellowImage 2).isSome = true)
  have h := iteration_order_independent (imageOf 2 1 [10, 20, 200, 255, 255, 255]) outG
    (iterationSpace 0 6 3).reverse hG (List.reverse_perm _) yellowImage out 2 (by decide) hB
    (blurFillSpace yellowImage.height ((yellowImage.width * 3) % 2 ^ 32) (halfWidth 2)).reverse
    (blurCopyBackSpace yellowImage.height ((yellowImage.width * 3) % 2 ^ 32)).reverse
    (List.reverse_perm _) (List.reverse_perm _)
  exact ⟨outG, out, hG, h.1, hB, h.2.1⟩

/-! ## Blur of a constant image: the accumulated rounding error -/

theorem lt_two_pow_bitLength (fuel : Nat) : ∀ x : Nat, x ≤ fuel → x < 2 ^ bitLength fuel x := by
  induction fuel with
  | zero =>
    intro x hx
    have : x = 0 := by omega
    subst this
    simp [bitLength]
  | succ f ih =>
    intro x hx
    by_cases h0 : x = 0
    · subst h0
      simp [bitLength]
    · simp only [bitLength, if_neg h0]
      have := ih (x / 2) (by omega)
      rw [pow_succ]
      omega

theorem bitLength_eq (x b : Nat) (h1 : 2 ^ b ≤ x) (h2 : x < 2 ^ (b + 1)) :
    bitLength x x = b + 1 := by
  have hx : x ≠ 0 := by
    have : 0 < 2 ^ b := by positivity
    omega
  have hlo := two_pow_bitLength_le x x hx
  have hhi := lt_two_pow_bitLength x x le_rfl
  by_contra hne
  rcases Nat.lt_or_gt_of_ne hne with h | h
  · have : 2 ^ bitLength x x ≤ 2 ^ b := Nat.pow_le_pow_right (by decide) (by omega)
    omega
  · have : 2 ^ (b + 1) ≤ 2 ^ (bitLength x x - 1) := Nat.pow_le_pow_right (by decide) (by omega)
    omega

theorem raw_div (a b : Nat) : Nat.div a b = a / b := rfl

theorem raw_mod (a b : Nat) : Nat.mod a b = a % b := rfl

theorem roundAt_eq (x t : Nat) : roundAt x t =
    if 2 ^ t < 2 * (x % 2 ^ t) ∨ (2 * (x % 2 ^ t) = 2 ^ t ∧ (x / 2 ^ t) % 2 = 1)
    then x / 2 ^ t + 1 else x / 2 ^ t := by
  unfold roundAt
  simp only [cond_eq_if, Bool.or_eq_true, Bool.and_eq_true, Nat.blt_eq, Nat.beq_eq, Nat.pow_eq,
    Nat.mul_eq, raw_div, raw_mod, Nat.succ_eq_add_one]

theorem jumpIncrement_eq (mc m sh : Nat) : jumpIncrement mc m sh =
    if 2 ^ sh < 2 * (mc % 2 ^ sh) then mc / 2 ^ sh + 1
    else if 2 * (mc % 2 ^ sh) = 2 ^ sh then
      (if m % 2 = 0 then mc / 2 ^ sh + (mc / 2 ^ sh) % 2 else 0)
    else mc / 2 ^ sh := by
  unfold jumpIncrement
  simp only [cond_eq_if, Nat.blt_eq, Nat.beq_eq, Nat.pow_eq, Nat.mul_eq, Nat.add_eq, raw_div,
    raw_mod, Nat.succ_eq_add_one]

theorem jumpCount_eq (mc m sh n : Nat) : jumpCount mc m sh n =
    if n ≤ (16777215 - m) / jumpIncrement mc m sh then n
    else (16777215 - m) / jumpIncrement mc m sh := by
  unfold jumpCount
  simp only [cond_eq_if, Nat.ble_eq, raw_div, Nat.sub_eq]

theorem jumpEnd_eq (mc m sh n : Nat) : jumpEnd mc m sh n =
    (m + jumpCount mc m sh n * jumpIncrement mc m sh) * 2 ^ sh + mc := by
  unfold jumpEnd
  simp only [Nat.pow_eq, Nat.mul_eq, Nat.add_eq]

theorem excessBits_spec (x : Nat) (h1 : 2 ^ 23 ≤ x) (h2 : x < 2 ^ 32) :
    2 ^ (23 + excessBits x) ≤ x ∧ x < 2 ^ (24 + excessBits x) := by
  unfold excessBits
  simp only [cond_eq_if, Nat.blt_eq]
  norm_num at h1 h2
  split_ifs <;> norm_num <;> omega

/-- Rounding a significand of `24 + t` bits drops `t` bits. -/
theorem round_at (x t : Nat) (e : Int) (h1 : 2 ^ (23 + t) ≤ x) (h2 : x < 2 ^ (24 + t)) :
    FP.round binary32 ⟨x, e⟩ = ⟨roundAt x t, e + t⟩ := by
  have hbl := bitLength_eq x (23 + t) h1 (by rw [show 23 + t + 1 = 24 + t by omega]; exact h2)
  have hs : 23 + t + 1 - 24 = t := by omega
  rw [roundAt_eq]
  unfold FP.round
  simp only [hbl, binary32, hs]
  split_ifs <;> rfl

theorem roundAt_bounds (x t : Nat) (h1 : 2 ^ (23 + t) ≤ x) (h2 : x < 2 ^ (24 + t)) :
    2 ^ 23 ≤ roundAt x t ∧ roundAt x t ≤ 2 ^ 24 := by
  have hpos : 0 < 2 ^ t := by positivity
  have hq1 : 2 ^ 23 ≤ x / 2 ^ t := by
    rw [Nat.le_div_iff_mul_le hpos, ← pow_add]
    exact h1
  have hq2 : x / 2 ^ t < 2 ^ 24 := by
    rw [Nat.div_lt_iff_lt_mul hpos, ← pow_add]
    exact h2
  rw [roundAt_eq]
  split_ifs <;> omega

/-- One addition `sum += c`, on the significands: the exact sum is rounded at the exponent
of the sum, or one above it when the sum leaves its binade. -/
theorem add_step (mc m sh : Nat) (ec : Int) (hm1 : 2 ^ 23 ≤ m) (hm2 : m ≤ 2 ^ 24)
    (hmc : mc < 2 ^ 24) :
    FP.add binary32 ⟨m, ec + sh⟩ ⟨mc, ec⟩ =
      if m * 2 ^ sh + mc < 2 ^ (24 + sh) then ⟨roundAt (m * 2 ^ sh + mc) sh, ec + sh⟩
      else ⟨roundAt (m * 2 ^ sh + mc) (sh + 1), ec + ((sh + 1 : Nat) : Int)⟩ := by
  have hmin : min (ec + (sh : Int)) ec = ec := min_eq_right (by omega)
  show FP.round binary32 ⟨m * 2 ^ (ec + (sh : Int) - min (ec + (sh : Int)) ec).toNat +
    mc * 2 ^ (ec - min (ec + (sh : Int)) ec).toNat, min (ec + (sh : Int)) ec⟩ = _
  rw [hmin, sub_self, Int.toNat_zero, pow_zero, mul_one,
    show (ec + (sh : Int) - ec).toNat = sh by omega]
  have hpos : 0 < 2 ^ sh := by positivity
  have hlo : 2 ^ (23 + sh) ≤ m * 2 ^ sh + mc := by
    rw [pow_add]
    have := Nat.mul_le_mul_right (2 ^ sh) hm1
    omega
  have hhi : m * 2 ^ sh + mc < 2 ^ (24 + (sh + 1)) := by
    have h1 : 2 ^ (24 + (sh + 1)) = 2 * (2 ^ 24 * 2 ^ sh) := by
      rw [show 24 + (sh + 1) = (24 + sh) + 1 by omega, pow_succ, pow_add]
      ring
    have h2 := Nat.mul_le_mul_right (2 ^ sh) hm2
    have h3 : 2 ^ 24 * 1 ≤ 2 ^ 24 * 2 ^ sh := Nat.mul_le_mul_left _ hpos
    rw [h1]
    omega
  by_cases hx : m * 2 ^ sh + mc < 2 ^ (24 + sh)
  · rw [if_pos hx]
    exact round_at _ sh ec hlo hx
  · rw [if_neg hx]
    exact round_at _ (sh + 1) ec (by rw [show 23 + (sh + 1) = 24 + sh by omega]; omega) hhi

theorem roundAt_in_binade (mc m sh : Nat) (hd : 0 < jumpIncrement mc m sh) :
    roundAt (m * 2 ^ sh + mc) sh = m + jumpIncrement mc m sh := by
  have hpos : 0 < 2 ^ sh := by positivity
  have hdiv : (m * 2 ^ sh + mc) / 2 ^ sh = m + mc / 2 ^ sh := by
    rw [Nat.add_comm, Nat.add_mul_div_right _ _ hpos, Nat.add_comm]
  have hmod : (m * 2 ^ sh + mc) % 2 ^ sh = mc % 2 ^ sh := by
    rw [Nat.add_comm, Nat.add_mul_mod_self_right]
  rw [jumpIncrement_eq] at hd ⊢
  rw [roundAt_eq, hdiv, hmod]
  generalize mc / 2 ^ sh = a at hd ⊢
  generalize mc % 2 ^ sh = r at hd ⊢
  generalize 2 ^ sh = P at hd ⊢
  split_ifs at hd ⊢ <;> omega

theorem in_binade_lt (mc m sh : Nat) (hd : 0 < jumpIncrement mc m sh)
    (hfit : m + jumpIncrement mc m sh < 2 ^ 24) : m * 2 ^ sh + mc < 2 ^ (24 + sh) := by
  have hpos : 0 < 2 ^ sh := by positivity
  have hdm : 2 ^ sh * (mc / 2 ^ sh) + mc % 2 ^ sh = mc := Nat.div_add_mod mc (2 ^ sh)
  have hr : mc % 2 ^ sh < 2 ^ sh := Nat.mod_lt _ hpos
  rw [jumpIncrement_eq] at hd hfit
  have ha : m + mc / 2 ^ sh + 1 ≤ 2 ^ 24 := by
    generalize mc / 2 ^ sh = a at hd hfit ⊢
    split_ifs at hd hfit <;> omega
  have h2 : 2 ^ sh * (m + mc / 2 ^ sh + 1) ≤ 2 ^ sh * 2 ^ 24 := Nat.mul_le_mul_left _ ha
  have h3 : 2 ^ sh * (m + mc / 2 ^ sh + 1) = m * 2 ^ sh + 2 ^ sh * (mc / 2 ^ sh) + 2 ^ sh := by
    ring
  rw [pow_add, Nat.mul_comm (2 ^ 24)]
  omega

theorem jumpIncrement_stable (mc m sh : Nat) (hd : 0 < jumpIncrement mc m sh) :
    jumpIncrement mc (m + jumpIncrement mc m sh) sh = jumpIncrement mc m sh := by
  rw [jumpIncrement_eq mc (m + jumpIncrement mc m sh) sh]
  rw [jumpIncrement_eq] at hd ⊢
  generalize mc / 2 ^ sh = a at hd ⊢
  generalize mc % 2 ^ sh = r at hd ⊢
  generalize 2 ^ sh = P at hd ⊢
  split_ifs at hd ⊢ <;> omega

/-- A run of additions inside one binade advances the significand by the same increment
each time. -/
theorem addRepeat_jump (mc sh : Nat) (ec : Int) (hmc : mc < 2 ^ 24) :
    ∀ (k m : Nat), 2 ^ 23 ≤ m → 0 < jumpIncrement mc m sh →
      m + k * jumpIncrement mc m sh < 2 ^ 24 →
      addRepeat ⟨mc, ec⟩ k ⟨m, ec + sh⟩ = ⟨m + k * jumpIncrement mc m sh, ec + sh⟩ := by
  intro k
  induction k with
  | zero =>
    intro m _ _ _
    simp [addRepeat]
  | succ k ih =>
    intro m hm hd hfit
    have hk : (k + 1) * jumpIncrement mc m sh =
        jumpIncrement mc m sh + k * jumpIncrement mc m sh := by ring
    have hfit1 : m + jumpIncrement mc m sh < 2 ^ 24 := by omega
    have h1 : FP.add binary32 ⟨m, ec + sh⟩ ⟨mc, ec⟩ = ⟨m + jumpIncrement mc m sh, ec + sh⟩ := by
      rw [add_step mc m sh ec hm (by omega) hmc, if_pos (in_binade_lt mc m sh hd hfit1),
        roundAt_in_binade mc m sh hd]
    have hst := jumpIncrement_stable mc m sh hd
    show addRepeat ⟨mc, ec⟩ k (FP.add binary32 ⟨m, ec + sh⟩ ⟨mc, ec⟩) = _
    rw [h1, ih (m + jumpIncrement mc m sh) (by omega) (by rw [hst]; exact hd)
      (by rw [hst]; omega), hst, hk, Nat.add_assoc]

theorem addRepeat_add (c : FP) (a : Nat) : ∀ (b : Nat) (s : FP),
    addRepeat c (b + a) s = addRepeat c a (addRepeat c b s) := by
  intro b
  induction b with
  | zero => intro s; simp [addRepeat]
  | succ k ih =>
    intro s
    rw [show k + 1 + a = (k + a) + 1 by omega]
    exact ih _

theorem jumpCount_spec (mc m sh n : Nat) :
    jumpCount mc m sh n ≤ n ∧
      (0 < jumpCount mc m sh n → 0 < jumpIncrement mc m sh ∧
        m + jumpCount mc m sh n * jumpIncrement mc m sh < 2 ^ 24) := by
  rw [jumpCount_eq]
  have hmul := Nat.div_mul_le_self (16777215 - m) (jumpIncrement mc m sh)
  have hzero : jumpIncrement mc m sh = 0 → (16777215 - m) / jumpIncrement mc m sh = 0 := by
    intro h
    rw [h, Nat.div_zero]
  generalize (16777215 - m) / jumpIncrement mc m sh = q at hmul hzero ⊢
  generalize jumpIncrement mc m sh = d at hmul hzero ⊢
  have hq : 0 < q → 0 < d ∧ m + q * d < 2 ^ 24 := by
    intro h
    have hd : 0 < d := by
      by_contra h0
      have := hzero (by omega)
      omega
    have : 1 * d ≤ q * d := Nat.mul_le_mul_right d h
    exact ⟨hd, by omega⟩
  split_ifs with hle
  · refine ⟨le_rfl, fun h => ?_⟩
    obtain ⟨hd, hfit⟩ := hq (by omega)
    have : n * d ≤ q * d := Nat.mul_le_mul_right d hle
    exact ⟨hd, by omega⟩
  · exact ⟨by omega, hq⟩

/-- The evaluation by binades agrees with the additions one by one. -/
theorem accumulate_correct (mc : Nat) (ec : Int) (hmc : mc < 2 ^ 24) :
    ∀ (fuel m sh n : Nat) (r : Nat × Nat), 2 ^ 23 ≤ m → m ≤ 2 ^ 24 →
      accumulate mc fuel m sh n = some r →
      addRepeat ⟨mc, ec⟩ n ⟨m, ec + sh⟩ = ⟨r.1, ec + (r.2 : Nat)⟩ := by
  intro fuel
  induction fuel with
  | zero =>
    intro m sh n r _ _ h
    exact absurd h (by simp [accumulate])
  | succ fuel ih =>
    intro m sh n r hm1 hm2 h
    obtain ⟨hkn, hkpos⟩ := jumpCount_spec mc m sh n
    have hjump : addRepeat ⟨mc, ec⟩ (jumpCount mc m sh n) ⟨m, ec + sh⟩ =
        ⟨m + jumpCount mc m sh n * jumpIncrement mc m sh, ec + sh⟩ := by
      by_cases hk0 : jumpCount mc m sh n = 0
      · rw [hk0, Nat.zero_mul, Nat.add_zero]
        rfl
      · obtain ⟨hd, hfit⟩ := hkpos (by omega)
        exact addRepeat_jump mc sh ec hmc _ m hm1 hd hfit
    have hm1b : 2 ^ 23 ≤ m + jumpCount mc m sh n * jumpIncrement mc m sh := by omega
    have hm2b : m + jumpCount mc m sh n * jumpIncrement mc m sh ≤ 2 ^ 24 := by
      by_cases hk0 : jumpCount mc m sh n = 0
      · rw [hk0, Nat.zero_mul, Nat.add_zero]
        exact hm2
      · exact (hkpos (by omega)).2.le
    unfold accumulate at h
    simp only [cond_eq_if, Nat.beq_eq, Nat.blt_eq, Nat.pow_eq, Nat.mul_eq, Nat.add_eq,
      Nat.sub_eq, Nat.succ_eq_add_one, Nat.pred_eq_sub_one, jumpEnd_eq] at h
    by_cases hall : jumpCount mc m sh n = n
    · rw [if_pos hall] at h
      rw [← Option.some.inj h]
      rw [hall] at hjump
      exact hjump
    · rw [if_neg hall] at h
      have hn : n = jumpCount mc m sh n + ((n - jumpCount mc m sh n - 1) + 1) := by omega
      have hsplit : addRepeat ⟨mc, ec⟩ n ⟨m, ec + sh⟩ =
          addRepeat ⟨mc, ec⟩ (n - jumpCount mc m sh n - 1)
            (FP.add binary32 ⟨m + jumpCount mc m sh n * jumpIncrement mc m sh, ec + sh⟩
              ⟨mc, ec⟩) := by
        conv_lhs => rw [hn, addRepeat_add, hjump]
        rfl
      rw [hsplit, add_step mc _ sh ec hm1b hm2b hmc]
      have hlo : 2 ^ (23 + sh) ≤
          (m + jumpCount mc m sh n * jumpIncrement mc m sh) * 2 ^ sh + mc := by
        rw [pow_add]
        have := Nat.mul_le_mul_right (2 ^ sh) hm1b
        omega
      have hhi : (m + jumpCount mc m sh n * jumpIncrement mc m sh) * 2 ^ sh + mc <
          2 ^ (24 + (sh + 1)) := by
        have hpos : 0 < 2 ^ sh := by positivity
        have h1 : 2 ^ (24 + (sh + 1)) = 2 * (2 ^ 24 * 2 ^ sh) := by
          rw [show 24 + (sh + 1) = (24 + sh) + 1 by omega, pow_succ, pow_add]
          ring
        have h2 := Nat.mul_le_mul_right (2 ^ sh) hm2b
        have h3 : 2 ^ 24 * 1 ≤ 2 ^ 24 * 2 ^ sh := Nat.mul_le_mul_left _ hpos
        rw [h1]
        omega
      by_cases hx : (m + jumpCount mc m sh n * jumpIncrement mc m sh) * 2 ^ sh + mc <
          2 ^ (24 + sh)
      · rw [if_pos hx] at h ⊢
        obtain ⟨hb1, hb2⟩ := roundAt_bounds _ sh hlo hx
        exact ih _ sh _ r hb1 hb2 h
      · rw [if_neg hx] at h ⊢
        obtain ⟨hb1, hb2⟩ := roundAt_bounds _ (sh + 1)
          (by rw [show 23 + (sh + 1) = 24 + sh by omega]; omega) hhi
        exact ih _ (sh + 1) _ r hb1 hb2 h

theorem add_zero_start (mc : Nat) (ec : Int) (hec : ec ≤ 0) (h1 : 2 ^ 23 ≤ mc)
    (h2 : mc < 2 ^ 24) : FP.add binary32 ⟨0, 0⟩ ⟨mc, ec⟩ = ⟨mc, ec⟩ := by
  have hmin : min (0 : Int) ec = ec := min_eq_right hec
  show FP.round binary32 ⟨0 * 2 ^ ((0 : Int) - min 0 ec).toNat +
    mc * 2 ^ (ec - min 0 ec).toNat, min 0 ec⟩ = _
  rw [hmin, sub_self, Int.toNat_zero, pow_zero, mul_one, Nat.zero_mul, Nat.zero_add,
    round_at mc 0 ec h1 h2]
  have h0 : roundAt mc 0 = mc := by
    rw [roundAt_eq, pow_zero, Nat.mod_one, Nat.div_one]
    simp
  rw [h0]
  simp

theorem mul_const (K E v : Nat) (hK1 : 2 ^ 23 ≤ K) (hK2 : K < 2 ^ 24) (hv1 : 1 ≤ v)
    (hv2 : v < 256) :
    (2 ^ 23 ≤ roundAt (K * v) (excessBits (K * v)) ∧
      roundAt (K * v) (excessBits (K * v)) ≤ 2 ^ 24) ∧
    FP.mul binary32 ⟨K, -(E : Int)⟩ (FP.ofNat v) =
      ⟨roundAt (K * v) (excessBits (K * v)), -(E : Int) + (excessBits (K * v) : Nat)⟩ := by
  have hx1 : 2 ^ 23 ≤ K * v := le_trans hK1 (Nat.le_mul_of_pos_right K hv1)
  have hx2 : K * v < 2 ^ 32 := by
    have h := Nat.mul_lt_mul'' hK2 hv2
    norm_num at h ⊢
    exact h
  obtain ⟨h1, h2⟩ := excessBits_spec (K * v) hx1 hx2
  refine ⟨roundAt_bounds _ _ h1 h2, ?_⟩
  show FP.round binary32 ⟨K * v, -(E : Int) + 0⟩ = _
  rw [add_zero]
  exact round_at _ _ _ h1 h2

theorem trunc_neg_exp (m j : Nat) : FP.trunc ⟨m, -(j : Int)⟩ = m / 2 ^ j := by
  unfold FP.trunc
  by_cases hj : j = 0
  · subst hj
    simp
  · have hneg : ¬ (0 : Int) ≤ -(j : Int) := by omega
    simp only [hneg, if_false, neg_neg, Int.toNat_ofNat]

/-- The `N²`-fold accumulation of `(K · 2^-E) · v` from the evaluation by binades. -/
theorem accumulate_sum (K E N v m sh : Nat) (hK1 : 2 ^ 23 ≤ K) (hK2 : K < 2 ^ 24)
    (hN : 1 ≤ N) (hv1 : 1 ≤ v) (hv2 : v < 256)
    (hmc : roundAt (K * v) (excessBits (K * v)) < 2 ^ 24)
    (hle : excessBits (K * v) + sh ≤ E)
    (hacc : accumulate (roundAt (K * v) (excessBits (K * v))) 40
      (roundAt (K * v) (excessBits (K * v))) 0 (N * N - 1) = some (m, sh)) :
    addRepeat (FP.mul binary32 ⟨K, -(E : Int)⟩ (FP.ofNat v)) (N * N) ⟨0, 0⟩ =
      ⟨m, -((E - (excessBits (K * v) + sh) : Nat) : Int)⟩ := by
  obtain ⟨⟨hmc1, -⟩, hmul⟩ := mul_const K E v hK1 hK2 hv1 hv2
  rw [hmul]
  generalize roundAt (K * v) (excessBits (K * v)) = mc at hmc hmc1 hacc ⊢
  generalize excessBits (K * v) = t at hle ⊢
  have hcorr := accumulate_correct mc (-(E : Int) + (t : Nat)) hmc 40 mc 0 (N * N - 1) (m, sh)
    hmc1 (by omega) hacc
  simp only [Nat.cast_zero, add_zero] at hcorr
  have hNN : N * N = (N * N - 1) + 1 := by
    have := Nat.mul_le_mul hN hN
    omega
  rw [hNN]
  show addRepeat _ (N * N - 1) (FP.add binary32 ⟨0, 0⟩ ⟨mc, -(E : Int) + (t : Nat)⟩) = _
  rw [add_zero_start mc _ (by omega) hmc1 hmc, hcorr]
  have hexp : -(E : Int) + (t : Nat) + (sh : Nat) = -((E - (t + sh) : Nat) : Int) := by omega
  rw [hexp]

theorem constantBlurCheck_sound (K E N v : Nat) (hK1 : 2 ^ 23 ≤ K) (hK2 : K < 2 ^ 24)
    (hN : 1 ≤ N) (hv : v < 256) (h : constantBlurCheck K E N v = true) :
    (addRepeat (FP.mul binary32 ⟨K, -(E : Int)⟩ (FP.ofNat v)) (N * N) ⟨0, 0⟩).trunc = v ∨
      (addRepeat (FP.mul binary32 ⟨K, -(E : Int)⟩ (FP.ofNat v)) (N * N) ⟨0, 0⟩).trunc + 1 =
        v := by
  unfold constantBlurCheck at h
  simp only [Nat.mul_eq, Nat.pred_eq_sub_one, Bool.and_eq_true, Nat.ble_eq, Nat.blt_eq] at h
  obtain ⟨⟨hv1, hmc⟩, hrest⟩ := h
  cases hacc : accumulate (roundAt (K * v) (excessBits (K * v))) 40
      (roundAt (K * v) (excessBits (K * v))) 0 (N * N - 1) with
  | none =>
    rw [hacc] at hrest
    exact absurd hrest (by simp)
  | some r =>
    obtain ⟨m, sh⟩ := r
    rw [hacc] at hrest
    simp only [Bool.and_eq_true, Bool.or_eq_true, Nat.ble_eq, Nat.beq_eq, Nat.add_eq,
      Nat.sub_eq, Nat.pow_eq, raw_div, Nat.succ_eq_add_one] at hrest
    obtain ⟨hle, hres⟩ := hrest
    rw [accumulate_sum K E N v m sh hK1 hK2 hN hv1 hv hmc hle hacc, trunc_neg_exp]
    exact hres

theorem constantBlurRow_sound (K E N : Nat) : ∀ V, constantBlurRow K E N V = true →
    ∀ v, v < V → v * (N * N + 1) ≤ 32500000 ∨ constantBlurCheck K E N v = true := by
  intro V
  induction V with
  | zero =>
    intro _ v hv
    omega
  | succ V ih =>
    intro h v hv
    simp only [constantBlurRow, Bool.and_eq_true, Bool.or_eq_true, Nat.ble_eq, Nat.mul_eq,
      Nat.succ_eq_add_one] at h
    rcases Nat.lt_succ_iff_lt_or_eq.mp hv with hlt | heq
    · exact ih h.2 v hlt
    · subst heq
      exact h.1

theorem constantBlurRows_sound (lo : Nat) : ∀ k, constantBlurRows lo k = true →
    ∀ j, j < k → constantBlurRowOK (lo + 2 * j) = true := by
  intro k
  induction k with
  | zero =>
    intro _ j hj
    omega
  | succ k ih =>
    intro h j hj
    simp only [constantBlurRows, Bool.and_eq_true] at h
    rcases Nat.lt_succ_iff_lt_or_eq.mp hj with hlt | heq
    · exact ih h.2 j hlt
    · subst heq
      exact h.1

theorem constantBlurRows_359 : constantBlurRows 359 22 = true := by decide!

theorem constantBlurRows_403 : constantBlurRows 403 22 = true := by decide!

theorem constantBlurRows_447 : constantBlurRows 447 22 = true := by decide!

theorem constantBlurRows_491 : constantBlurRows 491 23 = true := by decide!

theorem foldl_blocks {α : Type} (c : FP) (n : Nat) (g : FP → α → FP) :
    ∀ (l : List α) (s : FP), (∀ a ∈ l, ∀ t, g t a = addRepeat c n t) →
      l.foldl g s = addRepeat c (l.length * n) s := by
  intro l
  induction l with
  | nil =>
    intro s _
    simp [addRepeat]
  | cons a l ih =>
    intro s h
    rw [List.foldl_cons, ih _ (fun b hb => h b (List.mem_cons_of_mem a hb)),
      h a (List.mem_cons_self a l), List.length_cons,
      show (l.length + 1) * n = n + l.length * n by ring, addRepeat_add]

/-- On a window in which every byte equals `v`, the window sum is the `(2M+1)²`-fold
accumulation of one and the same product. -/
theorem windowSum_const (pixel : List Byte) (v : Byte) (N w M i j : Nat)
    (h : ∀ kk ll, kk < 2 * M + 1 → ll < 2 * M + 1 →
      pixel.getD ((i + kk - M) * w + (j + ll - M)) 0 = v) :
    windowSum pixel N w M i j =
      addRepeat (FP.mul binary32 (kernelValue N) (FP.ofNat v.val))
        ((2 * M + 1) * (2 * M + 1)) ⟨0, 0⟩ := by
  unfold windowSum
  rw [foldl_blocks (FP.mul binary32 (kernelValue N) (FP.ofNat v.val)) (2 * M + 1) _
    (List.range (2 * M + 1)) ⟨0, 0⟩, List.length_range]
  intro kk hkk t
  rw [foldl_blocks (FP.mul binary32 (kernelValue N) (FP.ofNat v.val)) 1 _
    (List.range (2 * M + 1)) t, List.length_range, Nat.mul_one]
  intro ll hll u
  rw [h kk ll (List.mem_range.mp hkk) (List.mem_range.mp hll)]
  rfl

/-- The blur of an image whose byte matrix is constant: every processed cell receives the
truncated `N²`-fold accumulation of `(1/N²)·v`. -/
theorem blur_constant_value (img : BMP_Image) (N : Nat) (v : Byte) (hpre : BlurPre img N)
    (hconst : ∀ p, p < img.height * (3 * img.width) → img.pixel[p]? = some v) :
    ∃ px : List Byte, BMP_blur_loops img N = some { img with pixel := px } ∧
      ∀ i j, (N - 1) / 2 ≤ i → i + (N - 1) / 2 < img.height →
        (N - 1) / 2 ≤ j → j + (N - 1) / 2 < 3 * img.width →
        px[i * (3 * img.width) + j]? =
          some (toByte (addRepeat (FP.mul binary32 (kernelValue N) (FP.ofNat v.val))
            (N * N) ⟨0, 0⟩).trunc) := by
  obtain ⟨px, hpx, -, hin, -, -⟩ := blur_loops_spec img N hpre
  refine ⟨px, hpx, ?_⟩
  intro i j hi1 hi2 hj1 hj2
  have hodd : 2 * ((N - 1) / 2) + 1 = N := by
    have := hpre.1
    have := hpre.2.1
    omega
  rw [hin i j hi1 hi2 hj1 hj2, windowSum_const img.pixel v N (3 * img.width) ((N - 1) / 2) i j,
    hodd]
  intro kk ll hkk hll
  have hlt := cell_index_bound (3 * img.width) img.height (i + kk - (N - 1) / 2)
    (j + ll - (N - 1) / 2) (by omega) (by omega)
  rw [List.getD_eq_getElem?_getD, hconst _ hlt]
  rfl

theorem blurPre_constantImage (w h N : Nat) (v : Byte) (hodd : N % 2 = 1) (h3 : 3 ≤ N)
    (hh : (N - 1) / 2 ≤ h) (hw : (N - 1) / 2 ≤ 3 * w) (hsize : h * (3 * w) < 2 ^ 32) :
    BlurPre (constantImage w h v) N := by
  refine ⟨hodd, h3, hh, hw, ?_, ?_⟩
  · show h * (3 * w) ≤ (List.replicate (h * (3 * w)) v).length
    rw [List.length_replicate]
  · show (List.replicate (h * (3 * w)) v).length < 2 ^ 32
    rw [List.length_replicate]
    exact hsize

theorem constantImage_bytes (w h : Nat) (v : Byte) (p : Nat) (hp : p < h * (3 * w)) :
    (constantImage w h v).pixel[p]? = some v := by
  show (List.replicate (h * (3 * w)) v)[p]? = some v
  rw [List.getElem?_replicate, if_pos hp]

theorem accumulation_537 :
    addRepeat (FP.mul binary32 (kernelValue 537) (FP.ofNat 253)) (537 * 537) ⟨0, 0⟩ =
      ⟨16509974, -16⟩ := by
  have hK : kernelValue 537 = ⟨15251454, -((42 : Nat) : Int)⟩ := by decide!
  rw [hK, accumulate_sum 15251454 42 537 253 16509974 18 (by decide) (by decide) (by decide)
    (by decide) (by decide) (by decide!) (by decide!) (by decide!)]
  decide!

/-- C11 (counterexample): in the 537x537 image all of whose pixels are (253, 253, 253),
blurred with N = 537 (M = 268), the only interior pixel (268, 268) receives
(251, 251, 251): each channel is the truncation of the single-precision sum of 537² equal
terms, which is 251.92…, two below v = 253. -/
theorem blur_constant_image_counterexample :
    ∃ out : BMP_Image, BMP_blur_loops (constantImage 537 537 253) 537 = some out ∧
      out.pixel[268 * (3 * 537) + (3 * 268 + 0)]? = some 251 ∧
      out.pixel[268 * (3 * 537) + (3 * 268 + 1)]? = some 251 ∧
      out.pixel[268 * (3 * 537) + (3 * 268 + 2)]? = some 251 := by
  obtain ⟨px, hpx, hin⟩ := blur_constant_value (constantImage 537 537 253) 537 253
    (blurPre_constantImage 537 537 537 253 (by decide) (by decide) (by decide) (by decide)
      (by decide))
    (constantImage_bytes 537 537 253)
  have hv : toByte (addRepeat (FP.mul binary32 (kernelValue 537) (FP.ofNat (253 : Byte).val))
      (537 * 537) ⟨0, 0⟩).trunc = 251 := by
    rw [show ((253 : Byte).val) = 253 from rfl, accumulation_537]
    decide!
  rw [hv] at hin
  refine ⟨_, hpx, ?_, ?_, ?_⟩
  · exact hin 268 (3 * 268 + 0) (by decide) (by decide) (by decide) (by decide)
  · exact hin 268 (3 * 268 + 1) (by decide) (by decide) (by decide) (by decide)
  · exact hin 268 (3 * 268 + 2) (by decide) (by decide) (by decide) (by decide)

/-- The kernel value for sizes below 536, in integers: `kernelValue N` is `1 / N²` up to
a relative error of `2^-23`. -/
theorem kernelValue_bound : ∀ N, N < 536 → 1 ≤ N →
    (kernelValue N).e < 0 ∧
      (kernelValue N).m * (N * N) * 8388608 ≤ 2 ^ (-(kernelValue N).e).toNat * 8388609 ∧
      2 ^ (-(kernelValue N).e).toNat * 8388607 ≤ (kernelValue N).m * (N * N) * 8388608 := by
  decide!

theorem kernelValue_toRat (N : Nat) (h1 : 1 ≤ N) (h2 : N < 536) :
    (kernelValue N).toRat * ((N : ℚ) * N) * 8388608 ≤ 8388609 ∧
      8388607 ≤ (kernelValue N).toRat * ((N : ℚ) * N) * 8388608 := by
  obtain ⟨he, hup, hlo⟩ := kernelValue_bound N h2 h1
  generalize kernelValue N = K at he hup hlo ⊢
  have hE : (((-K.e).toNat : Nat) : Int) = -K.e := Int.toNat_of_nonneg (by omega)
  generalize (-K.e).toNat = E at hE hup hlo
  have hEpos : (0 : ℚ) < 2 ^ E := by positivity
  have hval : (K.m : ℚ) = K.toRat * 2 ^ E := by
    unfold FP.toRat
    have hxe : K.e = -(E : Int) := by omega
    rw [hxe, zpow_neg, zpow_natCast, mul_assoc, inv_mul_cancel₀ hEpos.ne', mul_one]
  have hupq : ((K.m * (N * N) * 8388608 : Nat) : ℚ) ≤ ((2 ^ E * 8388609 : Nat) : ℚ) :=
    Nat.cast_le.mpr hup
  have hloq : ((2 ^ E * 8388607 : Nat) : ℚ) ≤ ((K.m * (N * N) * 8388608 : Nat) : ℚ) :=
    Nat.cast_le.mpr hlo
  push_cast at hupq hloq
  rw [hval] at hupq hloq
  generalize K.toRat = k at hupq hloq ⊢
  generalize (2 : ℚ) ^ E = P at hEpos hupq hloq
  constructor
  · have h : P * (k * ((N : ℚ) * N) * 8388608) ≤ P * 8388609 := by linarith
    exact le_of_mul_le_mul_left h hEpos
  · have h : P * 8388607 ≤ P * (k * ((N : ℚ) * N) * 8388608) := by linarith
    exact le_of_mul_le_mul_left h hEpos

theorem addRepeat_succ_last (c : FP) (n : Nat) (s : FP) :
    addRepeat c (n + 1) s = FP.add binary32 (addRepeat c n s) c :=
  addRepeat_add c 1 n s

/-- Accumulated rounding error: each addition is off by at most `2^-24` of its result, so
after `t ≤ 300000` additions the sum is within `0.505 · 2^-24 · t · (t + 1) · c` of
`t · c`. -/
theorem addRepeat_error (c : FP) (n : Nat) (hn : n ≤ 300000) : ∀ t, t ≤ n →
    (addRepeat c t ⟨0, 0⟩).toRat ≤
        t * c.toRat + 101 / 200 / 2 ^ 24 * (c.toRat * t * (t + 1)) ∧
      t * c.toRat ≤
        (addRepeat c t ⟨0, 0⟩).toRat + 101 / 200 / 2 ^ 24 * (c.toRat * t * (t + 1)) := by
  intro t
  induction t with
  | zero =>
    intro _
    simp [addRepeat, FP.toRat]
  | succ k ih =>
    intro hk
    obtain ⟨ih1, ih2⟩ := ih (by omega)
    rw [addRepeat_succ_last]
    obtain ⟨ha1, ha2⟩ := toRat_add binary32 (addRepeat c k ⟨0, 0⟩) c
    generalize (addRepeat c k ⟨0, 0⟩).toRat = x at ih1 ih2 ha1 ha2
    generalize (FP.add binary32 (addRepeat c k ⟨0, 0⟩) c).toRat = y at ha1 ha2
    have hc0 := toRat_nonneg c
    generalize c.toRat = C at ih1 ih2 ha1 ha2 hc0 ⊢
    have hk0 : (0 : ℚ) ≤ k := Nat.cast_nonneg k
    have hkn : (k : ℚ) ≤ 300000 := by
      have : k ≤ 300000 := by omega
      exact_mod_cast this
    simp only [binary32] at ha1 ha2
    push_cast
    generalize (k : ℚ) = T at ih1 ih2 hk0 hkn ⊢
    have hup : 0 ≤ C * (T + 1) * (1 / 100 - 101 / 200 / 2 ^ 24 * T) :=
      mul_nonneg (mul_nonneg hc0 (by linarith)) (by norm_num; linarith)
    have hlo : 0 ≤ C * (T + 1) * (1 / 100 + 101 / 200 / 2 ^ 24 * T) :=
      mul_nonneg (mul_nonneg hc0 (by linarith)) (by norm_num; linarith)
    norm_num at ha1 ha2 hup hlo ih1 ih2 ⊢
    constructor
    · linarith
    · linarith

/-- While `v · (N² + 1) ≤ 32500000` the accumulated rounding error stays below 1: the
`N²`-fold accumulation of `(1/N²)·v` truncates to `v` or to `v - 1`. -/
theorem constant_sum_small (N : Nat) (v : Byte) (h1 : 1 ≤ N) (h2 : N ≤ 535)
    (hT : v.val * (N * N + 1) ≤ 32500000) :
    (addRepeat (FP.mul binary32 (kernelValue N) (FP.ofNat v.val)) (N * N) ⟨0, 0⟩).trunc =
        v.val ∨
      (addRepeat (FP.mul binary32 (kernelValue N) (FP.ofNat v.val)) (N * N) ⟨0, 0⟩).trunc + 1 =
        v.val := by
  obtain ⟨hk1, hk2⟩ := kernelValue_toRat N h1 (by omega)
  obtain ⟨hm1, hm2⟩ := toRat_mul binary32 (kernelValue N) (FP.ofNat v.val)
  rw [toRat_ofNat] at hm1 hm2
  have hv0 : (0 : ℚ) ≤ (v.val : ℚ) := Nat.cast_nonneg _
  have hv255 : ((v.val : Nat) : ℚ) ≤ 255 := by
    have : v.val ≤ 255 := by have := v.isLt; omega
    exact_mod_cast this
  have hn0 : (0 : ℚ) ≤ ((N * N : Nat) : ℚ) := Nat.cast_nonneg _
  have hNN : N * N ≤ 535 * 535 := Nat.mul_le_mul h2 h2
  have hnn : ((N * N : Nat) : ℚ) ≤ 286225 := by exact_mod_cast hNN
  have hTq : ((v.val : Nat) : ℚ) * (((N * N : Nat) : ℚ) + 1) ≤ 32500000 := by
    exact_mod_cast hT
  have hncast : ((N * N : Nat) : ℚ) = (N : ℚ) * N := by push_cast; ring
  rw [← hncast] at hk1 hk2
  obtain ⟨he1, he2⟩ := addRepeat_error (FP.mul binary32 (kernelValue N) (FP.ofNat v.val))
    (N * N) (by omega) (N * N) le_rfl
  obtain ⟨ht1, ht2⟩ := toRat_trunc
    (addRepeat (FP.mul binary32 (kernelValue N) (FP.ofNat v.val)) (N * N) ⟨0, 0⟩)
  generalize (addRepeat (FP.mul binary32 (kernelValue N) (FP.ofNat v.val)) (N * N)
    ⟨0, 0⟩).toRat = S at he1 he2 ht1 ht2
  generalize (addRepeat (FP.mul binary32 (kernelValue N) (FP.ofNat v.val)) (N * N)
    ⟨0, 0⟩).trunc = T at ht1 ht2 ⊢
  have hc0 := toRat_nonneg (FP.mul binary32 (kernelValue N) (FP.ofNat v.val))
  generalize (FP.mul binary32 (kernelValue N) (FP.ofNat v.val)).toRat = c at hm1 hm2 he1 he2 hc0
  generalize (kernelValue N).toRat = k at hk1 hk2 hm1 hm2
  generalize ((N * N : Nat) : ℚ) = n at hn0 hnn hk1 hk2 hTq he1 he2
  generalize hw : ((v.val : Nat) : ℚ) = w at hv0 hv255 hm1 hm2 hTq
  simp only [binary32] at hm1 hm2
  -- `n·c` against `n·k·v` against `v`
  have hd1 := mul_le_mul_of_nonneg_right hk1 hv0
  have hd2 := mul_le_mul_of_nonneg_right hk2 hv0
  have hb1 := mul_le_mul_of_nonneg_left hm1 hn0
  have hb2 := mul_le_mul_of_nonneg_left hm2 hn0
  have hbv1 : n * c ≤ w + 1 / 1000 := by
    norm_num at hd1 hd2 hb1 hb2 ⊢
    nlinarith
  have hbv2 : w ≤ n * c + 1 / 1000 := by
    norm_num at hd1 hd2 hb1 hb2 ⊢
    nlinarith
  have hprod : n * c * (n + 1) ≤ (w + 1 / 1000) * (n + 1) :=
    mul_le_mul_of_nonneg_right hbv1 (by linarith)
  have hprod0 : 0 ≤ c * n * (n + 1) := mul_nonneg (mul_nonneg hc0 hn0) (by linarith)
  have hT1 : (T : ℚ) < w + 1 := by
    norm_num at he1 he2 hprod ⊢
    linarith
  have hT2 : w < (T : ℚ) + 2 := by
    norm_num at he1 he2 hprod ⊢
    linarith
  rw [← hw] at hT1 hT2
  have hT1n : T < v.val + 1 := by exact_mod_cast hT1
  have hT2n : v.val < T + 2 := by exact_mod_cast hT2
  omega

theorem constantBlur_table (N : Nat) (hodd : N % 2 = 1) (h1 : 359 ≤ N) (h2 : N ≤ 535) :
    constantBlurRowOK N = true := by
  by_cases ha : N < 403
  · have h := constantBlurRows_sound 359 22 constantBlurRows_359 ((N - 359) / 2) (by omega)
    rw [show 359 + 2 * ((N - 359) / 2) = N by omega] at h
    exact h
  · by_cases hb : N < 447
    · have h := constantBlurRows_sound 403 22 constantBlurRows_403 ((N - 403) / 2) (by omega)
      rw [show 403 + 2 * ((N - 403) / 2) = N by omega] at h
      exact h
    · by_cases hc : N < 491
      · have h := constantBlurRows_sound 447 22 constantBlurRows_447 ((N - 447) / 2)
          (by omega)
        rw [show 447 + 2 * ((N - 447) / 2) = N by omega] at h
        exact h
      · have h := constantBlurRows_sound 491 23 constantBlurRows_491 ((N - 491) / 2)
          (by omega)
        rw [show 491 + 2 * ((N - 491) / 2) = N by omega] at h
        exact h

/-- Above the range of the error bound the accumulation is evaluated: for odd `N` from 359
to 535 it truncates to `v` or to `v - 1`. -/
theorem constant_sum_large (N : Nat) (v : Byte) (hodd : N % 2 = 1) (h1 : 359 ≤ N)
    (h2 : N ≤ 535) (hT : ¬ v.val * (N * N + 1) ≤ 32500000) :
    (addRepeat (FP.mul binary32 (kernelValue N) (FP.ofNat v.val)) (N * N) ⟨0, 0⟩).trunc =
        v.val ∨
      (addRepeat (FP.mul binary32 (kernelValue N) (FP.ofNat v.val)) (N * N) ⟨0, 0⟩).trunc + 1 =
        v.val := by
  have hrow := constantBlur_table N hodd h1 h2
  unfold constantBlurRowOK at hrow
  simp only [Bool.and_eq_true, decide_eq_true_eq, Nat.ble_eq, Nat.blt_eq] at hrow
  obtain ⟨⟨⟨he, hK1⟩, hK2⟩, hrow⟩ := hrow
  have hchk := (constantBlurRow_sound _ _ N 256 hrow v.val v.isLt).resolve_left hT
  generalize kernelValue N = Kv at he hK1 hK2 hchk ⊢
  obtain ⟨K, e⟩ := Kv
  have hE : e = -(((-e).toNat : Nat) : Int) := by
    have h0 : e ≤ 0 := he
    omega
  have hgoal := constantBlurCheck_sound K (-e).toNat N v.val hK1 hK2 (by omega) v.isLt hchk
  rw [← hE] at hgoal
  exact hgoal

/-- For every odd kernel size up to 535 the `N²`-fold accumulation of `(1/N²)·v` truncates
to `v` or to `v - 1`. -/
theorem constant_sum_trunc (N : Nat) (v : Byte) (hodd : N % 2 = 1) (h2 : N ≤ 535) :
    (addRepeat (FP.mul binary32 (kernelValue N) (FP.ofNat v.val)) (N * N) ⟨0, 0⟩).trunc =
        v.val ∨
      (addRepeat (FP.mul binary32 (kernelValue N) (FP.ofNat v.val)) (N * N) ⟨0, 0⟩).trunc + 1 =
        v.val := by
  by_cases hT : v.val * (N * N + 1) ≤ 32500000
  · exact constant_sum_small N v (by omega) h2 hT
  · have h359 : 359 ≤ N := by
      by_contra hlt
      have hN : N ≤ 357 := by omega
      have hNN : N * N ≤ 357 * 357 := Nat.mul_le_mul hN hN
      have hv := v.isLt
      have hle : v.val * (N * N + 1) ≤ 255 * (357 * 357 + 1) :=
        Nat.mul_le_mul (by omega) (by omega)
      omega
    exact constant_sum_large N v hodd h359 h2 hT

/-- C11 (amended): for every byte value v, every odd N with 3 ≤ N ≤ 535 and every image
satisfying `BlurPre` all of whose `height × 3·width` matrix bytes equal v, `BMP_blur`
completes and every channel c of every interior pixel (x, y), with M = (N-1)/2,
M ≤ x < width - M and M ≤ y < height - M, receives v or v - 1. -/
theorem blur_constant_image (img : BMP_Image) (N : Nat) (v : Byte) (hpre : BlurPre img N)
    (hN : N ≤ 535)
    (hconst : ∀ p, p < img.height * (3 * img.width) → img.pixel[p]? = some v)
    (x y c : Nat) (hx1 : (N - 1) / 2 ≤ x) (hx2 : x + (N - 1) / 2 < img.width)
    (hy1 : (N - 1) / 2 ≤ y) (hy2 : y + (N - 1) / 2 < img.height) (hc : c < 3) :
    ∃ (out : BMP_Image) (u : Byte), BMP_blur_loops img N = some out ∧
      out.pixel[y * (3 * img.width) + (3 * x + c)]? = some u ∧
      (u.val = v.val ∨ u.val + 1 = v.val) := by
  obtain ⟨px, hpx, hin⟩ := blur_constant_value img N v hpre hconst
  refine ⟨_, _, hpx, hin y (3 * x + c) hy1 hy2 (by omega) (by omega), ?_⟩
  have h3 := hpre.2.1
  have hlt := v.isLt
  have hval : ∀ T : Nat, T ≤ v.val → (toByte T).val = T := by
    intro T hT
    show T % 256 = T
    exact Nat.mod_eq_of_lt (by omega)
  rcases constant_sum_trunc N v hpre.1 hN with h | h
  · rw [hval _ (by omega)]
    exact Or.inl h
  · rw [hval _ (by omega)]
    exact Or.inr h

/-- Witness for C11 (amended): the 5x5 image of (100, 100, 100) blurred with N = 3, whose
only interior pixel (2, 2) (bytes 36, 37, 38) comes out as exactly (100, 100, 100). -/
theorem blur_constant_image_witness :
    (∃ (out : BMP_Image) (u : Byte), BMP_blur_loops (constantImage 5 5 100) 3 = some out ∧
      out.pixel[2 * (3 * (constantImage 5 5 100).width) + (3 * 2 + 0)]? = some u ∧
      (u.val = (100 : Byte).val ∨ u.val + 1 = (100 : Byte).val)) ∧
    Option.map (fun out : BMP_Image => (out.pixel[36]?, out.pixel[37]?, out.pixel[38]?))
      (BMP_blur_loops (constantImage 5 5 100) 3) = some (some 100, some 100, some 100) :=
  ⟨blur_constant_image (constantImage 5 5 100) 3 100 (by decide) (by decide)
    (constantImage_bytes 5 5 100) 2 2 0 (by decide) (by decide) (by decide) (by decide)
    (by decide), by decide!⟩

end Bmp
